import Mathlib

/-!
Verification of the CuriousEditor content core: the HTML⇄Markdown codec,
the plain-text projector, the view-mode synchronization controller of
`src/components/RichTextEditor.tsx`, and the document save paths of
`src/app/(drawer)/editor.tsx` and `services/documentService.ts`.

Strings are modelled as `List Char`.  Each JavaScript `String.replace`
call of the source is embedded as a left-to-right scanner that mirrors
the exact regex used there (leftmost match, lazy or greedy capture as in
the source, `.` not matching a newline unless the `s` flag is present,
global continuation after the match end).  Line-anchored patterns
(`^...$` with the `m` flag) are embedded by splitting on `'\n'`,
transforming each line, and re-joining, which is the behaviour of those
patterns for `'\n'`-separated text.
-/

set_option autoImplicit false

namespace CuriousEditor

abbrev Str := List Char

def ofStr (s : String) : Str := s.data

/-- ASCII whitespace as matched by the JavaScript `\s` class and `trim`
(the non-ASCII whitespace code points are irrelevant to this code). -/
def isWsJS (c : Char) : Bool :=
  c = ' ' ∨ c = '\t' ∨ c = '\n' ∨ c = '\r' ∨ c = '\x0b' ∨ c = '\x0c'

/-- JavaScript `String.prototype.trim`. -/
def trimC (l : Str) : Str :=
  ((l.dropWhile isWsJS).reverse.dropWhile isWsJS).reverse

def notGt (c : Char) : Bool := ¬ c = '>'

def notNl (c : Char) : Bool := ¬ c = '\n'

def notQuote (c : Char) : Bool := ¬ c = '"'

/-- If `pat` is a prefix of `l`, return the rest of `l`. -/
def stripPre : Str → Str → Option Str
  | [], l => some l
  | _ :: _, [] => none
  | p :: ps, c :: cs => if p = c then stripPre ps cs else none

/-- Split `l` at the first occurrence of `pat`: `some (before, after)`. -/
def splitFirst (pat : Str) : Str → Option (Str × Str)
  | [] =>
    match stripPre pat [] with
    | some r => some ([], r)
    | none => none
  | c :: cs =>
    match stripPre pat (c :: cs) with
    | some r => some ([], r)
    | none => (splitFirst pat cs).map fun q => (c :: q.1, q.2)

/-- Generic global-replace scanner.  `step l` returns `some (out, rest)`
when the pattern matches at the start of `l` (`out` the replacement,
`rest` the input after the match), and `none` otherwise; on `none` the
scanner keeps one character and retries at the next position, exactly
like a global JavaScript `replace`.  Fuelled to stay structurally
recursive. -/
def scanF (step : Str → Option (Str × Str)) : Nat → Str → Str
  | _, [] => []
  | 0, l => l
  | f + 1, c :: cs =>
    match step (c :: cs) with
    | some (out, rest) => out ++ scanF step f rest
    | none => c :: scanF step f cs

def scan (step : Str → Option (Str × Str)) (l : Str) : Str :=
  scanF step l.length l

/-- A tag-shaped pattern `opn[^>]*>(.*?)cls` (the `[^>]*>` part only when
`attrs` is set, `.` crossing newlines only when `dotAll` is set), with
`mkRep` building the replacement from the capture. -/
structure TagPat where
  opn : Str
  attrs : Bool
  cls : Str
  dotAll : Bool
  mkRep : Str → Str

/-- Consume `[^>]*>` when `b` is set. -/
def attrRest (b : Bool) (l : Str) : Option Str :=
  if b then
    match l.dropWhile notGt with
    | [] => none
    | c :: r => if c = '>' then some r else none
  else some l

def tagCap (p : TagPat) (l : Str) : Option (Str × Str) :=
  match stripPre p.opn l with
  | none => none
  | some r1 =>
    match attrRest p.attrs r1 with
    | none => none
    | some r2 =>
      match splitFirst p.cls r2 with
      | none => none
      | some (x, rest) =>
        if p.dotAll ∨ ¬ '\n' ∈ x then some (p.mkRep x, rest) else none

def tagSub (p : TagPat) (l : Str) : Str := scan (tagCap p) l

/-- Literal global replace (`pat` → `rep`). -/
def litStep (pat rep : Str) (l : Str) : Option (Str × Str) :=
  match stripPre pat l with
  | some r => some (rep, r)
  | none => none

def replAll (pat rep : Str) (l : Str) : Str := scan (litStep pat rep) l

/-- One step of `<[^>]*>` (drop any remaining tag). -/
def tagStripStep (l : Str) : Option (Str × Str) :=
  match l with
  | [] => none
  | c :: cs =>
    if c = '<' then
      match cs.dropWhile notGt with
      | [] => none
      | c2 :: r => if c2 = '>' then some ([], r) else none
    else none

def stripTags (l : Str) : Str := scan tagStripStep l

/-- Non-global replace: only the first match of the tag pattern is
replaced, the remainder is kept verbatim. -/
def replOnceT (p : TagPat) : Str → Str
  | [] => []
  | c :: cs =>
    match tagCap p (c :: cs) with
    | some (o, rest) => o ++ rest
    | none => c :: replOnceT p cs

/-- Split on `'\n'` (for the `m`-flagged line-anchored patterns). -/
def splitNl : Str → List Str
  | [] => [[]]
  | c :: cs =>
    if c = '\n' then [] :: splitNl cs
    else
      match splitNl cs with
      | [] => [[c]]
      | x :: xs => (c :: x) :: xs

def joinNl : List Str → Str
  | [] => []
  | [x] => x
  | x :: y :: xs => x ++ '\n' :: joinNl (y :: xs)

def perLine (f : Str → Str) (l : Str) : Str := joinNl ((splitNl l).map f)

/-- Index of the last `**` pair in `l` (for the greedy `\*\*(.*)\*\*`). -/
def lastPairIdx : Str → Option Nat
  | [] => none
  | [_] => none
  | c1 :: c2 :: cs =>
    match lastPairIdx (c2 :: cs) with
    | some j => some (j + 1)
    | none => if c1 = '*' ∧ c2 = '*' then some 0 else none

/-- Index of the last `*` in `l` (for the greedy `\*(.*)\*`). -/
def lastStarIdx : Str → Option Nat
  | [] => none
  | c :: cs =>
    match lastStarIdx cs with
    | some j => some (j + 1)
    | none => if c = '*' then some 0 else none

def strongOpen : Str := ofStr ("<strong>")
def strongClose : Str := ofStr ("</strong>")
def emOpen : Str := ofStr ("<em>")
def emClose : Str := ofStr ("</em>")

/-- One step of the greedy `/\*\*(.*)\*\*/g` (the capture runs to the
last `**` of the line, since `.` cannot cross a newline). -/
def boldStep (l : Str) : Option (Str × Str) :=
  match l with
  | c1 :: c2 :: cs =>
    if c1 = '*' ∧ c2 = '*' then
      let line := cs.takeWhile notNl
      match lastPairIdx line with
      | some j =>
        some (strongOpen ++ line.take j ++ strongClose,
              line.drop (j + 2) ++ cs.drop line.length)
      | none => none
    else none
  | _ => none

/-- One step of the greedy `/\*(.*)\*/g`. -/
def italStep (l : Str) : Option (Str × Str) :=
  match l with
  | [] => none
  | c :: cs =>
    if c = '*' then
      let line := cs.takeWhile notNl
      match lastStarIdx line with
      | some j =>
        some (emOpen ++ line.take j ++ emClose,
              line.drop (j + 1) ++ cs.drop line.length)
      | none => none
    else none

/-- First `)` with no intervening newline: `some (before, after)`. -/
def findClose : Str → Option (Str × Str)
  | [] => none
  | c :: cs =>
    if c = ')' then some ([], cs)
    else if c = '\n' then none
    else (findClose cs).map fun q => (c :: q.1, q.2)

/-- After a `]`, an immediate `(` whose `)` can be found. -/
def linkParen : Str → Option (Str × Str)
  | [] => none
  | c2 :: cs2 => if c2 = '(' then findClose cs2 else none

/-- Can the link close right here: `](` followed by a findable `)`. -/
def linkTryHead (c : Char) (cs : Str) : Option (Str × Str) :=
  if c = ']' then linkParen cs else none

/-- Backtracking body of `/\[(.*?)\]\((.*?)\)/g` after the opening `[`:
the lazy text capture grows past a `](` whose `)` cannot be found. -/
def linkTry : Str → Option (Str × Str × Str)
  | [] => none
  | c :: cs =>
    if c = '\n' then none
    else
      match linkTryHead c cs with
      | some (u, rest) => some ([], u, rest)
      | none =>
        match linkTry cs with
        | some (t, u, r) => some (c :: t, u, r)
        | none => none

def aOpen : Str := ofStr ("<a href=") ++ ['"']
def aClose : Str := ofStr ("</a>")

/-- One step of `/\[(.*?)\]\((.*?)\)/g` → `<a href="$2">$1</a>`. -/
def linkStep (l : Str) : Option (Str × Str) :=
  match l with
  | [] => none
  | c :: cs =>
    if c = '[' then
      match linkTry cs with
      | some (t, u, rest) =>
        some (aOpen ++ u ++ '"' :: '>' :: t ++ aClose, rest)
      | none => none
    else none

/-- One step of `/<br\s*\/?>/g` → `\n`. -/
def brStep (l : Str) : Option (Str × Str) :=
  match stripPre (ofStr ("<br")) l with
  | none => none
  | some r1 =>
    match r1.dropWhile isWsJS with
    | [] => none
    | c :: rest =>
      if c = '>' then some (['\n'], rest)
      else if c = '/' then
        match rest with
        | [] => none
        | c2 :: rest2 => if c2 = '>' then some (['\n'], rest2) else none
      else none

/-- One step of `/<a href="([^"]*)"[^>]*>(.*?)<\/a>/g` → `[$2]($1)`. -/
def mdAnchorStep (l : Str) : Option (Str × Str) :=
  match stripPre aOpen l with
  | none => none
  | some r1 =>
    let u := r1.takeWhile notQuote
    match r1.dropWhile notQuote with
    | [] => none
    | c :: r2 =>
      if c = '"' then
        match attrRest true r2 with
        | none => none
        | some r3 =>
          match splitFirst aClose r3 with
          | none => none
          | some (t, rest) =>
            if ¬ '\n' ∈ t then
              some ('[' :: t ++ ']' :: '(' :: u ++ [')'], rest)
            else none
      else none

def hOpenN (n : Nat) : Str := '<' :: 'h' :: Char.ofNat (48 + n) :: ['>']

def hCloseN (n : Nat) : Str := '<' :: '/' :: 'h' :: Char.ofNat (48 + n) :: ['>']

/-- `^#+ ` line transform for the heading level `n` (`m`-flagged). -/
def hLine (n : Nat) (l : Str) : Str :=
  ((stripPre (List.replicate n '#' ++ [' ']) l).map
    (fun rest => hOpenN n ++ rest ++ hCloseN n)).getD l

/-- `^- (.*$)` → `<ul><li>$1</li></ul>` line transform. -/
def liLine (l : Str) : Str :=
  ((stripPre ('-' :: [' ']) l).map
    (fun rest => ofStr ("<ul><li>") ++ rest ++ ofStr ("</li></ul>"))).getD l

def phOpen : Str := ofStr ("<div class=") ++ '"' :: ofStr ("placeholder") ++ '"' :: ['>']
def divClose : Str := ofStr ("</div>")

/-- The `/<div class="placeholder">.*?<\/div>/` marker pattern. -/
def phPat : TagPat :=
  { opn := phOpen, attrs := false, cls := divClose, dotAll := false,
    mkRep := fun _ => [] }

def h1Pat : TagPat :=
  { opn := ofStr ("<h1"), attrs := true, cls := ofStr ("</h1>"), dotAll := false,
    mkRep := fun x => '#' :: ' ' :: x ++ ['\n'] }

def h2Pat : TagPat :=
  { opn := ofStr ("<h2"), attrs := true, cls := ofStr ("</h2>"), dotAll := false,
    mkRep := fun x => '#' :: '#' :: ' ' :: x ++ ['\n'] }

def h3Pat : TagPat :=
  { opn := ofStr ("<h3"), attrs := true, cls := ofStr ("</h3>"), dotAll := false,
    mkRep := fun x => '#' :: '#' :: '#' :: ' ' :: x ++ ['\n'] }

def strongPat : TagPat :=
  { opn := ofStr ("<strong"), attrs := true, cls := ofStr ("</strong>"), dotAll := false,
    mkRep := fun x => '*' :: '*' :: x ++ '*' :: ['*'] }

def bPat : TagPat :=
  { opn := ofStr ("<b"), attrs := true, cls := ofStr ("</b>"), dotAll := false,
    mkRep := fun x => '*' :: '*' :: x ++ '*' :: ['*'] }

def emPat : TagPat :=
  { opn := ofStr ("<em"), attrs := true, cls := ofStr ("</em>"), dotAll := false,
    mkRep := fun x => '*' :: x ++ ['*'] }

def iPat : TagPat :=
  { opn := ofStr ("<i"), attrs := true, cls := ofStr ("</i>"), dotAll := false,
    mkRep := fun x => '*' :: x ++ ['*'] }

def ulPat : TagPat :=
  { opn := ofStr ("<ul>"), attrs := false, cls := ofStr ("</ul>"), dotAll := true,
    mkRep := fun x => x }

def olPat : TagPat :=
  { opn := ofStr ("<ol>"), attrs := false, cls := ofStr ("</ol>"), dotAll := true,
    mkRep := fun x => x }

def liPat : TagPat :=
  { opn := ofStr ("<li>"), attrs := false, cls := ofStr ("</li>"), dotAll := false,
    mkRep := fun x => '-' :: ' ' :: x ++ ['\n'] }

def pPat : TagPat :=
  { opn := ofStr ("<p>"), attrs := false, cls := ofStr ("</p>"), dotAll := false,
    mkRep := fun x => x ++ ['\n'] }

/-- `convertHTMLToMarkdown` (RichTextEditor.tsx, lines 33–57): the exact
ordered substitution chain of the source. -/
def convertHTMLToMarkdown (html : Str) : Str :=
  let c0 := replOnceT phPat html
  let c1 := tagSub h1Pat c0
  let c2 := tagSub h2Pat c1
  let c3 := tagSub h3Pat c2
  let c4 := tagSub strongPat c3
  let c5 := tagSub bPat c4
  let c6 := tagSub emPat c5
  let c7 := tagSub iPat c6
  let c8 := scan mdAnchorStep c7
  let c9 := tagSub ulPat c8
  let c10 := tagSub olPat c9
  let c11 := tagSub liPat c10
  let c12 := tagSub pPat c11
  let c13 := scan brStep c12
  let c14 := stripTags c13
  let c15 := replAll (ofStr ("&nbsp;")) [' '] c14
  let c16 := replAll (ofStr ("&amp;")) ['&'] c15
  let c17 := replAll (ofStr ("&lt;")) ['<'] c16
  let c18 := replAll (ofStr ("&gt;")) ['>'] c17
  trimC c18

def nlUl : Str := '\n' :: ofStr ("<ul>")
def liSep : Str := ofStr ("</li><li>")
def ulNlUl : Str := ofStr ("</ul>") ++ '\n' :: ofStr ("<ul>")
def ulClose : Str := ofStr ("</ul>")
def brTag : Str := ofStr ("<br>")

/-- `convertMarkdownToHTML` (RichTextEditor.tsx, lines 60–75): the exact
ordered substitution chain of the source. -/
def convertMarkdownToHTML (md : Str) : Str :=
  if trimC md = [] then [] else
  let c1 := perLine (hLine 1) md
  let c2 := perLine (hLine 2) c1
  let c3 := perLine (hLine 3) c2
  let c4 := scan boldStep c3
  let c5 := scan italStep c4
  let c6 := scan linkStep c5
  let c7 := perLine liLine c6
  let c8 := replAll nlUl liSep c7
  let c9 := replAll ulNlUl [] c8
  let c10 := replAll ulClose [] c9
  replAll ['\n'] brTag c10

/-- The documented round trip. -/
def roundTrip (html : Str) : Str :=
  convertMarkdownToHTML (convertHTMLToMarkdown html)

/-!
## Synchronization controller (RichTextEditor.tsx)

The controller state bundles the React state of the component and the
state of the WebView render host.  The asynchronous WebView bridge is
idealised as a persistent host with in-order, lossless message delivery:
a script injected into the host runs after the state updates of the
handler that injected it (and after the view-mode effect of lines
93–102), and the `contentChange` message a host mutation posts back is
handled before the next injected script runs.  The host's `innerText` is
modelled as the tag-stripped buffer. -/

inductive ViewMode
  | wysiwyg
  | html
  | markdown
  | preview
deriving DecidableEq, Repr

structure HostState where
  buf : Str
  isContentSet : Bool
deriving DecidableEq, Repr

structure EditorState where
  viewMode : ViewMode
  content : Str
  htmlContent : Str
  markdownContent : Str
  lastWysiwygContent : Str
  editorReady : Bool
  host : HostState
deriving DecidableEq, Repr

/-- Observable effects of a handler: `onChange` callbacks, the
`onEditorReady` callback, and content pushed into the render host. -/
inductive Emit
  | change (html text : Str)
  | readyCb
  | hostSet (html : Str)
  | hostCleared
deriving DecidableEq, Repr

def phDiv (ph : Str) : Str := phOpen ++ ph ++ divClose

/-- Host-side `editorFunctions.setContent` (editor page script, lines
287–296), including the `setPlaceholder` fallback for blank input. -/
def hostSetContent (ph : Str) (h : HostState) (html : Str) : HostState :=
  if ¬ trimC html = [] then { buf := html, isContentSet := true }
  else if trimC h.buf = [] ∧ h.isContentSet = false then
    { h with buf := phDiv ph }
  else h

/-- Host-side `editorFunctions.clearContent` (lines 306–312): empty the
buffer, drop `isContentSet`, and restore the placeholder. -/
def hostClear (ph : Str) : HostState :=
  { buf := phDiv ph, isContentSet := false }

/-- Model of the host's `innerText` for a buffer. -/
def innerTextOf (buf : Str) : Str := stripTags buf

/-- The `contentChange` case of `handleWebViewMessage` (lines 582–589):
strip the placeholder marker once, store the result in the canonical
content and every cache, and propagate through `onChange`. -/
def onContentChange (s : EditorState) (html text : Str) : EditorState × List Emit :=
  let clean := replOnceT phPat html
  ({ s with content := clean, htmlContent := clean,
            markdownContent := convertHTMLToMarkdown clean,
            lastWysiwygContent := clean },
   [Emit.change clean text])

/-- Deliver an injected `setContent` to the host; the host's
`updateContent` then posts `contentChange` back, which is handled. -/
def applyHostSet (ph : Str) (s : EditorState) (html : Str) : EditorState × List Emit :=
  let h := hostSetContent ph s.host html
  let r := onContentChange { s with host := h } h.buf (innerTextOf h.buf)
  (r.1, Emit.hostSet html :: r.2)

/-- The `editorReady` case of `handleWebViewMessage` (lines 571–581):
mark the editor ready, fire `onEditorReady`, and re-send the canonical
content to the host whenever it is non-empty. -/
def onReady (ph : Str) (s : EditorState) : EditorState × List Emit :=
  let s1 := { s with editorReady := true }
  if ¬ s1.content = [] then
    let r := applyHostSet ph s1 s1.content
    (r.1, Emit.readyCb :: r.2)
  else (s1, [Emit.readyCb])

/-- The imperative `clearContent` (lines 479–488). -/
def clearContent (ph : Str) (s : EditorState) : EditorState × List Emit :=
  let s1 := { s with content := ([] : Str), htmlContent := ([] : Str),
                     markdownContent := ([] : Str), lastWysiwygContent := ([] : Str) }
  let h := hostClear ph
  let r := onContentChange { s1 with host := h } h.buf (innerTextOf h.buf)
  (r.1, Emit.hostCleared :: r.2)

/-- Scripts a view switch injects into the host. -/
inductive HostOp
  | set (html : Str)
  | postContent
deriving DecidableEq, Repr

def runOps (ph : Str) : EditorState → List HostOp → EditorState × List Emit
  | s, [] => (s, [])
  | s, HostOp.set h :: rest =>
    let r1 := applyHostSet ph s h
    let r2 := runOps ph r1.1 rest
    (r2.1, r1.2 ++ r2.2)
  | s, HostOp.postContent :: rest =>
    let r1 := onContentChange s s.host.buf (innerTextOf s.host.buf)
    let r2 := runOps ph r1.1 rest
    (r2.1, r1.2 ++ r2.2)

/-- `handleViewModeChange` (lines 599–632) together with the wysiwyg
re-injection effect (lines 93–102).  Phase one performs the handler's
three conditioned branches and the `setViewMode`; the effect then
re-injects `lastWysiwygContent` when the new mode is wysiwyg; finally
the injected host scripts run in order. -/
def handleViewModeChange (ph : Str) (s : EditorState) (m : ViewMode) :
    EditorState × List Emit :=
  let p1 : EditorState × List HostOp :=
    if s.viewMode = ViewMode.wysiwyg ∧ ¬ m = ViewMode.wysiwyg then
      (s, [HostOp.postContent])
    else if s.viewMode = ViewMode.html ∧ m = ViewMode.wysiwyg then
      ({ s with lastWysiwygContent := s.htmlContent }, [HostOp.set s.htmlContent])
    else if s.viewMode = ViewMode.markdown ∧ m = ViewMode.wysiwyg then
      let hm := convertMarkdownToHTML s.markdownContent
      ({ s with lastWysiwygContent := hm }, [HostOp.set hm])
    else (s, [])
  let s2 := { p1.1 with viewMode := m }
  let ops2 : List HostOp :=
    if m = ViewMode.wysiwyg ∧ s2.editorReady = true ∧ ¬ s2.lastWysiwygContent = [] then
      [HostOp.set s2.lastWysiwygContent]
    else []
  runOps ph s2 (p1.2 ++ ops2)

/-- The HTML view's `onChangeText` (lines 646–655). -/
def htmlEdit (s : EditorState) (text : Str) : EditorState × List Emit :=
  ({ s with htmlContent := text, content := text },
   [Emit.change text (stripTags text)])

/-- The Markdown view's `onChangeText` (lines 671–681). -/
def markdownEdit (s : EditorState) (text : Str) : EditorState × List Emit :=
  let h := convertMarkdownToHTML text
  ({ s with markdownContent := text, content := h }, [Emit.change h text])

/-!
## Plain-text projector and the editor screen (editor.tsx)
-/

/-- JavaScript `s.split(/\s+/)`: pieces between maximal whitespace runs,
with an empty leading (trailing) piece when the string starts (ends)
with whitespace. -/
def splitWsJS : Str → List Str
  | [] => [[]]
  | [c] => if isWsJS c then [[], []] else [[c]]
  | c :: c2 :: cs2 =>
    if isWsJS c then
      if isWsJS c2 then splitWsJS (c2 :: cs2) else [] :: splitWsJS (c2 :: cs2)
    else List.modifyHead (fun t => c :: t) (splitWsJS (c2 :: cs2))

/-- `handleContentChange`'s word count (editor.tsx, line 113):
`text.trim() ? text.trim().split(/\s+/).length : 0`. -/
def countWords (text : Str) : Nat :=
  if trimC text = [] then 0 else (splitWsJS (trimC text)).length

/-- `handleContentChange`'s character count (line 114). -/
def countChars (text : Str) : Nat := text.length

/-- Word and character count of an HTML-mode buffer: the HTML view's
`onChangeText` hands `handleContentChange` the tag-stripped text. -/
def countWordsHtml (html : Str) : Nat := countWords (stripTags html)

def countCharsHtml (html : Str) : Nat := countChars (stripTags html)

/-- Specification-side word counter: the number of maximal nonempty runs
of non-whitespace characters. -/
def wsRunsAux : Bool → Str → Nat
  | _, [] => 0
  | inWord, c :: cs =>
    if isWsJS c then wsRunsAux false cs
    else (if inWord then 0 else 1) + wsRunsAux true cs

def wsRuns (l : Str) : Nat := wsRunsAux false l

/-- Persisted document record (editor.tsx `Document` /
documentService.ts `Document`).  Timestamps are modelled as natural
numbers; a JavaScript-falsy (absent or empty) `createdAt` or `category`
is `none`. -/
structure Document where
  id : Nat
  title : Str
  content : Str
  lastModified : Nat
  createdAt : Option Nat
  category : Option Str
deriving DecidableEq, Repr

/-- `handleSave` (editor.tsx, lines 119–139): build the record that is
persisted, at clock value `now`. -/
def handleSave (docState : Option Document) (title content : Str) (now : Nat) :
    Document :=
  { id := match docState with
          | some d => d.id
          | none => now
    title := title
    content := content
    lastModified := now
    createdAt := some (match docState with
                       | some d => (d.createdAt).getD now
                       | none => now)
    category := some ((docState.bind (fun d => d.category)).getD (ofStr ("general"))) }

/-- The storage write of `handleSave`: `AsyncStorage.setItem` keyed by
the document id. -/
def saveToStore (store : Nat → Option Document) (d : Document) :
    Nat → Option Document :=
  fun k => if k = d.id then some d else store k

/-- `DocumentService.saveDocument` (services/documentService.ts, lines
19–40): the record actually written for an input `document`. -/
def serviceSaveDocument (d : Document) (now : Nat) : Document :=
  { d with lastModified := now, createdAt := some ((d.createdAt).getD now) }

/-- A concrete controller state used by several counterexamples: the
user is editing markdown `**a**` while the html cache still holds
`<p>old</p>`. -/
def mdState0 : EditorState :=
  { viewMode := ViewMode.markdown
    content := []
    htmlContent := ofStr ("<p>old</p>")
    markdownContent := ofStr ("**a**")
    lastWysiwygContent := []
    editorReady := true
    host := { buf := [], isContentSet := false } }

/-- 1 when the string starts with whitespace. -/
def wsHead : Str → Nat
  | [] => 0
  | c :: _ => if isWsJS c then 1 else 0

/-- 1 when the string is empty or ends with whitespace. -/
def wsTail (l : Str) : Nat := if l = [] then 1 else wsHead l.reverse

/-- A concrete controller state whose editor is already ready while the
host buffer has drifted from the canonical content. -/
def readyState0 : EditorState :=
  { viewMode := ViewMode.wysiwyg
    content := ofStr ("<p>a</p>")
    htmlContent := ofStr ("<p>a</p>")
    markdownContent := ofStr ("a")
    lastWysiwygContent := ofStr ("<p>a</p>")
    editorReady := true
    host := { buf := ofStr ("<p>b</p>"), isContentSet := true } }

/-- A concrete state in markdown mode with unsaved markdown edits while
the last rich-view content is older. -/
def c2State : EditorState :=
  { viewMode := ViewMode.markdown
    content := ofStr ("<h1>T</h1>")
    htmlContent := ofStr ("<h1>T</h1>")
    markdownContent := ofStr ("# T")
    lastWysiwygContent := ofStr ("<p>old</p>")
    editorReady := true
    host := { buf := ofStr ("<p>old</p>"), isContentSet := true } }

/-- `c2State` after entering preview mode. -/
def prevState0 : EditorState := { c2State with viewMode := ViewMode.preview }

/-- A rich-mode state whose canonical body is exactly a placeholder
marker element. -/
def phBodyState : EditorState :=
  { viewMode := ViewMode.wysiwyg
    content := phDiv (ofStr ("p"))
    htmlContent := phDiv (ofStr ("p"))
    markdownContent := []
    lastWysiwygContent := phDiv (ofStr ("p"))
    editorReady := true
    host := { buf := phDiv (ofStr ("p")), isContentSet := true } }

/-- Does `pat` occur as a contiguous substring? -/
def occursB (pat : Str) : Str → Bool
  | [] => (stripPre pat []).isSome
  | c :: cs => (stripPre pat (c :: cs)).isSome || occursB pat cs

/-- Join pieces with a separator. -/
def interSep (sep : Str) : List Str → Str
  | [] => []
  | [x] => x
  | x :: y :: xs => x ++ sep ++ interSep sep (y :: xs)

/-- Characters with no markup significance for either conversion
direction: plain text for the purposes of the codec. -/
def plainChar (c : Char) : Bool :=
  ¬ (c = '<' ∨ c = '>' ∨ c = '&' ∨ c = '*' ∨ c = '[' ∨ c = ']' ∨ c = '(' ∨
     c = ')' ∨ c = '#' ∨ c = '-' ∨ c = '"' ∨ c = '\n' ∨ c = '\r')

/-- A markdown list line `- t`. -/
def mdLi (t : Str) : Str := '-' :: ' ' :: t

/-- The per-line output of the `^- ` pass. -/
def liWrap (t : Str) : Str := ofStr ("<ul><li>") ++ t ++ ofStr ("</li></ul>")

/-- A list item after `\n<ul>` coalescing, before `</ul>` removal. -/
def liHW (t : Str) : Str := ofStr ("<li>") ++ t ++ ofStr ("</li></ul>")

/-- A list item in the final output. -/
def liFull (t : Str) : Str := ofStr ("<li>") ++ t ++ ofStr ("</li>")

/-- A step function that always consumes part of its input. -/
def Shrinks (step : Str → Option (Str × Str)) : Prop :=
  ∀ l o r, step l = some (o, r) → r.length < l.length

/-- Does matching `pat` against `s` fail strictly inside `s`? -/
def mismatchWithin : Str → Str → Bool
  | _, [] => false
  | [], _ :: _ => false
  | p :: ps, c :: cs => if p = c then mismatchWithin ps cs else true

/-- Every nonempty suffix of `a` visibly fails to start `pat`. -/
def segSafe (pat : Str) : Str → Bool
  | [] => true
  | c :: cs => mismatchWithin pat (c :: cs) && segSafe pat cs

/-!
## A restricted supported-subset document grammar for the round trip
-/

def mdBold (b : Str) : Str := '*' :: '*' :: b ++ '*' :: ['*']

def mdItal (i : Str) : Str := '*' :: i ++ ['*']

def mdLink (t u : Str) : Str := '[' :: t ++ ']' :: '(' :: u ++ [')']

def htmlBold (b : Str) : Str := strongOpen ++ b ++ strongClose

def htmlItal (i : Str) : Str := emOpen ++ i ++ emClose

def htmlLink (t u : Str) : Str := aOpen ++ u ++ '"' :: '>' :: t ++ aClose

/-- Inline emphasis of one paragraph line: at most one bold span and at
most one italic span (separated by text when both occur), or one link. -/
inductive Mark
  | plain
  | bold (b : Str)
  | ital (i : Str)
  | boldItal (b mid i : Str)
  | italBold (i mid b : Str)
  | link (t u : Str)

structure Para where
  pre : Str
  mark : Mark
  post : Str

inductive Block
  | hd (n : Nat) (t : Str)
  | par (p : Para)

def mdMark : Mark → Str
  | .plain => []
  | .bold b => mdBold b
  | .ital i => mdItal i
  | .boldItal b mid i => mdBold b ++ mid ++ mdItal i
  | .italBold i mid b => mdItal i ++ mid ++ mdBold b
  | .link t u => mdLink t u

/-- The mark after the `**` pass of `convertMarkdownToHTML`. -/
def markB : Mark → Str
  | .plain => []
  | .bold b => htmlBold b
  | .ital i => mdItal i
  | .boldItal b mid i => htmlBold b ++ mid ++ mdItal i
  | .italBold i mid b => mdItal i ++ mid ++ htmlBold b
  | .link t u => mdLink t u

/-- The mark after the `*` pass as well. -/
def markBI : Mark → Str
  | .plain => []
  | .bold b => htmlBold b
  | .ital i => htmlItal i
  | .boldItal b mid i => htmlBold b ++ mid ++ htmlItal i
  | .italBold i mid b => htmlItal i ++ mid ++ htmlBold b
  | .link t u => mdLink t u

/-- The fully rendered html form of a mark. -/
def htmlMark : Mark → Str
  | .plain => []
  | .bold b => htmlBold b
  | .ital i => htmlItal i
  | .boldItal b mid i => htmlBold b ++ mid ++ htmlItal i
  | .italBold i mid b => htmlItal i ++ mid ++ htmlBold b
  | .link t u => htmlLink t u

def mdPara (p : Para) : Str := p.pre ++ mdMark p.mark ++ p.post

def paraB (p : Para) : Str := p.pre ++ markB p.mark ++ p.post

def paraBI (p : Para) : Str := p.pre ++ markBI p.mark ++ p.post

def htmlPara (p : Para) : Str := p.pre ++ htmlMark p.mark ++ p.post

def mdHd (n : Nat) (t : Str) : Str := List.replicate n '#' ++ ' ' :: t

/-- The markdown line of a block. -/
def mdB : Block → Str
  | .hd n t => mdHd n t
  | .par p => mdPara p

/-- The html of a block inside the WYSIWYG surface. -/
def renderB : Block → Str
  | .hd n t => hOpenN n ++ t ++ hCloseN n
  | .par p => ofStr ("<p>") ++ htmlPara p ++ ofStr ("</p>")

def docCat (f : Block → Str) : List Block → Str
  | [] => []
  | b :: bsRest => f b ++ docCat f bsRest

/-- A supported-subset document as canonical editor html. -/
def renderDoc (bs : List Block) : Str := docCat renderB bs

/-- The html a block contributes to the round-trip output (the `<p>`
wrappers are gone; blocks meet at `<br>`). -/
def bHtml : Block → Str
  | .hd n t => hOpenN n ++ t ++ hCloseN n
  | .par p => htmlPara p

def plainStr (l : Str) : Bool := l.all plainChar

/-- The line is nonempty and neither starts nor ends with whitespace
(so the final `trim` keeps it intact). -/
def edgeOk (l : Str) : Bool :=
  match l.head?, l.getLast? with
  | some a, some b => ¬ isWsJS a ∧ ¬ isWsJS b
  | _, _ => false

def wfMark : Mark → Bool
  | .plain => true
  | .bold b => plainStr b && ¬ b.isEmpty
  | .ital i => plainStr i && ¬ i.isEmpty
  | .boldItal b mid i =>
      plainStr b && plainStr mid && plainStr i &&
      ¬ b.isEmpty && ¬ mid.isEmpty && ¬ i.isEmpty
  | .italBold i mid b =>
      plainStr i && plainStr mid && plainStr b &&
      ¬ i.isEmpty && ¬ mid.isEmpty && ¬ b.isEmpty
  | .link t u => plainStr t && plainStr u

def wfBlock : Block → Bool
  | .hd n t => (n == 1 || n == 2 || n == 3) && plainStr t && edgeOk (mdHd n t)
  | .par p => plainStr p.pre && plainStr p.post && wfMark p.mark && edgeOk (mdPara p)

def wfDoc (bs : List Block) : Bool := ¬ bs.isEmpty && bs.all wfBlock

/-- A string split into literal tag segments and free-text segments, to
skip whole regions of a scan at once. -/
inductive Seg
  | lit (s : Str)
  | txt (s : Str)

def segStr : Seg → Str
  | .lit s => s
  | .txt s => s

def segsStr : List Seg → Str
  | [] => []
  | s :: ss => segStr s ++ segsStr ss

def segsLitOk (pat : Str) : List Seg → Bool
  | [] => true
  | .lit s :: ss => segSafe pat s && segsLitOk pat ss
  | .txt _ :: ss => segsLitOk pat ss

def segsTxtP (P : Char → Prop) (ss : List Seg) : Prop :=
  ∀ s, Seg.txt s ∈ ss → ∀ c ∈ s, P c

def boldSegsA (mk : Nat) (b : Str) : List Seg :=
  if 1 ≤ mk then [.txt (mdBold b)] else [.lit strongOpen, .txt b, .lit strongClose]

def italSegsA (mk : Nat) (i : Str) : List Seg :=
  if 2 ≤ mk then [.txt (mdItal i)] else [.lit emOpen, .txt i, .lit emClose]

def linkSegsA (mk : Nat) (t u : Str) : List Seg :=
  if 3 ≤ mk then [.txt (mdLink t u)]
  else [.lit aOpen, .txt u, .lit ('"' :: ['>']), .txt t, .lit aClose]

/-- Segment form of a mark during `convertHTMLToMarkdown`; `mk` counts
how many of the strong/em/anchor passes have run (0–3). -/
def markSegsA (mk : Nat) : Mark → List Seg
  | .plain => []
  | .bold b => boldSegsA mk b
  | .ital i => italSegsA mk i
  | .boldItal b mid i => boldSegsA mk b ++ Seg.txt mid :: italSegsA mk i
  | .italBold i mid b => italSegsA mk i ++ Seg.txt mid :: boldSegsA mk b
  | .link t u => linkSegsA mk t u

def paraSegsA (mk : Nat) (p : Para) : List Seg :=
  Seg.lit (ofStr ("<p>")) :: Seg.txt p.pre ::
    (markSegsA mk p.mark ++ [Seg.txt p.post, Seg.lit (ofStr ("</p>"))])

/-- Per-block string during the html→markdown pass chain: headings up to
level `hk` converted, emphasis passes up to stage `mk` done. -/
def blkA (hk mk : Nat) : Block → Str
  | .hd n t => if n ≤ hk then mdHd n t ++ ['
'] else hOpenN n ++ t ++ hCloseN n
  | .par p => segsStr (paraSegsA mk p)

def blkMd (b : Block) : Str := mdB b ++ ['
']

/-- Segment form of `bHtml` (for the list passes of the way back). -/
def bSegsH : Block → List Seg
  | .hd n t => [.lit (hOpenN n), .txt t, .lit (hCloseN n)]
  | .par p => Seg.txt p.pre :: (markSegsA 0 p.mark ++ [Seg.txt p.post])

/-- Collect the `<strong>(.*?)</strong>` captures of a string (an
observer for bold spans). -/
def strongCapsF : Nat → Str → List Str
  | 0, _ => []
  | fuel + 1, l =>
    match splitFirst strongOpen l with
    | none => []
    | some (_, r1) =>
      match splitFirst strongClose r1 with
      | none => []
      | some (x, r2) => x :: strongCapsF fuel r2

def strongCaps (l : Str) : List Str := strongCapsF l.length l

/-- No two adjacent stars anywhere in the string. -/
def noPairB : Str → Bool
  | [] => true
  | [_] => true
  | c1 :: c2 :: cs => (¬ (c1 = '*' ∧ c2 = '*')) && noPairB (c2 :: cs)

/-- Characters occurring in the supported html tags. -/
def tagChr (c : Char) : Bool :=
  c = '<' ∨ c = '>' ∨ c = '/' ∨ c = '"' ∨ c = '=' ∨ c = ' ' ∨
  ('a' ≤ c ∧ c ≤ 'z') ∨ ('0' ≤ c ∧ c ≤ '9')

/-- Block line during the markdown→html heading passes: headings up to
level `k` converted. -/
def hStage (k : Nat) : Block → Str
  | .hd n t => if n ≤ k then hOpenN n ++ t ++ hCloseN n else mdHd n t
  | .par p => mdPara p

/-- Block line after the `**` pass of the way back. -/
def lineB4 : Block → Str
  | .hd n t => hOpenN n ++ t ++ hCloseN n
  | .par p => paraB p

/-- Block line after the `*` pass as well. -/
def lineB5 : Block → Str
  | .hd n t => hOpenN n ++ t ++ hCloseN n
  | .par p => paraBI p

/-!
## Scanner toolkit
-/

/-!
## Sanity checks of the embedding on concrete inputs
-/

example : convertHTMLToMarkdown (ofStr ("<p>Hello <strong>World</strong></p>")) =
    ofStr ("Hello **World**") := by decide
example : convertMarkdownToHTML (ofStr ("# Title")) = ofStr ("<h1>Title</h1>") := by decide
example : convertMarkdownToHTML (ofStr ("- a\n- b")) =
    ofStr ("<ul><li>a</li></li><li><li>b</li>") := by decide
example : roundTrip (ofStr ("<strong>a</strong> <strong>b</strong>")) =
    ofStr ("<strong>a<em>* *</em>b</strong>") := by decide
example : roundTrip (ofStr ("<h2>T</h2><p>x <em>i</em> y</p>")) =
    ofStr ("<h2>T</h2><br>x <em>i</em> y") := by decide
example : roundTrip (ofStr ("<p><a href=") ++ '"' :: ofStr ("http://x/") ++
      '"' :: ofStr (">go</a></p>")) =
    ofStr ("<a href=") ++ '"' :: ofStr ("http://x/") ++ '"' :: ofStr (">go</a>") := by decide

theorem stripPre_some_length {p l r : Str} (h : stripPre p l = some r) :
    r.length + p.length = l.length := by
  induction p generalizing l with
  | nil =>
    simp [stripPre] at h
    simp [h]
  | cons a ps ih =>
    cases l with
    | nil => simp [stripPre] at h
    | cons c cs =>
      rw [stripPre] at h
      split at h
      · have := ih h
        simp at this ⊢
        omega
      · exact absurd h (by simp)

theorem stripPre_append (p r : Str) : stripPre p (p ++ r) = some r := by
  induction p with
  | nil => simp [stripPre]
  | cons a ps ih => simp [stripPre, ih]

theorem stripPre_cons_none {a : Char} {ps : Str} {l : Str} {c : Char}
    (h : ¬ a = c) : stripPre (a :: ps) (c :: l) = none := by
  simp [stripPre, h]

theorem splitFirst_some_length {pat l x r : Str}
    (h : splitFirst pat l = some (x, r)) :
    x.length + pat.length + r.length = l.length := by
  induction l generalizing x r with
  | nil =>
    rw [splitFirst] at h
    rcases hp : stripPre pat [] with _ | q
    · rw [hp] at h; exact absurd h (by simp)
    · rw [hp] at h
      simp only [Option.some.injEq, Prod.mk.injEq] at h
      obtain ⟨h1, h2⟩ := h
      have hq := stripPre_some_length hp
      subst h1; subst h2
      simp only [List.length_nil] at hq ⊢
      omega
  | cons c cs ih =>
    rw [splitFirst] at h
    rcases hp : stripPre pat (c :: cs) with _ | q
    · rw [hp] at h
      simp only [Option.map_eq_some'] at h
      obtain ⟨⟨a, b⟩, hab, heq⟩ := h
      simp only [Option.some.injEq, Prod.mk.injEq] at *
      obtain ⟨h1, h2⟩ := heq
      have := ih hab
      subst h1; subst h2
      simp at this ⊢
      omega
    · rw [hp] at h
      simp only [Option.some.injEq, Prod.mk.injEq] at h
      obtain ⟨h1, h2⟩ := h
      have hq := stripPre_some_length hp
      subst h1; subst h2
      simp only [List.length_nil, List.length_cons] at hq ⊢
      omega

theorem splitFirst_at {c0 : Char} {cl : Str} (x r : Str)
    (hx : ∀ c ∈ x, ¬ c = c0) :
    splitFirst (c0 :: cl) (x ++ (c0 :: cl) ++ r) = some (x, r) := by
  induction x with
  | nil =>
    have harg : ([] : Str) ++ (c0 :: cl) ++ r = c0 :: (cl ++ r) := by simp
    rw [harg, splitFirst]
    have : stripPre (c0 :: cl) (c0 :: (cl ++ r)) = some r := by
      have := stripPre_append (c0 :: cl) r
      simpa using this
    rw [this]
  | cons c cs ih =>
    have hc : ¬ c0 = c := fun hcc => hx c (by simp) (by rw [hcc])
    have harg : (c :: cs) ++ (c0 :: cl) ++ r = c :: (cs ++ (c0 :: cl) ++ r) := by
      simp
    rw [harg, splitFirst, stripPre_cons_none hc,
      ih (fun a ha => hx a (by simp [ha]))]
    rfl

theorem splitFirst_none {c0 : Char} {cl : Str} (l : Str)
    (hl : ∀ c ∈ l, ¬ c = c0) :
    splitFirst (c0 :: cl) l = none := by
  induction l with
  | nil => rw [splitFirst]; rfl
  | cons c cs ih =>
    have hc : ¬ c0 = c := fun h => hl c (by simp) (by rw [h])
    rw [splitFirst, stripPre_cons_none hc,
      ih (fun a ha => hl a (by simp [ha]))]
    rfl

theorem scanF_fuel {step : Str → Option (Str × Str)} (hs : Shrinks step) :
    ∀ f (l : Str), l.length ≤ f → scanF step f l = scanF step l.length l := by
  intro f
  induction f using Nat.strong_induction_on with
  | _ f ih =>
    intro l hl
    cases l with
    | nil => cases f <;> rfl
    | cons c cs =>
      cases f with
      | zero => simp at hl
      | succ f =>
        rw [scanF]
        rcases h : step (c :: cs) with _ | ⟨o, r⟩
        · show c :: scanF step f cs = scanF step (c :: cs).length (c :: cs)
          have h1 : scanF step f cs = scanF step cs.length cs :=
            ih f (Nat.lt_succ_self f) cs (by simp at hl; omega)
          have h2 : scanF step (c :: cs).length (c :: cs)
              = c :: scanF step cs.length cs := by
            rw [List.length_cons, scanF, h]
          rw [h1, h2]
        · show o ++ scanF step f r = scanF step (c :: cs).length (c :: cs)
          have hr := hs _ _ _ h
          simp at hr
          have h1 : scanF step f r = scanF step r.length r :=
            ih f (Nat.lt_succ_self f) r (by simp at hl; omega)
          have h2 : scanF step (c :: cs).length (c :: cs)
              = o ++ scanF step cs.length r := by
            rw [List.length_cons, scanF, h]
          have h3 : scanF step cs.length r = scanF step r.length r :=
            ih cs.length (by simp at hl; omega) r (by omega)
          rw [h1, h2, h3]

theorem scan_nil (step : Str → Option (Str × Str)) : scan step [] = [] := rfl

theorem scan_cons_none {step : Str → Option (Str × Str)} {c : Char} {cs : Str}
    (h : step (c :: cs) = none) : scan step (c :: cs) = c :: scan step cs := by
  rw [scan, List.length_cons, scanF, h, scan]

theorem scan_some {step : Str → Option (Str × Str)} (hs : Shrinks step)
    {l o r : Str} (h : step l = some (o, r)) :
    scan step l = o ++ scan step r := by
  match l with
  | [] => have := hs _ _ _ h; simp at this
  | c :: cs =>
    have hr := hs _ _ _ h
    simp at hr
    rw [scan, List.length_cons, scanF, h, scan]
    show o ++ scanF step cs.length r = o ++ scanF step r.length r
    rw [scanF_fuel hs cs.length r (by omega)]

/-- Runs whose characters each make the step fail pass through
unchanged. -/
theorem scan_append_of_forall {step : Str → Option (Str × Str)}
    {P : Char → Prop} (hnone : ∀ c cs, P c → step (c :: cs) = none)
    {a : Str} (ha : ∀ c ∈ a, P c) (r : Str) :
    scan step (a ++ r) = a ++ scan step r := by
  induction a with
  | nil => simp
  | cons c cs ih =>
    rw [List.cons_append, scan_cons_none (hnone c _ (ha c (by simp))),
      ih (fun x hx => ha x (by simp [hx]))]
    rfl

theorem scan_eq_self_of_forall {step : Str → Option (Str × Str)}
    {P : Char → Prop} (hnone : ∀ c cs, P c → step (c :: cs) = none)
    {a : Str} (ha : ∀ c ∈ a, P c) :
    scan step a = a := by
  have := scan_append_of_forall hnone ha []
  simpa [scan_nil] using this

theorem mismatchWithin_stripPre {pat s : Str}
    (h : mismatchWithin pat s = true) (r : Str) :
    stripPre pat (s ++ r) = none := by
  induction pat generalizing s with
  | nil => cases s <;> simp [mismatchWithin] at h
  | cons p ps ih =>
    cases s with
    | nil => simp [mismatchWithin] at h
    | cons c cs =>
      rw [mismatchWithin] at h
      by_cases hpc : p = c
      · rw [if_pos hpc] at h
        rw [List.cons_append, stripPre, if_pos hpc]
        exact ih h
      · rw [List.cons_append, stripPre, if_neg hpc]

/-- Skip a concrete segment: every suffix of `a` is a visible mismatch
for the pattern the step needs, regardless of what follows. -/
theorem scan_append_segSafe {step : Str → Option (Str × Str)} {pat : Str}
    (hfail : ∀ l, stripPre pat l = none → step l = none)
    {a : Str} (ha : segSafe pat a = true) (r : Str) :
    scan step (a ++ r) = a ++ scan step r := by
  induction a with
  | nil => simp
  | cons c cs ih =>
    rw [segSafe, Bool.and_eq_true] at ha
    rw [List.cons_append,
      scan_cons_none (hfail _ (by
        have := mismatchWithin_stripPre ha.1 r
        simpa using this)),
      ih ha.2]
    rfl

theorem litStep_fail {pat rep l : Str} (h : stripPre pat l = none) :
    litStep pat rep l = none := by
  rw [litStep, h]

theorem tagCap_fail {p : TagPat} {l : Str} (h : stripPre p.opn l = none) :
    tagCap p l = none := by
  rw [tagCap, h]

theorem litStep_shrinks {pat rep : Str} (h : ¬ pat = []) :
    Shrinks (litStep pat rep) := by
  intro l o r hl
  rw [litStep] at hl
  rcases hp : stripPre pat l with _ | q
  · rw [hp] at hl; exact absurd hl (by simp)
  · rw [hp] at hl
    simp at hl
    have := stripPre_some_length hp
    have hlen : 0 < pat.length := by
      cases pat
      · exact absurd rfl h
      · simp
    rw [← hl.2]
    omega

theorem attrRest_some_length {b : Bool} {l r : Str} (h : attrRest b l = some r) :
    r.length ≤ l.length := by
  rw [attrRest] at h
  cases b with
  | false => simp at h; simp [h]
  | true =>
    simp only [if_true] at h
    rcases hd : l.dropWhile notGt with _ | ⟨c, cs⟩
    · simp [hd] at h
    · simp only [hd] at h
      have hlen : (c :: cs).length ≤ l.length := by
        rw [← hd]
        exact (List.dropWhile_suffix _).length_le
      by_cases hc : c = '>'
      · rw [if_pos hc] at h
        simp at h
        subst h
        simp at hlen
        omega
      · rw [if_neg hc] at h
        exact absurd h (by simp)

theorem tagCap_shrinks {p : TagPat} (h : ¬ p.opn = []) : Shrinks (tagCap p) := by
  intro l o r hl
  rw [tagCap] at hl
  rcases h1 : stripPre p.opn l with _ | r1
  · simp [h1] at hl
  simp only [h1] at hl
  rcases h2 : attrRest p.attrs r1 with _ | r2
  · simp [h2] at hl
  simp only [h2] at hl
  rcases h3 : splitFirst p.cls r2 with _ | ⟨x, rest⟩
  · simp [h3] at hl
  simp only [h3] at hl
  have l1 := stripPre_some_length h1
  have l2 := attrRest_some_length h2
  have l3 := splitFirst_some_length h3
  have hlen : 0 < p.opn.length := by
    cases hop : p.opn
    · exact absurd hop h
    · simp [hop]
  split at hl
  · simp at hl
    rw [← hl.2]
    omega
  · exact absurd hl (by simp)

theorem tagStripStep_shrinks : Shrinks tagStripStep := by
  intro l o r hl
  match l with
  | [] => simp [tagStripStep] at hl
  | c :: cs =>
    rw [tagStripStep] at hl
    by_cases hc : c = '<'
    · rw [if_pos hc] at hl
      rcases hd : cs.dropWhile notGt with _ | ⟨c2, cs2⟩
      · simp [hd] at hl
      simp only [hd] at hl
      have hlen : (c2 :: cs2).length ≤ cs.length := by
        rw [← hd]
        exact (List.dropWhile_suffix _).length_le
      by_cases hc2 : c2 = '>'
      · rw [if_pos hc2] at hl
        simp at hl
        rw [← hl.2]
        simp at hlen ⊢
        omega
      · rw [if_neg hc2] at hl
        exact absurd hl (by simp)
    · rw [if_neg hc] at hl
      exact absurd hl (by simp)

/-!
## Claims
-/

/-- C6: a save persists `lastModified := now`, which is at least the
previously persisted `lastModified` whenever the clock has not gone
backwards; `createdAt` is copied from the existing record whenever the
existing record carries one, is initialized to the save time on a first
save, and the record is stored under its own id.  The same holds for
`DocumentService.saveDocument` on its input record. -/
theorem C6_save_timestamps (store : Nat → Option Document) (d0 : Document)
    (title content : Str) (now t0 : Nat)
    (hstore : store d0.id = some d0)
    (hcreated : d0.createdAt = some t0)
    (hclock : d0.lastModified ≤ now) :
    (handleSave (some d0) title content now).lastModified = now ∧
    d0.lastModified ≤ (handleSave (some d0) title content now).lastModified ∧
    (handleSave (some d0) title content now).createdAt = d0.createdAt ∧
    saveToStore store (handleSave (some d0) title content now) d0.id
      = some (handleSave (some d0) title content now) ∧
    (handleSave none title content now).createdAt = some now ∧
    (serviceSaveDocument d0 now).lastModified = now ∧
    (serviceSaveDocument d0 now).createdAt = d0.createdAt := by
  refine ⟨rfl, hclock, ?_, ?_, rfl, rfl, ?_⟩
  · simp [handleSave, hcreated]
  · simp [saveToStore, handleSave]
  · simp [serviceSaveDocument, hcreated]

def doc0 : Document :=
  { id := 1
    title := []
    content := []
    lastModified := 3
    createdAt := some 2
    category := none }

theorem C6_save_timestamps_witness :
    (handleSave (some doc0) [] [] 7).createdAt = some 2 ∧
    (handleSave (some doc0) [] [] 7).lastModified = 7 := by
  have h := C6_save_timestamps
    (fun k => if k = 1 then some doc0 else none)
    doc0 [] [] 7 2 (by decide) rfl (by decide)
  exact ⟨h.2.2.1, h.1⟩

/-- C3 (counterexample): in markdown mode with markdown cache `**a**`
and html cache `<p>old</p>`, switching markdown → html leaves the html
cache at `<p>old</p>`, not at `markdownToHtml` of the markdown cache. -/
theorem C3_counterexample :
    ¬ ((handleViewModeChange [] mdState0 ViewMode.html).1.htmlContent =
      convertMarkdownToHTML (ofStr ("**a**"))) := by decide

/-- C3 (amended): the markdown → html switch performs no derivation at
all — `handleViewModeChange` has no branch for it, so the entire state
except the active view mode (in particular the html cache) is left
unchanged, and nothing is emitted. -/
theorem C3_markdown_to_html_keeps_html_cache (ph : Str) (s : EditorState)
    (h : s.viewMode = ViewMode.markdown) :
    (handleViewModeChange ph s ViewMode.html).1
        = { s with viewMode := ViewMode.html } ∧
    (handleViewModeChange ph s ViewMode.html).2 = [] := by
  rw [handleViewModeChange]
  simp [h, runOps]

theorem C3_markdown_to_html_keeps_html_cache_witness :
    (handleViewModeChange [] mdState0 ViewMode.html).1
      = { mdState0 with viewMode := ViewMode.html } :=
  (C3_markdown_to_html_keeps_html_cache [] mdState0 rfl).1

theorem splitWsJS_ne_nil (l : Str) : ¬ splitWsJS l = [] := by
  induction l with
  | nil => simp [splitWsJS]
  | cons c cs ih =>
    cases cs with
    | nil =>
      rw [splitWsJS]
      by_cases hc : isWsJS c
      · rw [if_pos hc]; simp
      · rw [if_neg hc]; simp
    | cons c2 cs2 =>
      rw [splitWsJS]
      by_cases hc : isWsJS c
      · rw [if_pos hc]
        by_cases hc2 : isWsJS c2
        · rw [if_pos hc2]; exact ih
        · rw [if_neg hc2]; simp
      · rw [if_neg hc]
        intro he
        rw [List.modifyHead_eq_nil_iff] at he
        exact ih he

theorem wsHead_append {a : Str} (b : Str) (h : ¬ a = []) :
    wsHead (a ++ b) = wsHead a := by
  cases a with
  | nil => exact absurd rfl h
  | cons c cs => rfl

theorem wsRunsAux_false_cons_pos {c : Char} (cs : Str) (h : ¬ isWsJS c = true) :
    wsRunsAux false (c :: cs) = 1 + wsRunsAux true (c :: cs) := by
  rw [wsRunsAux, wsRunsAux, if_neg h, if_neg h]
  simp

theorem splitWsJS_length (l : Str) :
    (splitWsJS l).length = wsRunsAux false l + wsHead l + wsTail l := by
  induction l with
  | nil => simp [splitWsJS, wsRunsAux, wsHead, wsTail]
  | cons c cs ih =>
    cases cs with
    | nil =>
      rw [splitWsJS]
      by_cases hc : isWsJS c
      · rw [if_pos hc]
        simp [wsRunsAux, hc, wsHead, wsTail]
      · rw [if_neg hc]
        simp [wsRunsAux, hc, wsHead, wsTail]
    | cons c2 cs2 =>
      have htail : wsTail (c :: c2 :: cs2) = wsTail (c2 :: cs2) := by
        rw [wsTail, wsTail, if_neg (by simp), if_neg (by simp)]
        rw [List.reverse_cons, wsHead_append [c] (by simp)]
      rw [splitWsJS]
      by_cases hc : isWsJS c
      · rw [if_pos hc]
        rw [show wsRunsAux false (c :: c2 :: cs2)
            = wsRunsAux false (c2 :: cs2) by rw [wsRunsAux, if_pos hc]]
        rw [htail]
        rw [show wsHead (c :: c2 :: cs2) = 1 by rw [wsHead, if_pos hc]]
        by_cases hc2 : isWsJS c2
        · rw [if_pos hc2, ih]
          rw [show wsHead (c2 :: cs2) = 1 by rw [wsHead, if_pos hc2]]
        · rw [if_neg hc2]
          simp only [List.length_cons, ih]
          rw [show wsHead (c2 :: cs2) = 0 by rw [wsHead, if_neg hc2]]
          omega
      · rw [if_neg hc]
        rw [List.length_modifyHead, ih]
        rw [show wsHead (c :: c2 :: cs2) = 0 by rw [wsHead, if_neg hc]]
        rw [htail]
        by_cases hc2 : isWsJS c2
        · rw [show wsRunsAux false (c :: c2 :: cs2)
              = 1 + wsRunsAux true (c2 :: cs2) by
            rw [wsRunsAux, if_neg hc]; simp]
          rw [show wsRunsAux true (c2 :: cs2)
              = wsRunsAux false (c2 :: cs2) by
            rw [wsRunsAux, wsRunsAux, if_pos hc2, if_pos hc2]]
          rw [show wsHead (c2 :: cs2) = 1 by rw [wsHead, if_pos hc2]]
          omega
        · rw [show wsRunsAux false (c :: c2 :: cs2)
              = 1 + wsRunsAux true (c2 :: cs2) by
            rw [wsRunsAux, if_neg hc]; simp]
          rw [wsRunsAux_false_cons_pos cs2 hc2]
          rw [show wsHead (c2 :: cs2) = 0 by rw [wsHead, if_neg hc2]]

theorem head_dropWhile_not_ws (l : Str) :
    wsHead (l.dropWhile isWsJS) = 0 := by
  induction l with
  | nil => rfl
  | cons c cs ih =>
    by_cases hc : isWsJS c
    · rw [List.dropWhile_cons_of_pos hc]; exact ih
    · rw [List.dropWhile_cons_of_neg hc, wsHead, if_neg hc]

theorem getLast?_dropWhile (p : Char → Bool) (l : Str)
    (h : ¬ l.dropWhile p = []) :
    (l.dropWhile p).getLast? = l.getLast? := by
  induction l with
  | nil => simp at h
  | cons c cs ih =>
    by_cases hc : p c
    · rw [List.dropWhile_cons_of_pos hc] at h ⊢
      rw [ih h]
      have hcs : ¬ cs = [] := by
        intro he
        rw [he] at h
        simp at h
      cases cs with
      | nil => exact absurd rfl hcs
      | cons d ds => simp
    · rw [List.dropWhile_cons_of_neg hc]

theorem wsTail_trimC (l : Str) (h : ¬ trimC l = []) : wsTail (trimC l) = 0 := by
  rw [wsTail, if_neg h, trimC, List.reverse_reverse]
  exact head_dropWhile_not_ws _

theorem wsHead_trimC (l : Str) : wsHead (trimC l) = 0 := by
  rcases ht : trimC l with _ | ⟨c, cs⟩
  · rfl
  · have hB : ((l.dropWhile isWsJS).reverse.dropWhile isWsJS).getLast?
        = some c := by
      have h1 : trimC l = c :: cs := ht
      rw [trimC] at h1
      have h2 := congrArg List.reverse h1
      rw [List.reverse_reverse] at h2
      rw [h2]
      simp
    have hne : ¬ (l.dropWhile isWsJS).reverse.dropWhile isWsJS = [] := by
      intro he
      rw [he] at hB
      simp at hB
    rw [getLast?_dropWhile _ _ hne, List.getLast?_reverse] at hB
    have hA := head_dropWhile_not_ws l
    rcases hd : l.dropWhile isWsJS with _ | ⟨a, as⟩
    · rw [hd] at hB; simp at hB
    · rw [hd] at hB
      simp at hB
      rw [hd, wsHead] at hA
      have hwa : isWsJS a = false := by
        by_cases hw : isWsJS a
        · rw [if_pos hw] at hA; exact absurd hA (by simp)
        · simpa using hw
      rw [wsHead, ← hB, hwa]
      simp

/-- C9: the word count is 0 for the empty string and otherwise the
number of maximal nonempty runs of non-whitespace characters of the
tag-stripped, trimmed text; the given examples evaluate as the claim
states; the character count is the length of the tag-stripped text. -/
theorem C9_word_count (text html : Str) :
    countWords [] = 0 ∧
    countWordsHtml (ofStr ("<p>a b</p>")) = 2 ∧
    countWordsHtml (ofStr ("<p>  a   b  </p>")) = 2 ∧
    countWords text = wsRuns (trimC text) ∧
    countWordsHtml html = wsRuns (trimC (stripTags html)) ∧
    countCharsHtml html = (stripTags html).length := by
  have hgen : ∀ t : Str, countWords t = wsRuns (trimC t) := by
    intro t
    rw [countWords]
    by_cases h : trimC t = []
    · rw [if_pos h, h]; rfl
    · rw [if_neg h, splitWsJS_length, wsHead_trimC, wsTail_trimC t h, wsRuns]
      omega
  exact ⟨rfl, by decide, by decide, hgen text, hgen (stripTags html), rfl⟩

theorem tagCap_at_plain {p : TagPat} {c0 : Char} {cl : Str} (x r : Str)
    (hattrs : p.attrs = false) (hcls : p.cls = c0 :: cl)
    (hx : ∀ c ∈ x, ¬ c = c0) (hnl : p.dotAll = true ∨ ¬ '\n' ∈ x) :
    tagCap p (p.opn ++ x ++ p.cls ++ r) = some (p.mkRep x, r) := by
  have ha : attrRest p.attrs (x ++ c0 :: cl ++ r) = some (x ++ c0 :: cl ++ r) := by
    rw [hattrs]; rfl
  rw [show p.opn ++ x ++ p.cls ++ r = p.opn ++ (x ++ p.cls ++ r) by simp]
  rw [tagCap]
  simp only [stripPre_append, ha, hcls, splitFirst_at x r hx]
  rw [if_pos hnl]

theorem tagCap_at_attrs {p : TagPat} {c0 : Char} {cl : Str} (x r : Str)
    (hattrs : p.attrs = true) (hcls : p.cls = c0 :: cl)
    (hx : ∀ c ∈ x, ¬ c = c0) (hnl : p.dotAll = true ∨ ¬ '\n' ∈ x) :
    tagCap p (p.opn ++ '>' :: (x ++ p.cls ++ r)) = some (p.mkRep x, r) := by
  have ha : attrRest p.attrs ('>' :: (x ++ c0 :: cl ++ r))
      = some (x ++ c0 :: cl ++ r) := by
    rw [hattrs]; rfl
  rw [tagCap]
  simp only [stripPre_append, ha, hcls, splitFirst_at x r hx]
  rw [if_pos hnl]

theorem replOnceT_head {p : TagPat} {l o r : Str}
    (h : tagCap p l = some (o, r)) (hop : ¬ p.opn = []) :
    replOnceT p l = o ++ r := by
  cases l with
  | nil =>
    rw [tagCap] at h
    rcases hco : p.opn with _ | ⟨a, ps⟩
    · exact absurd hco hop
    · rw [hco, stripPre] at h
      exact absurd h (by simp)
  | cons c cs =>
    rw [replOnceT, h]

theorem replOnceT_phDiv (ph rest : Str) (h1 : ¬ '<' ∈ ph) (h2 : ¬ '\n' ∈ ph) :
    replOnceT phPat (phDiv ph ++ rest) = rest := by
  have hcap : tagCap phPat (phDiv ph ++ rest) = some ([], rest) := by
    have h := @tagCap_at_plain phPat '<' (ofStr ("/div>"))
      ph rest rfl (by decide)
      (fun c hc heq => h1 (by rw [← heq]; exact hc)) (Or.inr h2)
    exact h
  have := replOnceT_head hcap (by decide)
  simpa using this

theorem replOnceT_phDiv_self (ph : Str) (h1 : ¬ '<' ∈ ph) (h2 : ¬ '\n' ∈ ph) :
    replOnceT phPat (phDiv ph) = [] := by
  have := replOnceT_phDiv ph [] h1 h2
  simpa using this

theorem trimC_eq_nil_iff {l : Str} : trimC l = [] ↔ ∀ c ∈ l, isWsJS c := by
  constructor
  · intro h c hc
    rw [trimC] at h
    have h2 : (l.dropWhile isWsJS).reverse.dropWhile isWsJS = [] := by
      have := congrArg List.reverse h
      simpa using this
    rw [List.dropWhile_eq_nil_iff] at h2
    by_cases hmem : c ∈ l.dropWhile isWsJS
    · exact h2 c (by simpa using hmem)
    · have hsplit : l = l.takeWhile isWsJS ++ l.dropWhile isWsJS :=
        (List.takeWhile_append_dropWhile (p := isWsJS) (l := l)).symm
      rw [hsplit] at hc
      rcases List.mem_append.mp hc with h3 | h3
      · exact List.mem_takeWhile_imp h3
      · exact absurd h3 hmem
  · intro h
    rw [trimC]
    have h2 : l.dropWhile isWsJS = [] :=
      List.dropWhile_eq_nil_iff.mpr (fun x hx => h x hx)
    rw [h2]
    rfl

theorem trimC_phDiv_ne (ph : Str) : ¬ trimC (phDiv ph) = [] := by
  intro h
  rw [trimC_eq_nil_iff] at h
  have hm : '<' ∈ phDiv ph := by
    rw [phDiv]
    exact List.mem_append.mpr (Or.inl (List.mem_append.mpr (Or.inl (by decide))))
  have := h '<' hm
  exact absurd this (by decide)

theorem trimC_nil : trimC ([] : Str) = [] := rfl

/-- C10: `clearContent` resets the canonical content, the html cache,
the markdown cache and the last-rich-content cache to the empty string
and resets the host buffer to the bare placeholder marker (which strips
to empty); any subsequent view switch keeps all of them empty. -/
theorem C10_clear_content (ph : Str) (s : EditorState) (m : ViewMode)
    (h1 : ¬ '<' ∈ ph) (h2 : ¬ '\n' ∈ ph) :
    ((clearContent ph s).1.content = [] ∧
     (clearContent ph s).1.htmlContent = [] ∧
     (clearContent ph s).1.markdownContent = [] ∧
     (clearContent ph s).1.lastWysiwygContent = [] ∧
     replOnceT phPat (clearContent ph s).1.host.buf = []) ∧
    ((handleViewModeChange ph (clearContent ph s).1 m).1.content = [] ∧
     (handleViewModeChange ph (clearContent ph s).1 m).1.htmlContent = [] ∧
     (handleViewModeChange ph (clearContent ph s).1 m).1.markdownContent = [] ∧
     (handleViewModeChange ph (clearContent ph s).1 m).1.lastWysiwygContent = [] ∧
     replOnceT phPat
       (handleViewModeChange ph (clearContent ph s).1 m).1.host.buf = []) := by
  have hponce := replOnceT_phDiv_self ph h1 h2
  have hmd0 : convertHTMLToMarkdown ([] : Str) = [] := by decide
  have hmdh0 : convertMarkdownToHTML ([] : Str) = [] := by decide
  have hne := trimC_phDiv_ne ph
  obtain ⟨vm, ct, hc, mc, lw, er, ⟨hb, hcs⟩⟩ := s
  cases vm <;> cases m <;>
    simp [clearContent, hostClear, onContentChange, innerTextOf,
      handleViewModeChange, runOps, applyHostSet, hostSetContent,
      hponce, hmd0, hmdh0, hne, trimC_nil]

theorem C10_clear_content_witness :
    ((clearContent (ofStr ("Start typing...")) mdState0).1.content = [] ∧
     (clearContent (ofStr ("Start typing...")) mdState0).1.htmlContent = [] ∧
     (clearContent (ofStr ("Start typing...")) mdState0).1.markdownContent = [] ∧
     (clearContent (ofStr ("Start typing...")) mdState0).1.lastWysiwygContent = [] ∧
     replOnceT phPat (clearContent (ofStr ("Start typing...")) mdState0).1.host.buf
       = []) ∧
    ((handleViewModeChange (ofStr ("Start typing..."))
        (clearContent (ofStr ("Start typing...")) mdState0).1
        ViewMode.wysiwyg).1.content = [] ∧
     (handleViewModeChange (ofStr ("Start typing..."))
        (clearContent (ofStr ("Start typing...")) mdState0).1
        ViewMode.wysiwyg).1.htmlContent = [] ∧
     (handleViewModeChange (ofStr ("Start typing..."))
        (clearContent (ofStr ("Start typing...")) mdState0).1
        ViewMode.wysiwyg).1.markdownContent = [] ∧
     (handleViewModeChange (ofStr ("Start typing..."))
        (clearContent (ofStr ("Start typing...")) mdState0).1
        ViewMode.wysiwyg).1.lastWysiwygContent = [] ∧
     replOnceT phPat
       (handleViewModeChange (ofStr ("Start typing..."))
         (clearContent (ofStr ("Start typing...")) mdState0).1
         ViewMode.wysiwyg).1.host.buf = []) :=
  C10_clear_content (ofStr ("Start typing...")) mdState0 ViewMode.wysiwyg
    (by decide) (by decide)

/-- C7 (counterexample): with the editor already ready, canonical
content `<p>a</p>` and host buffer `<p>b</p>`, a duplicate ready
notification is not a no-op: it overwrites the host buffer and sends the
content to the host again. -/
theorem C7_counterexample :
    (¬ (onReady [] readyState0).1 = readyState0) ∧
    Emit.hostSet (ofStr ("<p>a</p>")) ∈ (onReady [] readyState0).2 :=
  ⟨by decide, by decide⟩

/-- C7 (amended): every ready notification — the first as well as any
duplicate — marks the editor ready and, whenever the canonical content
is a non-blank, marker-free string, (re)sends that content to the host,
which makes it both the host buffer and the canonical content again; a
ready notification with empty canonical content only repeats the
`onEditorReady` callback. -/
theorem C7_ready_reflush (ph : Str) (s : EditorState)
    (hnm : replOnceT phPat s.content = s.content)
    (htrim : ¬ trimC s.content = []) :
    (onReady ph s).1.editorReady = true ∧
    (onReady ph s).1.host.buf = s.content ∧
    (onReady ph s).1.host.isContentSet = true ∧
    (onReady ph s).1.content = s.content ∧
    (onReady ph s).2 = [Emit.readyCb, Emit.hostSet s.content,
      Emit.change s.content (innerTextOf s.content)] ∧
    (∀ s0 : EditorState, s0.content = [] →
      (onReady ph s0).1 = { s0 with editorReady := true } ∧
      (onReady ph s0).2 = [Emit.readyCb]) := by
  have hc : ¬ s.content = [] := by
    intro he
    rw [he] at htrim
    exact htrim trimC_nil
  refine ⟨?_, ?_, ?_, ?_, ?_, ?_⟩ <;>
    first
    | (intro s0 h0; constructor <;> simp [onReady, h0])
    | simp [onReady, applyHostSet, hostSetContent, onContentChange,
        innerTextOf, hc, htrim, hnm]

theorem C7_ready_reflush_witness :
    (onReady [] readyState0).1.host.buf = readyState0.content ∧
    (onReady [] readyState0).1.content = readyState0.content := by
  have h := C7_ready_reflush [] readyState0 (by decide) (by decide)
  exact ⟨h.2.1, h.2.2.2.1⟩

/-- C8 (counterexample): an inbound `contentChanged` whose html holds
two placeholder-marker elements stores a canonical body that still
contains a marker — only the first marker is removed. -/
theorem C8_counterexample :
    (onContentChange mdState0
        (phDiv (ofStr ("a")) ++ phDiv (ofStr ("b"))) []).1.content
      = phDiv (ofStr ("b")) ∧
    ¬ replOnceT phPat (phDiv (ofStr ("b"))) = phDiv (ofStr ("b")) := by decide

/-- C8 (amended): the `contentChange` handler removes the first
placeholder-marker element of the inbound html — the replacement is
single and non-global, so any later marker survives — and stores the
stripped string as the canonical body and every cache, and propagates it
through `onChange` with the inbound text. -/
theorem C8_strip_first_marker (s : EditorState) (t rest text : Str)
    (h1 : ¬ '<' ∈ t) (h2 : ¬ '\n' ∈ t) :
    (onContentChange s (phDiv t ++ rest) text).1.content = rest ∧
    (onContentChange s (phDiv t ++ rest) text).1.htmlContent = rest ∧
    (onContentChange s (phDiv t ++ rest) text).1.lastWysiwygContent = rest ∧
    (onContentChange s (phDiv t ++ rest) text).1.markdownContent
      = convertHTMLToMarkdown rest ∧
    (onContentChange s (phDiv t ++ rest) text).2 = [Emit.change rest text] := by
  have hstrip := replOnceT_phDiv t rest h1 h2
  simp [onContentChange, hstrip]

theorem C8_strip_first_marker_witness :
    (onContentChange mdState0
        (phDiv (ofStr ("hint")) ++ ofStr ("<p>x</p>")) []).1.content
      = ofStr ("<p>x</p>") :=
  (C8_strip_first_marker mdState0 (ofStr ("hint")) (ofStr ("<p>x</p>")) []
    (by decide) (by decide)).1

theorem replOnceT_nil (p : TagPat) : replOnceT p [] = [] := rfl

/-- C2 (counterexample): leaving markdown mode through preview does not
promote the markdown cache: after markdown → preview → rich the
canonical body is the stale last rich-view content `<p>old</p>`, not
`markdownToHtml` of the markdown cache `# T`. -/
theorem C2_counterexample :
    (handleViewModeChange []
        (handleViewModeChange [] c2State ViewMode.preview).1
        ViewMode.wysiwyg).1.content = ofStr ("<p>old</p>") ∧
    ¬ ((handleViewModeChange []
        (handleViewModeChange [] c2State ViewMode.preview).1
        ViewMode.wysiwyg).1.content
      = convertMarkdownToHTML (c2State.markdownContent)) := by decide

/-- C2 (amended): a direct markdown → rich or html → rich switch
promotes the departed cache into the canonical body (through the host);
switching between the non-rich modes promotes nothing and changes
nothing but the mode; and preview → rich re-promotes the last
rich-content cache — so a sequence through preview promotes the stale
rich cache rather than the departed mode's cache. -/
theorem C2_promotion (ph : Str) :
    (∀ s : EditorState, s.viewMode = ViewMode.markdown →
      s.editorReady = true →
      replOnceT phPat (convertMarkdownToHTML s.markdownContent)
        = convertMarkdownToHTML s.markdownContent →
      ¬ trimC (convertMarkdownToHTML s.markdownContent) = [] →
      (handleViewModeChange ph s ViewMode.wysiwyg).1.content
        = convertMarkdownToHTML s.markdownContent ∧
      (handleViewModeChange ph s ViewMode.wysiwyg).1.host.buf
        = convertMarkdownToHTML s.markdownContent) ∧
    (∀ s : EditorState, s.viewMode = ViewMode.html →
      s.editorReady = true →
      replOnceT phPat s.htmlContent = s.htmlContent →
      ¬ trimC s.htmlContent = [] →
      (handleViewModeChange ph s ViewMode.wysiwyg).1.content
        = s.htmlContent ∧
      (handleViewModeChange ph s ViewMode.wysiwyg).1.host.buf
        = s.htmlContent) ∧
    (∀ s : EditorState, ∀ m : ViewMode,
      ¬ s.viewMode = ViewMode.wysiwyg → ¬ m = ViewMode.wysiwyg →
      (handleViewModeChange ph s m).1 = { s with viewMode := m } ∧
      (handleViewModeChange ph s m).2 = []) ∧
    (∀ s : EditorState, s.viewMode = ViewMode.preview →
      s.editorReady = true →
      replOnceT phPat s.lastWysiwygContent = s.lastWysiwygContent →
      ¬ trimC s.lastWysiwygContent = [] →
      (handleViewModeChange ph s ViewMode.wysiwyg).1.content
        = s.lastWysiwygContent) := by
  refine ⟨?_, ?_, ?_, ?_⟩
  · intro s hvm hready hnm htrim
    have hne : ¬ convertMarkdownToHTML s.markdownContent = [] := by
      intro he
      rw [he] at htrim
      exact htrim trimC_nil
    constructor <;>
      simp [handleViewModeChange, runOps, applyHostSet, onContentChange,
        hostSetContent, innerTextOf, hvm, hready, hnm, htrim, hne]
  · intro s hvm hready hnm htrim
    have hne : ¬ s.htmlContent = [] := by
      intro he
      rw [he] at htrim
      exact htrim trimC_nil
    constructor <;>
      simp [handleViewModeChange, runOps, applyHostSet, onContentChange,
        hostSetContent, innerTextOf, hvm, hready, hnm, htrim, hne]
  · intro s m h1 h2
    constructor <;> simp [handleViewModeChange, runOps, h1, h2]
  · intro s hvm hready hnm htrim
    have hne : ¬ s.lastWysiwygContent = [] := by
      intro he
      rw [he] at htrim
      exact htrim trimC_nil
    simp [handleViewModeChange, runOps, applyHostSet, onContentChange,
      hostSetContent, innerTextOf, hvm, hready, hnm, htrim, hne]

theorem C2_promotion_witness :
    (handleViewModeChange [] c2State ViewMode.wysiwyg).1.content
      = convertMarkdownToHTML (c2State.markdownContent) ∧
    (handleViewModeChange [] prevState0 ViewMode.wysiwyg).1.content
      = prevState0.lastWysiwygContent := by
  have h := C2_promotion []
  exact ⟨(h.1 c2State rfl rfl (by decide) (by decide)).1,
         h.2.2.2 prevState0 rfl rfl (by decide) (by decide)⟩

/-- C4 (counterexample): for a canonical body that is exactly a
placeholder-marker element, the rich → html → rich round trip does not
return it byte-identically — the flush strips it to the empty string. -/
theorem C4_counterexample :
    (handleViewModeChange []
        (handleViewModeChange [] phBodyState ViewMode.html).1
        ViewMode.wysiwyg).1.content = [] ∧
    ¬ ((handleViewModeChange []
        (handleViewModeChange [] phBodyState ViewMode.html).1
        ViewMode.wysiwyg).1.content = phBodyState.content) := by decide

/-- C4 (amended): a rich → html → rich switch sequence with no edit in
between leaves the canonical body byte-identical, provided the body
contains no placeholder-marker element and is either empty or not
whitespace-only (a marker is stripped by the flush, and a whitespace-only
body can be replaced by the placeholder). -/
theorem C4_flush_idempotent (ph b : Str) (s : EditorState)
    (hvm : s.viewMode = ViewMode.wysiwyg)
    (hbuf : s.host.buf = b)
    (hready : s.editorReady = true)
    (hnm : replOnceT phPat b = b)
    (hph1 : ¬ '<' ∈ ph) (hph2 : ¬ '\n' ∈ ph)
    (hb : b = [] ∨ ¬ trimC b = []) :
    (handleViewModeChange ph
      (handleViewModeChange ph s ViewMode.html).1 ViewMode.wysiwyg).1.content
      = b := by
  rcases hb with hb0 | hbne
  · subst hb0
    rcases hcs : s.host.isContentSet with _ | _
    · simp [handleViewModeChange, runOps, applyHostSet, onContentChange,
        hostSetContent, innerTextOf, hvm, hready, hbuf, hnm, hcs,
        trimC_nil, replOnceT_nil, replOnceT_phDiv_self ph hph1 hph2]
    · simp [handleViewModeChange, runOps, applyHostSet, onContentChange,
        hostSetContent, innerTextOf, hvm, hready, hbuf, hnm, hcs,
        trimC_nil, replOnceT_nil]
  · have hbne2 : ¬ b = [] := by
      intro he
      rw [he] at hbne
      exact hbne trimC_nil
    simp [handleViewModeChange, runOps, applyHostSet, onContentChange,
      hostSetContent, innerTextOf, hvm, hready, hbuf, hnm, hbne, hbne2]

theorem C4_flush_idempotent_witness :
    (handleViewModeChange []
      (handleViewModeChange [] readyState0 ViewMode.html).1
      ViewMode.wysiwyg).1.content = ofStr ("<p>b</p>") :=
  C4_flush_idempotent [] (ofStr ("<p>b</p>")) readyState0 rfl rfl rfl
    (by decide) (by decide) (by decide) (Or.inr (by decide))

theorem boldStep_none {c : Char} (cs : Str) (hc : ¬ c = '*') :
    boldStep (c :: cs) = none := by
  cases cs with
  | nil => rfl
  | cons c2 cs2 =>
    rw [boldStep]
    rw [if_neg (by intro h; exact hc h.1)]

theorem italStep_none {c : Char} (cs : Str) (hc : ¬ c = '*') :
    italStep (c :: cs) = none := by
  rw [italStep]
  rw [if_neg hc]

theorem linkStep_none {c : Char} (cs : Str) (hc : ¬ c = '[') :
    linkStep (c :: cs) = none := by
  rw [linkStep]
  rw [if_neg hc]

theorem litStep_none_head {p0 c : Char} {pr rep : Str} (cs : Str)
    (hc : ¬ c = p0) :
    litStep (p0 :: pr) rep (c :: cs) = none :=
  litStep_fail (stripPre_cons_none (fun h => hc h.symm))

theorem scan_eq_self_of_suffix {step : Str → Option (Str × Str)} (l : Str)
    (h : ∀ r, r <:+ l → step r = none) : scan step l = l := by
  induction l with
  | nil => rfl
  | cons c cs ih =>
    rw [scan_cons_none (h _ (List.suffix_refl _)),
      ih (fun r hr => h r (hr.trans (List.suffix_cons c cs)))]

theorem stripPre_some_subset {pat l r : Str} (h : stripPre pat l = some r) :
    ∀ c ∈ pat, c ∈ l := by
  induction pat generalizing l with
  | nil => simp
  | cons a ps ih =>
    cases l with
    | nil => simp [stripPre] at h
    | cons b bs =>
      rw [stripPre] at h
      split at h
      · intro c hc
        rcases List.mem_cons.mp hc with h1 | h1
        · subst h1
          simp_all
        · exact List.mem_cons_of_mem b (ih h c h1)
      · exact absurd h (by simp)

theorem replAll_id_of_not_mem {pat rep l : Str} {c : Char}
    (hc : c ∈ pat) (hl : ¬ c ∈ l) : replAll pat rep l = l := by
  apply scan_eq_self_of_suffix
  intro r hr
  rcases hs : litStep pat rep r with _ | q
  · rfl
  · exfalso
    rw [litStep] at hs
    rcases hp : stripPre pat r with _ | q2
    · rw [hp] at hs; exact absurd hs (by simp)
    · exact hl (hr.subset (stripPre_some_subset hp c hc))

theorem replAll_match {pat rep : Str} (hp : ¬ pat = []) (r : Str) :
    replAll pat rep (pat ++ r) = rep ++ replAll pat rep r := by
  apply scan_some (litStep_shrinks hp)
  rw [litStep, stripPre_append]

theorem replAll_append_segSafe {pat rep : Str} {a : Str}
    (ha : segSafe pat a = true) (r : Str) :
    replAll pat rep (a ++ r) = a ++ replAll pat rep r :=
  scan_append_segSafe (fun _ h => litStep_fail h) ha r

theorem replAll_append_plain {p0 : Char} {pr rep : Str} {a : Str}
    (ha : ∀ c ∈ a, ¬ c = p0) (r : Str) :
    replAll (p0 :: pr) rep (a ++ r) = a ++ replAll (p0 :: pr) rep r :=
  scan_append_of_forall
    (fun c cs hc => litStep_none_head cs hc) ha r

theorem splitNl_no_nl {l : Str} (h : ¬ '\n' ∈ l) : splitNl l = [l] := by
  induction l with
  | nil => rfl
  | cons c cs ih =>
    rw [splitNl]
    rw [if_neg (by intro he; exact h (by simp [he]))]
    rw [ih (fun hm => h (by simp [hm]))]

theorem splitNl_append_nl {a : Str} (b : Str) (h : ¬ '\n' ∈ a) :
    splitNl (a ++ '\n' :: b) = a :: splitNl b := by
  induction a with
  | nil =>
    rw [List.nil_append, splitNl, if_pos rfl]
  | cons c cs ih =>
    rw [List.cons_append, splitNl]
    rw [if_neg (by intro he; exact h (by simp [he]))]
    rw [ih (fun hm => h (by simp [hm]))]

theorem splitNl_joinNl {ls : List Str} (h : ∀ l ∈ ls, ¬ '\n' ∈ l)
    (hne : ¬ ls = []) : splitNl (joinNl ls) = ls := by
  induction ls with
  | nil => exact absurd rfl hne
  | cons x xs ih =>
    cases xs with
    | nil =>
      rw [joinNl, splitNl_no_nl (h x (by simp))]
    | cons y ys =>
      rw [joinNl, splitNl_append_nl _ (h x (by simp))]
      rw [ih (fun l hl => h l (by simp [hl])) (by simp)]

theorem perLine_joinNl {f : Str → Str} {ls : List Str}
    (h : ∀ l ∈ ls, ¬ '\n' ∈ l) (hne : ¬ ls = []) :
    perLine f (joinNl ls) = joinNl (ls.map f) := by
  rw [perLine, splitNl_joinNl h hne]

theorem mem_joinNl {c : Char} {ls : List Str} (h : c ∈ joinNl ls) :
    c = '\n' ∨ ∃ l ∈ ls, c ∈ l := by
  induction ls with
  | nil => simp [joinNl] at h
  | cons x xs ih =>
    cases xs with
    | nil =>
      rw [joinNl] at h
      exact Or.inr ⟨x, by simp, h⟩
    | cons y ys =>
      rw [joinNl] at h
      rcases List.mem_append.mp h with h1 | h1
      · exact Or.inr ⟨x, by simp, h1⟩
      · rcases List.mem_cons.mp h1 with h2 | h2
        · exact Or.inl h2
        · rcases ih h2 with h3 | ⟨l, hl, hcl⟩
          · exact Or.inl h3
          · exact Or.inr ⟨l, by simp [hl], hcl⟩

theorem mem_interSep {c : Char} {sep : Str} {ls : List Str}
    (h : c ∈ interSep sep ls) :
    c ∈ sep ∨ ∃ l ∈ ls, c ∈ l := by
  induction ls with
  | nil => simp [interSep] at h
  | cons x xs ih =>
    cases xs with
    | nil =>
      rw [interSep] at h
      exact Or.inr ⟨x, by simp, h⟩
    | cons y ys =>
      rw [interSep] at h
      rcases List.mem_append.mp h with h1 | h1
      · rcases List.mem_append.mp h1 with h2 | h2
        · exact Or.inr ⟨x, by simp, h2⟩
        · exact Or.inl h2
      · rcases ih h1 with h2 | ⟨l, hl, hcl⟩
        · exact Or.inl h2
        · exact Or.inr ⟨l, by simp [hl], hcl⟩

theorem hLine_cons_ne {n : Nat} {c : Char} (cs : Str)
    (hn : n = 1 ∨ n = 2 ∨ n = 3) (hc : ¬ '#' = c) :
    hLine n (c :: cs) = c :: cs := by
  rcases hn with h | h | h <;> subst h <;>
    simp [hLine, List.replicate, stripPre_cons_none hc]

theorem liLine_cons_ne {c : Char} (cs : Str) (hc : ¬ '-' = c) :
    liLine (c :: cs) = c :: cs := by
  simp [liLine, stripPre_cons_none hc]

theorem liLine_wrap (t : Str) :
    liLine ('-' :: ' ' :: t) = ofStr ("<ul><li>") ++ t ++ ofStr ("</li></ul>") := by
  have h : stripPre ('-' :: [' ']) ('-' :: ' ' :: t) = some t :=
    stripPre_append ('-' :: [' ']) t
  simp [liLine, h]

theorem nl_not_mem_liWrap {c : Char} {t : Str} (ht : ∀ a ∈ t, plainChar a = true)
    (h : c ∈ liWrap t) : ¬ c = '\n' := by
  rw [liWrap] at h
  rcases List.mem_append.mp h with h1 | h1
  · rcases List.mem_append.mp h1 with h2 | h2
    · intro he; subst he; exact absurd h2 (by decide)
    · intro he; subst he
      have := ht _ h2
      exact absurd this (by decide)
  · intro he; subst he; exact absurd h1 (by decide)

theorem nl_not_mem_liHW {c : Char} {t : Str} (ht : ∀ a ∈ t, plainChar a = true)
    (h : c ∈ liHW t) : ¬ c = '\n' := by
  rw [liHW] at h
  rcases List.mem_append.mp h with h1 | h1
  · rcases List.mem_append.mp h1 with h2 | h2
    · intro he; subst he; exact absurd h2 (by decide)
    · intro he; subst he
      have := ht _ h2
      exact absurd this (by decide)
  · intro he; subst he; exact absurd h1 (by decide)

theorem replAll_nil (pat rep : Str) : replAll pat rep [] = [] := rfl

theorem replAll_nlUl_plain {a : Str} (ha : ∀ c ∈ a, ¬ c = '\n') (r : Str) :
    replAll nlUl liSep (a ++ r) = a ++ replAll nlUl liSep r := by
  rw [show nlUl = '\n' :: ofStr ("<ul>") from rfl]
  exact replAll_append_plain ha r

theorem replAll_ulClose_plain {a : Str} (ha : ∀ c ∈ a, ¬ c = '<') (r : Str) :
    replAll ulClose [] (a ++ r) = a ++ replAll ulClose [] r := by
  rw [show ulClose = '<' :: ofStr ("/ul>") by decide]
  exact replAll_append_plain ha r

theorem pass8_aux (ts : List Str) (hne : ¬ ts = [])
    (hts : ∀ t ∈ ts, ∀ a ∈ t, plainChar a = true) :
    replAll nlUl liSep ('\n' :: joinNl (ts.map liWrap))
      = liSep ++ interSep liSep (ts.map liHW) := by
  induction ts with
  | nil => exact absurd rfl hne
  | cons t rest ih =>
    cases rest with
    | nil =>
      show replAll nlUl liSep ('\n' :: liWrap t) = liSep ++ liHW t
      rw [show ('\n' :: liWrap t) = nlUl ++ liHW t by
        rw [liWrap, liHW, nlUl,
          show ofStr ("<ul><li>") = ofStr ("<ul>") ++ ofStr ("<li>") by decide]
        simp]
      rw [replAll_match (by decide) (liHW t)]
      rw [@replAll_id_of_not_mem nlUl liSep _ '\n' (by decide)
        (fun hm => nl_not_mem_liHW (hts t (by simp)) hm rfl)]
    | cons t2 rs =>
      show replAll nlUl liSep
          ('\n' :: (liWrap t ++ '\n' :: joinNl ((t2 :: rs).map liWrap)))
        = liSep ++ (liHW t ++ liSep ++ interSep liSep ((t2 :: rs).map liHW))
      rw [show ('\n' :: (liWrap t ++ '\n' :: joinNl ((t2 :: rs).map liWrap)))
          = nlUl ++ (liHW t ++ '\n' :: joinNl ((t2 :: rs).map liWrap)) by
        rw [liWrap, liHW, nlUl,
          show ofStr ("<ul><li>") = ofStr ("<ul>") ++ ofStr ("<li>") by decide]
        simp]
      rw [replAll_match (by decide)]
      rw [replAll_nlUl_plain
        (fun c hc => nl_not_mem_liHW (hts t (by simp)) hc)
        ('\n' :: joinNl ((t2 :: rs).map liWrap))]
      rw [ih (by simp) (fun a ha b hb => hts a (List.mem_cons_of_mem t ha) b hb)]
      simp

theorem pass8_list (ts : List Str) (hne : ¬ ts = [])
    (hts : ∀ t ∈ ts, ∀ a ∈ t, plainChar a = true) :
    replAll nlUl liSep (joinNl (ts.map liWrap))
      = ofStr ("<ul>") ++ interSep liSep (ts.map liHW) := by
  cases ts with
  | nil => exact absurd rfl hne
  | cons t rest =>
    cases rest with
    | nil =>
      show replAll nlUl liSep (liWrap t) = ofStr ("<ul>") ++ liHW t
      rw [@replAll_id_of_not_mem nlUl liSep _ '\n' (by decide)
        (fun hm => nl_not_mem_liWrap (hts t (by simp)) hm rfl)]
      rw [liWrap, liHW,
        show ofStr ("<ul><li>") = ofStr ("<ul>") ++ ofStr ("<li>") by decide]
      simp
    | cons t2 rs =>
      show replAll nlUl liSep
          (liWrap t ++ '\n' :: joinNl ((t2 :: rs).map liWrap))
        = ofStr ("<ul>") ++ (liHW t ++ liSep ++ interSep liSep ((t2 :: rs).map liHW))
      rw [replAll_nlUl_plain
        (fun c hc => nl_not_mem_liWrap (hts t (by simp)) hc)
        ('\n' :: joinNl ((t2 :: rs).map liWrap))]
      rw [pass8_aux (t2 :: rs) (by simp)
        (fun a ha b hb => hts a (List.mem_cons_of_mem t ha) b hb)]
      rw [liWrap, liHW,
        show ofStr ("<ul><li>") = ofStr ("<ul>") ++ ofStr ("<li>") by decide]
      simp

theorem pass10_aux (ts : List Str) (hne : ¬ ts = [])
    (hts : ∀ t ∈ ts, ∀ a ∈ t, plainChar a = true) :
    replAll ulClose [] (interSep liSep (ts.map liHW))
      = interSep liSep (ts.map liFull) := by
  induction ts with
  | nil => exact absurd rfl hne
  | cons t rest ih =>
    have hsk : ∀ r : Str, replAll ulClose [] (liHW t ++ r)
        = liFull t ++ replAll ulClose [] r := by
      intro r
      rw [show liHW t ++ r
          = ofStr ("<li>") ++ (t ++ (ofStr ("</li>") ++ (ulClose ++ r))) by
        rw [liHW, ulClose,
          show ofStr ("</li></ul>") = ofStr ("</li>") ++ ofStr ("</ul>") by decide]
        simp]
      rw [replAll_append_segSafe (by decide) _]
      rw [replAll_ulClose_plain
        (fun c hc he => by
          subst he
          exact absurd (hts t (by simp) _ hc) (by decide)) _]
      rw [replAll_append_segSafe (by decide) _]
      rw [replAll_match (by decide) r]
      rw [liFull]
      simp
    cases rest with
    | nil =>
      show replAll ulClose [] (liHW t) = liFull t
      have h := hsk []
      rw [List.append_nil, replAll_nil, List.append_nil] at h
      exact h
    | cons t2 rs =>
      rw [show interSep liSep ((t :: t2 :: rs).map liHW)
          = liHW t ++ liSep ++ interSep liSep ((t2 :: rs).map liHW) from rfl]
      rw [List.append_assoc, hsk]
      rw [replAll_append_segSafe (by decide) _]
      rw [ih (by simp) (fun a ha b hb => hts a (List.mem_cons_of_mem t ha) b hb)]
      rw [show interSep liSep ((t :: t2 :: rs).map liFull)
          = liFull t ++ liSep ++ interSep liSep ((t2 :: rs).map liFull) from rfl]
      simp

theorem no_nl_pass8 {ts : List Str} (hts : ∀ t ∈ ts, ∀ a ∈ t, plainChar a = true) :
    ¬ ('\n' : Char) ∈ ofStr ("<ul>") ++ interSep liSep (ts.map liHW) := by
  intro h
  rcases List.mem_append.mp h with h1 | h1
  · exact absurd h1 (by decide)
  · rcases mem_interSep h1 with h2 | ⟨l, hl, hcl⟩
    · exact absurd h2 (by decide)
    · rcases List.mem_map.mp hl with ⟨t, ht, rfl⟩
      exact nl_not_mem_liHW (hts t ht) hcl rfl

theorem no_nl_pass10 {ts : List Str} (hts : ∀ t ∈ ts, ∀ a ∈ t, plainChar a = true) :
    ¬ ('\n' : Char) ∈ ofStr ("<ul>") ++ interSep liSep (ts.map liFull) := by
  intro h
  rcases List.mem_append.mp h with h1 | h1
  · exact absurd h1 (by decide)
  · rcases mem_interSep h1 with h2 | ⟨l, hl, hcl⟩
    · exact absurd h2 (by decide)
    · rcases List.mem_map.mp hl with ⟨t, ht, rfl⟩
      rw [liFull] at hcl
      rcases List.mem_append.mp hcl with h3 | h3
      · rcases List.mem_append.mp h3 with h4 | h4
        · exact absurd h4 (by decide)
        · have := hts t ht _ h4
          exact absurd this (by decide)
      · exact absurd h3 (by decide)

theorem map_id_of_eq {f : Str → Str} {ls : List Str} (h : ∀ l ∈ ls, f l = l) :
    ls.map f = ls := by
  induction ls with
  | nil => rfl
  | cons x xs ih =>
    rw [List.map_cons, h x (by simp),
      ih (fun l hl => h l (List.mem_cons_of_mem x hl))]

theorem map_eq_of_eq {f g : Str → Str} {ls : List Str} (h : ∀ l ∈ ls, f l = g l) :
    ls.map f = ls.map g := by
  induction ls with
  | nil => rfl
  | cons x xs ih =>
    rw [List.map_cons, List.map_cons, h x (by simp),
      ih (fun l hl => h l (List.mem_cons_of_mem x hl))]

/-- C5 counterexample: on the markdown `- a\n- b` the conversion emits
`<ul><li>a</li></li><li><li>b</li>`; the output contains no `</ul>` at all
(every closing tag is stripped by the final `replace(/<\/ul>/g, "")` pass,
so the list is not a well-formed `<ul>` element) and no `<br>`. -/
theorem C5_counterexample :
    convertMarkdownToHTML (ofStr ("- a\n- b"))
      = ofStr ("<ul><li>a</li></li><li><li>b</li>") ∧
    occursB (ofStr ("</ul>")) (convertMarkdownToHTML (ofStr ("- a\n- b"))) = false ∧
    occursB (ofStr ("<br>")) (convertMarkdownToHTML (ofStr ("- a\n- b"))) = false := by
  refine ⟨by decide, ?_, ?_⟩ <;> decide

/-- C5: what the list passes actually produce.  For one or more adjacent
`- t` lines of plain text, `convertMarkdownToHTML` emits `<ul>` followed by
the items `<li>t</li>` glued with the literal separator `</li><li>`: the
items are merged into one run, but the single `<ul>` is never closed (the
`</ul>` pass deletes every closing tag, including the final one), the glue
duplicates `</li>`/`<li>` around each boundary, and no newline survives to
become `<br>`. -/
theorem C5_list_coalescing (ts : List Str) (hne : ¬ ts = [])
    (hts : ∀ t ∈ ts, ∀ a ∈ t, plainChar a = true) :
    convertMarkdownToHTML (joinNl (ts.map mdLi))
      = ofStr ("<ul>") ++ interSep liSep (ts.map liFull) := by
  have hne' : ¬ ts.map mdLi = [] := by
    intro h
    apply hne
    cases ts with
    | nil => rfl
    | cons a b => simp at h
  have hnl : ∀ l ∈ ts.map mdLi, ¬ '\n' ∈ l := by
    intro l hl
    rcases List.mem_map.mp hl with ⟨t, ht, rfl⟩
    intro hm
    rw [mdLi] at hm
    rcases List.mem_cons.mp hm with h1 | h1
    · exact absurd h1 (by decide)
    rcases List.mem_cons.mp h1 with h2 | h2
    · exact absurd h2 (by decide)
    · exact absurd (hts t ht _ h2) (by decide)
  have hchar : ∀ c ∈ joinNl (ts.map mdLi),
      plainChar c = true ∨ c = '-' ∨ c = ' ' ∨ c = '\n' := by
    intro c h
    rcases mem_joinNl h with rfl | ⟨l, hl, hcl⟩
    · right; right; right; rfl
    · rcases List.mem_map.mp hl with ⟨t, ht, rfl⟩
      rw [mdLi] at hcl
      rcases List.mem_cons.mp hcl with h1 | h1
      · right; left; exact h1
      rcases List.mem_cons.mp h1 with h2 | h2
      · right; right; left; exact h2
      · left; exact hts t ht _ h2
  have h0 : ¬ trimC (joinNl (ts.map mdLi)) = [] := by
    intro h
    rw [trimC_eq_nil_iff] at h
    have hd : ('-' : Char) ∈ joinNl (ts.map mdLi) := by
      cases ts with
      | nil => exact absurd rfl hne
      | cons t rest =>
        cases rest with
        | nil =>
          show ('-' : Char) ∈ mdLi t
          rw [mdLi]; simp
        | cons t2 rs =>
          show ('-' : Char) ∈ mdLi t ++ '\n' :: joinNl ((t2 :: rs).map mdLi)
          apply List.mem_append_left
          rw [mdLi]; simp
    exact absurd (h _ hd) (by decide)
  have e123 : ∀ n, n = 1 ∨ n = 2 ∨ n = 3 →
      perLine (hLine n) (joinNl (ts.map mdLi)) = joinNl (ts.map mdLi) := by
    intro n hn
    rw [perLine_joinNl hnl hne']
    congr 1
    apply map_id_of_eq
    intro l hl
    rcases List.mem_map.mp hl with ⟨t, ht, rfl⟩
    rw [mdLi]
    exact hLine_cons_ne _ hn (by decide)
  have e4 : scan boldStep (joinNl (ts.map mdLi)) = joinNl (ts.map mdLi) := by
    apply scan_eq_self_of_forall (P := fun c => ¬ c = '*')
    · intro c cs hc; exact boldStep_none cs hc
    · intro c h
      rcases hchar c h with hp | rfl | rfl | rfl
      · intro he; subst he; exact absurd hp (by decide)
      all_goals decide
  have e5 : scan italStep (joinNl (ts.map mdLi)) = joinNl (ts.map mdLi) := by
    apply scan_eq_self_of_forall (P := fun c => ¬ c = '*')
    · intro c cs hc; exact italStep_none cs hc
    · intro c h
      rcases hchar c h with hp | rfl | rfl | rfl
      · intro he; subst he; exact absurd hp (by decide)
      all_goals decide
  have e6 : scan linkStep (joinNl (ts.map mdLi)) = joinNl (ts.map mdLi) := by
    apply scan_eq_self_of_forall (P := fun c => ¬ c = '[')
    · intro c cs hc; exact linkStep_none cs hc
    · intro c h
      rcases hchar c h with hp | rfl | rfl | rfl
      · intro he; subst he; exact absurd hp (by decide)
      all_goals decide
  have e7 : perLine liLine (joinNl (ts.map mdLi)) = joinNl (ts.map liWrap) := by
    rw [perLine_joinNl hnl hne']
    congr 1
    rw [List.map_map]
    apply map_eq_of_eq
    intro t ht
    show liLine (mdLi t) = liWrap t
    rw [mdLi, liWrap]
    exact liLine_wrap t
  have e9 : replAll ulNlUl []
      (ofStr ("<ul>") ++ interSep liSep (ts.map liHW))
      = ofStr ("<ul>") ++ interSep liSep (ts.map liHW) :=
    replAll_id_of_not_mem (c := '\n') (by decide) (no_nl_pass8 hts)
  have e10 : replAll ulClose []
      (ofStr ("<ul>") ++ interSep liSep (ts.map liHW))
      = ofStr ("<ul>") ++ interSep liSep (ts.map liFull) := by
    rw [replAll_append_segSafe (by decide) _, pass10_aux ts hne hts]
  have e11 : replAll ['\n'] brTag
      (ofStr ("<ul>") ++ interSep liSep (ts.map liFull))
      = ofStr ("<ul>") ++ interSep liSep (ts.map liFull) :=
    replAll_id_of_not_mem (c := '\n') (by simp) (no_nl_pass10 hts)
  simp only [convertMarkdownToHTML]
  rw [if_neg h0, e123 1 (Or.inl rfl), e123 2 (Or.inr (Or.inl rfl)),
    e123 3 (Or.inr (Or.inr rfl)), e4, e5, e6, e7,
    pass8_list ts hne hts, e9, e10, e11]

theorem C5_list_coalescing_witness :
    ¬ ([ofStr ("a"), ofStr ("b")] : List Str) = [] ∧
    (∀ t ∈ ([ofStr ("a"), ofStr ("b")] : List Str),
      ∀ a ∈ t, plainChar a = true) ∧
    convertMarkdownToHTML (joinNl (([ofStr ("a"), ofStr ("b")] : List Str).map mdLi))
      = ofStr ("<ul>") ++
        interSep liSep (([ofStr ("a"), ofStr ("b")] : List Str).map liFull) :=
  ⟨by decide, by decide, C5_list_coalescing _ (by decide) (by decide)⟩

/-!
## Segment-skipping engine and docCat induction
-/

theorem segsStr_append (a b : List Seg) :
    segsStr (a ++ b) = segsStr a ++ segsStr b := by
  induction a with
  | nil => rfl
  | cons sg ss ih =>
    rw [List.cons_append, segsStr, ih, segsStr, List.append_assoc]

theorem scan_append_segs {step : Str → Option (Str × Str)} {pat : Str}
    (hfail : ∀ l, stripPre pat l = none → step l = none)
    {P : Char → Prop} (hnone : ∀ c cs, P c → step (c :: cs) = none)
    {S : List Seg} (hlit : segsLitOk pat S = true) (htxt : segsTxtP P S)
    (r : Str) :
    scan step (segsStr S ++ r) = segsStr S ++ scan step r := by
  induction S with
  | nil => simp [segsStr]
  | cons sg ss2 ih =>
    cases sg with
    | lit a =>
      rw [segsLitOk, Bool.and_eq_true] at hlit
      rw [segsStr, segStr, List.append_assoc,
        scan_append_segSafe hfail hlit.1 _,
        ih hlit.2 (fun s hs => htxt s (List.mem_cons_of_mem _ hs)),
        List.append_assoc]
    | txt a =>
      rw [segsLitOk] at hlit
      rw [segsStr, segStr, List.append_assoc,
        scan_append_of_forall hnone (htxt a (by simp)) _,
        ih hlit (fun s hs => htxt s (List.mem_cons_of_mem _ hs)),
        List.append_assoc]

theorem replOnceT_cons_none {p : TagPat} {c : Char} {cs : Str}
    (h : tagCap p (c :: cs) = none) :
    replOnceT p (c :: cs) = c :: replOnceT p cs := by
  rw [replOnceT, h]

theorem replOnceT_append_of_forall {p : TagPat} {P : Char → Prop}
    (hnone : ∀ c cs, P c → tagCap p (c :: cs) = none)
    {a : Str} (ha : ∀ c ∈ a, P c) (r : Str) :
    replOnceT p (a ++ r) = a ++ replOnceT p r := by
  induction a with
  | nil => simp
  | cons c cs ih =>
    rw [List.cons_append, replOnceT_cons_none (hnone c _ (ha c (by simp))),
      ih (fun x hx => ha x (by simp [hx]))]
    rfl

theorem replOnceT_append_segSafe {p : TagPat} {a : Str}
    (ha : segSafe p.opn a = true) (r : Str) :
    replOnceT p (a ++ r) = a ++ replOnceT p r := by
  induction a with
  | nil => simp
  | cons c cs ih =>
    rw [segSafe, Bool.and_eq_true] at ha
    rw [List.cons_append,
      replOnceT_cons_none (tagCap_fail (by
        have := mismatchWithin_stripPre ha.1 r
        simpa using this)),
      ih ha.2]
    rfl

theorem replOnceT_append_segs {p : TagPat} {P : Char → Prop}
    (hnone : ∀ c cs, P c → tagCap p (c :: cs) = none)
    {S : List Seg} (hlit : segsLitOk p.opn S = true) (htxt : segsTxtP P S)
    (r : Str) :
    replOnceT p (segsStr S ++ r) = segsStr S ++ replOnceT p r := by
  induction S with
  | nil => simp [segsStr]
  | cons sg ss2 ih =>
    cases sg with
    | lit a =>
      rw [segsLitOk, Bool.and_eq_true] at hlit
      rw [segsStr, segStr, List.append_assoc,
        replOnceT_append_segSafe hlit.1 _,
        ih hlit.2 (fun s hs => htxt s (List.mem_cons_of_mem _ hs)),
        List.append_assoc]
    | txt a =>
      rw [segsLitOk] at hlit
      rw [segsStr, segStr, List.append_assoc,
        replOnceT_append_of_forall hnone (htxt a (by simp)) _,
        ih hlit (fun s hs => htxt s (List.mem_cons_of_mem _ hs)),
        List.append_assoc]

theorem docCat_congr {f g : Block → Str} {bs : List Block}
    (h : ∀ b ∈ bs, f b = g b) : docCat f bs = docCat g bs := by
  induction bs with
  | nil => rfl
  | cons b bs2 ih =>
    rw [docCat, docCat, h b (by simp),
      ih (fun x hx => h x (List.mem_cons_of_mem _ hx))]

theorem scan_docCat {step : Str → Option (Str × Str)} {f g : Block → Str}
    {bs : List Block}
    (hblk : ∀ b ∈ bs, ∀ r, scan step (f b ++ r) = g b ++ scan step r) :
    scan step (docCat f bs) = docCat g bs := by
  induction bs with
  | nil => rfl
  | cons b bs2 ih =>
    rw [docCat, hblk b (by simp) _,
      ih (fun x hx => hblk x (List.mem_cons_of_mem _ hx)), docCat]

theorem replOnceT_docCat {p : TagPat} {f g : Block → Str} {bs : List Block}
    (hblk : ∀ b ∈ bs, ∀ r, replOnceT p (f b ++ r) = g b ++ replOnceT p r) :
    replOnceT p (docCat f bs) = docCat g bs := by
  induction bs with
  | nil => rfl
  | cons b bs2 ih =>
    rw [docCat, hblk b (by simp) _,
      ih (fun x hx => hblk x (List.mem_cons_of_mem _ hx)), docCat]

theorem plainStr_mem {l : Str} (h : plainStr l = true) {c : Char} (hc : c ∈ l) :
    plainChar c = true := by
  rw [plainStr, List.all_eq_true] at h
  exact h c hc

theorem tagCap_none_head {p : TagPat} {c0 : Char} {ps : Str} (hop : p.opn = c0 :: ps)
    {c : Char} (hc : ¬ c0 = c) (cs : Str) : tagCap p (c :: cs) = none :=
  tagCap_fail (by rw [hop]; exact stripPre_cons_none hc)

theorem mdAnchorStep_fail {l : Str} (h : stripPre aOpen l = none) :
    mdAnchorStep l = none := by
  rw [mdAnchorStep, h]

theorem brStep_fail {l : Str} (h : stripPre (ofStr ("<br")) l = none) :
    brStep l = none := by
  rw [brStep, h]

theorem tagStripStep_none_head {c : Char} (cs : Str) (hc : ¬ c = '<') :
    tagStripStep (c :: cs) = none := by
  rw [tagStripStep]
  simp [hc]

/-- Characters of the markdown emphasis forms. -/
def mdSym (c : Char) : Bool :=
  c = '*' ∨ c = '[' ∨ c = ']' ∨ c = '(' ∨ c = ')'

theorem mdBold_mem {b : Str} (hb : plainStr b = true) {c : Char}
    (hc : c ∈ mdBold b) : plainChar c = true ∨ mdSym c = true := by
  rw [mdBold] at hc
  simp only [List.mem_cons, List.mem_append, List.mem_singleton,
    List.cons_append, List.not_mem_nil, or_false] at hc
  rcases hc with rfl | rfl | hc | rfl | rfl
  · right; decide
  · right; decide
  · left; exact plainStr_mem hb hc
  · right; decide
  · right; decide

theorem mdItal_mem {i : Str} (hi : plainStr i = true) {c : Char}
    (hc : c ∈ mdItal i) : plainChar c = true ∨ mdSym c = true := by
  rw [mdItal] at hc
  simp only [List.mem_cons, List.mem_append, List.mem_singleton,
    List.cons_append, List.not_mem_nil, or_false] at hc
  rcases hc with rfl | hc | rfl
  · right; decide
  · left; exact plainStr_mem hi hc
  · right; decide

theorem mdLink_mem {t u : Str} (ht : plainStr t = true) (hu : plainStr u = true)
    {c : Char} (hc : c ∈ mdLink t u) : plainChar c = true ∨ mdSym c = true := by
  rw [mdLink] at hc
  simp only [List.mem_cons, List.mem_append, List.mem_singleton,
    List.cons_append, List.not_mem_nil, or_false, List.append_assoc] at hc
  rcases hc with rfl | hc | rfl | rfl | hc | rfl
  · right; decide
  · left; exact plainStr_mem ht hc
  · right; decide
  · right; decide
  · left; exact plainStr_mem hu hc
  · right; decide

theorem pmSym_ne {c d : Char} (h : plainChar c = true ∨ mdSym c = true)
    (hd : plainChar d = false) (hd2 : mdSym d = false) : ¬ c = d := by
  intro he
  subst he
  rcases h with h | h
  · rw [h] at hd; cases hd
  · rw [h] at hd2; cases hd2

theorem segsTxtP_append {P : Char → Prop} {ss1 ss2 : List Seg}
    (h1 : segsTxtP P ss1) (h2 : segsTxtP P ss2) : segsTxtP P (ss1 ++ ss2) :=
  fun s hs => (List.mem_append.mp hs).elim (h1 s) (h2 s)

theorem segsTxtP_cons_txt {P : Char → Prop} {a : Str} {ss : List Seg}
    (ha : ∀ c ∈ a, P c) (h : segsTxtP P ss) : segsTxtP P (Seg.txt a :: ss) := by
  intro s hs
  rcases List.mem_cons.mp hs with he | hs2
  · rw [Seg.txt.injEq] at he
    subst he
    exact ha
  · exact h s hs2

theorem segsTxtP_cons_lit {P : Char → Prop} {a : Str} {ss : List Seg}
    (h : segsTxtP P ss) : segsTxtP P (Seg.lit a :: ss) := by
  intro s hs
  rcases List.mem_cons.mp hs with he | hs2
  · exact absurd he (by simp)
  · exact h s hs2

theorem segsTxtP_nil {P : Char → Prop} : segsTxtP P [] :=
  fun s hs => absurd hs (List.not_mem_nil _)

theorem segsTxtP_one_txt {P : Char → Prop} {a : Str} (ha : ∀ c ∈ a, P c) :
    segsTxtP P [Seg.txt a] := segsTxtP_cons_txt ha segsTxtP_nil

theorem segsLitOk_append {pat : Str} {ss1 ss2 : List Seg}
    (h1 : segsLitOk pat ss1 = true) (h2 : segsLitOk pat ss2 = true) :
    segsLitOk pat (ss1 ++ ss2) = true := by
  induction ss1 with
  | nil => exact h2
  | cons sg ss ih =>
    cases sg with
    | lit a =>
      rw [segsLitOk, Bool.and_eq_true] at h1
      rw [List.cons_append, segsLitOk, Bool.and_eq_true]
      exact ⟨h1.1, ih h1.2⟩
    | txt a =>
      rw [segsLitOk] at h1
      rw [List.cons_append, segsLitOk]
      exact ih h1

def pmP (c : Char) : Prop := plainChar c = true ∨ mdSym c = true

theorem plain_pmP {a : Str} (ha : plainStr a = true) : ∀ c ∈ a, pmP c :=
  fun c hc => Or.inl (plainStr_mem ha hc)

theorem boldSegsA_txt {mk : Nat} {b : Str} (hb : plainStr b = true) :
    segsTxtP pmP (boldSegsA mk b) := by
  rw [boldSegsA]
  by_cases h1 : 1 ≤ mk
  · rw [if_pos h1]
    exact segsTxtP_one_txt (fun c hc => mdBold_mem hb hc)
  · rw [if_neg h1]
    exact segsTxtP_cons_lit (segsTxtP_cons_txt (plain_pmP hb)
      (segsTxtP_cons_lit segsTxtP_nil))

theorem italSegsA_txt {mk : Nat} {i : Str} (hi : plainStr i = true) :
    segsTxtP pmP (italSegsA mk i) := by
  rw [italSegsA]
  by_cases h1 : 2 ≤ mk
  · rw [if_pos h1]
    exact segsTxtP_one_txt (fun c hc => mdItal_mem hi hc)
  · rw [if_neg h1]
    exact segsTxtP_cons_lit (segsTxtP_cons_txt (plain_pmP hi)
      (segsTxtP_cons_lit segsTxtP_nil))

theorem linkSegsA_txt {mk : Nat} {t u : Str} (ht : plainStr t = true)
    (hu : plainStr u = true) : segsTxtP pmP (linkSegsA mk t u) := by
  rw [linkSegsA]
  by_cases h1 : 3 ≤ mk
  · rw [if_pos h1]
    exact segsTxtP_one_txt (fun c hc => mdLink_mem ht hu hc)
  · rw [if_neg h1]
    exact segsTxtP_cons_lit (segsTxtP_cons_txt (plain_pmP hu)
      (segsTxtP_cons_lit (segsTxtP_cons_txt (plain_pmP ht)
        (segsTxtP_cons_lit segsTxtP_nil))))

theorem wfMark_boldItal {b mid i : Str}
    (hm : wfMark (Mark.boldItal b mid i) = true) :
    plainStr b = true ∧ plainStr mid = true ∧ plainStr i = true ∧
    ¬ b = [] ∧ ¬ mid = [] ∧ ¬ i = [] := by
  rw [wfMark] at hm
  simp only [Bool.and_eq_true, decide_eq_true_eq] at hm
  refine ⟨hm.1.1.1.1.1, hm.1.1.1.1.2, hm.1.1.1.2, ?_, ?_, ?_⟩
  · intro he; subst he; exact hm.1.1.2 rfl
  · intro he; subst he; exact hm.1.2 rfl
  · intro he; subst he; exact hm.2 rfl

theorem wfMark_italBold {i mid b : Str}
    (hm : wfMark (Mark.italBold i mid b) = true) :
    plainStr i = true ∧ plainStr mid = true ∧ plainStr b = true ∧
    ¬ i = [] ∧ ¬ mid = [] ∧ ¬ b = [] := by
  rw [wfMark] at hm
  simp only [Bool.and_eq_true, decide_eq_true_eq] at hm
  refine ⟨hm.1.1.1.1.1, hm.1.1.1.1.2, hm.1.1.1.2, ?_, ?_, ?_⟩
  · intro he; subst he; exact hm.1.1.2 rfl
  · intro he; subst he; exact hm.1.2 rfl
  · intro he; subst he; exact hm.2 rfl

theorem wfMark_bold {b : Str} (hm : wfMark (Mark.bold b) = true) :
    plainStr b = true ∧ ¬ b = [] := by
  rw [wfMark] at hm
  simp only [Bool.and_eq_true, decide_eq_true_eq] at hm
  refine ⟨hm.1, ?_⟩
  intro he; subst he; exact hm.2 rfl

theorem wfMark_ital {i : Str} (hm : wfMark (Mark.ital i) = true) :
    plainStr i = true ∧ ¬ i = [] := by
  rw [wfMark] at hm
  simp only [Bool.and_eq_true, decide_eq_true_eq] at hm
  refine ⟨hm.1, ?_⟩
  intro he; subst he; exact hm.2 rfl

theorem wfMark_link {t u : Str} (hm : wfMark (Mark.link t u) = true) :
    plainStr t = true ∧ plainStr u = true := by
  rw [wfMark] at hm
  simp only [Bool.and_eq_true] at hm
  exact hm

theorem markSegsA_txt {mk : Nat} {m : Mark} (hm : wfMark m = true) :
    segsTxtP pmP (markSegsA mk m) := by
  cases m with
  | plain => exact segsTxtP_nil
  | bold b => exact boldSegsA_txt (wfMark_bold hm).1
  | ital i => exact italSegsA_txt (wfMark_ital hm).1
  | boldItal b mid i =>
    rcases wfMark_boldItal hm with ⟨hb, hmid, hi, _, _, _⟩
    exact segsTxtP_append (boldSegsA_txt hb)
      (segsTxtP_cons_txt (plain_pmP hmid) (italSegsA_txt hi))
  | italBold i mid b =>
    rcases wfMark_italBold hm with ⟨hi, hmid, hb, _, _, _⟩
    exact segsTxtP_append (italSegsA_txt hi)
      (segsTxtP_cons_txt (plain_pmP hmid) (boldSegsA_txt hb))
  | link t u =>
    rcases wfMark_link hm with ⟨ht, hu⟩
    exact linkSegsA_txt ht hu

theorem paraSegsA_txt {mk : Nat} {p : Para} (hpre : plainStr p.pre = true)
    (hpost : plainStr p.post = true) (hm : wfMark p.mark = true) :
    segsTxtP pmP (paraSegsA mk p) :=
  segsTxtP_cons_lit (segsTxtP_cons_txt (plain_pmP hpre)
    (segsTxtP_append (markSegsA_txt hm)
      (segsTxtP_cons_txt (plain_pmP hpost) (segsTxtP_cons_lit segsTxtP_nil))))

theorem markSegsA_litOk {pat : Str} {mk : Nat} {m : Mark}
    (hso : segSafe pat strongOpen = true) (hsc : segSafe pat strongClose = true)
    (heo : segSafe pat emOpen = true) (hec : segSafe pat emClose = true)
    (hao : segSafe pat aOpen = true) (hq : segSafe pat ('"' :: ['>']) = true)
    (hac : segSafe pat aClose = true) :
    segsLitOk pat (markSegsA mk m) = true := by
  have hbold : ∀ b, segsLitOk pat (boldSegsA mk b) = true := by
    intro b
    rw [boldSegsA]
    by_cases h1 : 1 ≤ mk
    · rw [if_pos h1]; rfl
    · rw [if_neg h1]; simp [segsLitOk, hso, hsc]
  have hital : ∀ i, segsLitOk pat (italSegsA mk i) = true := by
    intro i
    rw [italSegsA]
    by_cases h1 : 2 ≤ mk
    · rw [if_pos h1]; rfl
    · rw [if_neg h1]; simp [segsLitOk, heo, hec]
  cases m with
  | plain => rfl
  | bold b => exact hbold b
  | ital i => exact hital i
  | boldItal b mid i =>
    exact segsLitOk_append (hbold b) (by rw [segsLitOk]; exact hital i)
  | italBold i mid b =>
    exact segsLitOk_append (hital i) (by rw [segsLitOk]; exact hbold b)
  | link t u =>
    rw [markSegsA, linkSegsA]
    by_cases h1 : 3 ≤ mk
    · rw [if_pos h1]; rfl
    · rw [if_neg h1]; simp [segsLitOk, hao, hq, hac]

theorem paraSegsA_litOk {pat : Str} {mk : Nat} {p : Para}
    (hp : segSafe pat (ofStr ("<p>")) = true)
    (hpc : segSafe pat (ofStr ("</p>")) = true)
    (hm : segsLitOk pat (markSegsA mk p.mark) = true) :
    segsLitOk pat (paraSegsA mk p) = true := by
  rw [paraSegsA, segsLitOk, Bool.and_eq_true]
  refine ⟨hp, ?_⟩
  rw [segsLitOk]
  exact segsLitOk_append hm (by simp [segsLitOk, hpc])

theorem wfPara_parts {p : Para} (h : wfBlock (Block.par p) = true) :
    plainStr p.pre = true ∧ plainStr p.post = true ∧ wfMark p.mark = true ∧
    edgeOk (mdPara p) = true := by
  rw [wfBlock] at h
  simp only [Bool.and_eq_true] at h
  exact ⟨h.1.1.1, h.1.1.2, h.1.2, h.2⟩

theorem wfHd_parts {n : Nat} {t : Str} (h : wfBlock (Block.hd n t) = true) :
    (n = 1 ∨ n = 2 ∨ n = 3) ∧ plainStr t = true ∧ edgeOk (mdHd n t) = true := by
  rw [wfBlock] at h
  simp only [Bool.and_eq_true, Bool.or_eq_true, beq_iff_eq] at h
  refine ⟨?_, h.1.2, h.2⟩
  rcases h.1.1 with hn | hn
  · rcases hn with hn | hn
    · exact Or.inl hn
    · exact Or.inr (Or.inl hn)
  · exact Or.inr (Or.inr hn)

theorem segsTxtP_mono {P Q : Char → Prop} (h : ∀ c, P c → Q c) {ss : List Seg}
    (hp : segsTxtP P ss) : segsTxtP Q ss :=
  fun s hs c hc => h c (hp s hs c hc)

theorem pmP_ne_lt {c : Char} (h : pmP c) : ¬ c = '<' :=
  pmSym_ne h (by decide) (by decide)

theorem pmP_ne_amp {c : Char} (h : pmP c) : ¬ c = '&' :=
  pmSym_ne h (by decide) (by decide)

theorem pmP_ne_nl {c : Char} (h : pmP c) : ¬ c = '\n' :=
  pmSym_ne h (by decide) (by decide)

theorem segsStr_three (a x b : Str) :
    segsStr [Seg.lit a, Seg.txt x, Seg.lit b] = a ++ x ++ b := by
  simp [segsStr, segStr]

theorem mem_docCat {f : Block → Str} {bs : List Block} {c : Char}
    (hc : c ∈ docCat f bs) : ∃ b ∈ bs, c ∈ f b := by
  induction bs with
  | nil => rw [docCat] at hc; cases hc
  | cons b bs2 ih =>
    rw [docCat] at hc
    rcases List.mem_append.mp hc with h | h
    · exact ⟨b, by simp, h⟩
    · rcases ih h with ⟨b2, hb2, hcb2⟩
      exact ⟨b2, List.mem_cons_of_mem _ hb2, hcb2⟩

theorem mdHd_mem {n : Nat} {t : Str} (ht : plainStr t = true) {c : Char}
    (hc : c ∈ mdHd n t) : plainChar c = true ∨ c = '#' ∨ c = ' ' := by
  rw [mdHd] at hc
  rcases List.mem_append.mp hc with h | h
  · right; left; exact List.eq_of_mem_replicate h
  · rcases List.mem_cons.mp h with rfl | h
    · right; right; rfl
    · left; exact plainStr_mem ht h

theorem mdMark_mem {m : Mark} (hm : wfMark m = true) {c : Char}
    (hc : c ∈ mdMark m) : pmP c := by
  cases m with
  | plain => rw [mdMark] at hc; cases hc
  | bold b => exact mdBold_mem (wfMark_bold hm).1 hc
  | ital i => exact mdItal_mem (wfMark_ital hm).1 hc
  | boldItal b mid i =>
    rcases wfMark_boldItal hm with ⟨hb, hmid, hi, _, _, _⟩
    rw [mdMark] at hc
    rcases List.mem_append.mp hc with h | h
    · rcases List.mem_append.mp h with h2 | h2
      · exact mdBold_mem hb h2
      · exact Or.inl (plainStr_mem hmid h2)
    · exact mdItal_mem hi h
  | italBold i mid b =>
    rcases wfMark_italBold hm with ⟨hi, hmid, hb, _, _, _⟩
    rw [mdMark] at hc
    rcases List.mem_append.mp hc with h | h
    · rcases List.mem_append.mp h with h2 | h2
      · exact mdItal_mem hi h2
      · exact Or.inl (plainStr_mem hmid h2)
    · exact mdBold_mem hb h
  | link t u =>
    rcases wfMark_link hm with ⟨ht, hu⟩
    exact mdLink_mem ht hu hc

theorem mdPara_mem {p : Para} (hb : wfBlock (Block.par p) = true) {c : Char}
    (hc : c ∈ mdPara p) : pmP c := by
  rcases wfPara_parts hb with ⟨hpre, hpost, hm, _⟩
  rw [mdPara] at hc
  rcases List.mem_append.mp hc with h | h
  · rcases List.mem_append.mp h with h2 | h2
    · exact Or.inl (plainStr_mem hpre h2)
    · exact mdMark_mem hm h2
  · exact Or.inl (plainStr_mem hpost h)

/-- Every character of a finished markdown block line (with its trailing
newline). -/
theorem blkMd_mem {b : Block} (hb : wfBlock b = true) {c : Char}
    (hc : c ∈ blkMd b) : pmP c ∨ c = '#' ∨ c = ' ' ∨ c = '\n' := by
  rw [blkMd] at hc
  rcases List.mem_append.mp hc with h | h
  · cases b with
    | hd n t =>
      rcases mdHd_mem (wfHd_parts hb).2.1 h with h2 | h2 | h2
      · exact Or.inl (Or.inl h2)
      · exact Or.inr (Or.inl h2)
      · exact Or.inr (Or.inr (Or.inl h2))
    | par p => exact Or.inl (mdPara_mem hb h)
  · rcases List.mem_singleton.mp h with rfl
    exact Or.inr (Or.inr (Or.inr rfl))

theorem mdAllP_ne {c d : Char} (h : pmP c ∨ c = '#' ∨ c = ' ' ∨ c = '\n')
    (hd : plainChar d = false) (hd2 : mdSym d = false) (h3 : ¬ ('#' : Char) = d)
    (h4 : ¬ (' ' : Char) = d) (h5 : ¬ ('\n' : Char) = d) : ¬ c = d := by
  rcases h with h | rfl | rfl | rfl
  · exact pmSym_ne h hd hd2
  · exact h3
  · exact h4
  · exact h5

theorem mdAnchorStep_shrinks : Shrinks mdAnchorStep := by
  intro l o r hl
  rw [mdAnchorStep] at hl
  rcases h1 : stripPre aOpen l with _ | r1
  · simp only [h1] at hl; cases hl
  simp only [h1] at hl
  have hl1 := stripPre_some_length h1
  rcases h2 : r1.dropWhile notQuote with _ | ⟨c, r2⟩
  · simp only [h2] at hl; cases hl
  simp only [h2] at hl
  by_cases hc : c = '"'
  · rw [if_pos hc] at hl
    rcases h3 : attrRest true r2 with _ | r3
    · simp only [h3] at hl; cases hl
    simp only [h3] at hl
    rcases h4 : splitFirst aClose r3 with _ | ⟨t, rest⟩
    · simp only [h4] at hl; cases hl
    simp only [h4] at hl
    by_cases hnl : ¬ '\n' ∈ t
    · rw [if_pos hnl] at hl
      simp only [Option.some.injEq, Prod.mk.injEq] at hl
      have hr : rest = r := hl.2
      subst hr
      have h5 := attrRest_some_length h3
      have h6 := splitFirst_some_length h4
      have h7 : (c :: r2).length ≤ r1.length := by
        rw [← h2]
        exact (List.dropWhile_suffix _).length_le
      simp only [List.length_cons] at h7
      have h8 : aOpen.length = 9 := by decide
      have h9 : aClose.length = 4 := by decide
      omega
    · rw [if_neg hnl] at hl; cases hl
  · rw [if_neg hc] at hl; cases hl

theorem plainStr_not_mem {l : Str} (h : plainStr l = true) {d : Char}
    (hd : plainChar d = false) : ¬ d ∈ l := by
  intro hm
  have := plainStr_mem h hm
  rw [this] at hd
  cases hd

theorem scan_append_mdHd {step : Str → Option (Str × Str)}
    (hnone : ∀ c cs, ¬ c = '<' → step (c :: cs) = none)
    {n : Nat} {t : Str} (ht : plainStr t = true) (r : Str) :
    scan step ((mdHd n t ++ ['\n']) ++ r) = (mdHd n t ++ ['\n']) ++ scan step r := by
  apply scan_append_of_forall hnone
  intro c hc
  rcases List.mem_append.mp hc with h | h
  · rcases mdHd_mem ht h with h2 | h2 | h2
    · exact pmSym_ne (Or.inl h2) (by decide) (by decide)
    · subst h2; decide
    · subst h2; decide
  · rcases List.mem_singleton.mp h with rfl
    decide

theorem passA0_blk {b : Block} (hb : wfBlock b = true) (r : Str) :
    replOnceT phPat (blkA 0 0 b ++ r) = blkA 0 0 b ++ replOnceT phPat r := by
  have hnone : ∀ c cs, ¬ c = '<' → tagCap phPat (c :: cs) = none :=
    fun c cs hc => tagCap_none_head
      (show phPat.opn = '<' :: (ofStr ("div class=") ++ '"' ::
        (ofStr ("placeholder") ++ '"' :: ['>'])) by decide)
      (fun he => hc he.symm) cs
  cases b with
  | hd n t =>
    rcases wfHd_parts hb with ⟨hn, ht, _⟩
    have hform : blkA 0 0 (Block.hd n t) = hOpenN n ++ t ++ hCloseN n := by
      rw [blkA, if_neg (by omega)]
    rw [hform]
    have h := replOnceT_append_segs (p := phPat) hnone
      (S := [Seg.lit (hOpenN n), Seg.txt t, Seg.lit (hCloseN n)])
      (by rcases hn with rfl | rfl | rfl <;> simp [segsLitOk] <;> decide)
      (segsTxtP_mono (fun c h => pmP_ne_lt h)
        (segsTxtP_cons_lit (segsTxtP_cons_txt (plain_pmP ht)
          (segsTxtP_cons_lit segsTxtP_nil)))) r
    rw [segsStr_three] at h
    exact h
  | par p =>
    rcases wfPara_parts hb with ⟨hpre, hpost, hm, _⟩
    rw [show blkA 0 0 (Block.par p) = segsStr (paraSegsA 0 p) from rfl]
    exact replOnceT_append_segs hnone
      (paraSegsA_litOk (by decide) (by decide)
        (markSegsA_litOk (by decide) (by decide) (by decide) (by decide)
          (by decide) (by decide) (by decide)))
      (segsTxtP_mono (fun c h => pmP_ne_lt h) (paraSegsA_txt hpre hpost hm)) r

theorem passA1_blk {b : Block} (hb : wfBlock b = true) (r : Str) :
    tagSub h1Pat (blkA 0 0 b ++ r) = blkA 1 0 b ++ tagSub h1Pat r := by
  have hnone : ∀ c cs, ¬ c = '<' → tagCap h1Pat (c :: cs) = none :=
    fun c cs hc => tagCap_none_head
      (show h1Pat.opn = '<' :: ofStr ("h1") by decide)
      (fun he => hc he.symm) cs
  cases b with
  | hd n t =>
    rcases wfHd_parts hb with ⟨hn, ht, _⟩
    rcases hn with rfl | rfl | rfl
    · rw [show blkA 0 0 (Block.hd 1 t) = hOpenN 1 ++ t ++ hCloseN 1 from rfl]
      rw [show blkA 1 0 (Block.hd 1 t) = mdHd 1 t ++ ['\n'] from rfl]
      rw [show hOpenN 1 ++ t ++ hCloseN 1 ++ r
          = h1Pat.opn ++ '>' :: (t ++ h1Pat.cls ++ r) by
        rw [show hOpenN 1 = h1Pat.opn ++ ['>'] by decide,
          show hCloseN 1 = h1Pat.cls by decide]
        simp]
      rw [tagSub, tagSub, scan_some (tagCap_shrinks (by decide))
        (tagCap_at_attrs t r rfl
          (show h1Pat.cls = '<' :: ofStr ("/h1>") by decide)
          (fun c hc => pmP_ne_lt (Or.inl (plainStr_mem ht hc)))
          (Or.inr (plainStr_not_mem ht (by decide))))]
      rw [show h1Pat.mkRep t = mdHd 1 t ++ ['\n'] by
        simp [h1Pat, mdHd, List.replicate]]
    · rw [show blkA 0 0 (Block.hd 2 t) = hOpenN 2 ++ t ++ hCloseN 2 from rfl,
        show blkA 1 0 (Block.hd 2 t) = hOpenN 2 ++ t ++ hCloseN 2 from rfl]
      have h := scan_append_segs (fun l hl => tagCap_fail hl) hnone
        (S := [Seg.lit (hOpenN 2), Seg.txt t, Seg.lit (hCloseN 2)])
        (by simp [segsLitOk]; decide)
        (segsTxtP_mono (fun c h => pmP_ne_lt h)
          (segsTxtP_cons_lit (segsTxtP_cons_txt (plain_pmP ht)
            (segsTxtP_cons_lit segsTxtP_nil)))) r
      rw [segsStr_three] at h
      exact h
    · rw [show blkA 0 0 (Block.hd 3 t) = hOpenN 3 ++ t ++ hCloseN 3 from rfl,
        show blkA 1 0 (Block.hd 3 t) = hOpenN 3 ++ t ++ hCloseN 3 from rfl]
      have h := scan_append_segs (fun l hl => tagCap_fail hl) hnone
        (S := [Seg.lit (hOpenN 3), Seg.txt t, Seg.lit (hCloseN 3)])
        (by simp [segsLitOk]; decide)
        (segsTxtP_mono (fun c h => pmP_ne_lt h)
          (segsTxtP_cons_lit (segsTxtP_cons_txt (plain_pmP ht)
            (segsTxtP_cons_lit segsTxtP_nil)))) r
      rw [segsStr_three] at h
      exact h
  | par p =>
    rcases wfPara_parts hb with ⟨hpre, hpost, hm, _⟩
    rw [show blkA 0 0 (Block.par p) = segsStr (paraSegsA 0 p) from rfl,
      show blkA 1 0 (Block.par p) = segsStr (paraSegsA 0 p) from rfl]
    exact scan_append_segs (fun l hl => tagCap_fail hl) hnone
      (paraSegsA_litOk (by decide) (by decide)
        (markSegsA_litOk (by decide) (by decide) (by decide) (by decide)
          (by decide) (by decide) (by decide)))
      (segsTxtP_mono (fun c h => pmP_ne_lt h) (paraSegsA_txt hpre hpost hm)) r

theorem passA2_blk {b : Block} (hb : wfBlock b = true) (r : Str) :
    tagSub h2Pat (blkA 1 0 b ++ r) = blkA 2 0 b ++ tagSub h2Pat r := by
  have hnone : ∀ c cs, ¬ c = '<' → tagCap h2Pat (c :: cs) = none :=
    fun c cs hc => tagCap_none_head
      (show h2Pat.opn = '<' :: ofStr ("h2") by decide)
      (fun he => hc he.symm) cs
  cases b with
  | hd n t =>
    rcases wfHd_parts hb with ⟨hn, ht, _⟩
    rcases hn with rfl | rfl | rfl
    · rw [show blkA 1 0 (Block.hd 1 t) = mdHd 1 t ++ ['\n'] from rfl,
        show blkA 2 0 (Block.hd 1 t) = mdHd 1 t ++ ['\n'] from rfl,
        tagSub, tagSub, scan_append_mdHd hnone ht r]
    · rw [show blkA 1 0 (Block.hd 2 t) = hOpenN 2 ++ t ++ hCloseN 2 from rfl]
      rw [show blkA 2 0 (Block.hd 2 t) = mdHd 2 t ++ ['\n'] from rfl]
      rw [show hOpenN 2 ++ t ++ hCloseN 2 ++ r
          = h2Pat.opn ++ '>' :: (t ++ h2Pat.cls ++ r) by
        rw [show hOpenN 2 = h2Pat.opn ++ ['>'] by decide,
          show hCloseN 2 = h2Pat.cls by decide]
        simp]
      rw [tagSub, tagSub, scan_some (tagCap_shrinks (by decide))
        (tagCap_at_attrs t r rfl
          (show h2Pat.cls = '<' :: ofStr ("/h2>") by decide)
          (fun c hc => pmP_ne_lt (Or.inl (plainStr_mem ht hc)))
          (Or.inr (plainStr_not_mem ht (by decide))))]
      rw [show h2Pat.mkRep t = mdHd 2 t ++ ['\n'] by
        simp [h2Pat, mdHd, List.replicate]]
    · rw [show blkA 1 0 (Block.hd 3 t) = hOpenN 3 ++ t ++ hCloseN 3 from rfl,
        show blkA 2 0 (Block.hd 3 t) = hOpenN 3 ++ t ++ hCloseN 3 from rfl]
      have h := scan_append_segs (fun l hl => tagCap_fail hl) hnone
        (S := [Seg.lit (hOpenN 3), Seg.txt t, Seg.lit (hCloseN 3)])
        (by simp [segsLitOk]; decide)
        (segsTxtP_mono (fun c h => pmP_ne_lt h)
          (segsTxtP_cons_lit (segsTxtP_cons_txt (plain_pmP ht)
            (segsTxtP_cons_lit segsTxtP_nil)))) r
      rw [segsStr_three] at h
      exact h
  | par p =>
    rcases wfPara_parts hb with ⟨hpre, hpost, hm, _⟩
    rw [show blkA 1 0 (Block.par p) = segsStr (paraSegsA 0 p) from rfl,
      show blkA 2 0 (Block.par p) = segsStr (paraSegsA 0 p) from rfl]
    exact scan_append_segs (fun l hl => tagCap_fail hl) hnone
      (paraSegsA_litOk (by decide) (by decide)
        (markSegsA_litOk (by decide) (by decide) (by decide) (by decide)
          (by decide) (by decide) (by decide)))
      (segsTxtP_mono (fun c h => pmP_ne_lt h) (paraSegsA_txt hpre hpost hm)) r

theorem passA3_blk {b : Block} (hb : wfBlock b = true) (r : Str) :
    tagSub h3Pat (blkA 2 0 b ++ r) = blkA 3 0 b ++ tagSub h3Pat r := by
  have hnone : ∀ c cs, ¬ c = '<' → tagCap h3Pat (c :: cs) = none :=
    fun c cs hc => tagCap_none_head
      (show h3Pat.opn = '<' :: ofStr ("h3") by decide)
      (fun he => hc he.symm) cs
  cases b with
  | hd n t =>
    rcases wfHd_parts hb with ⟨hn, ht, _⟩
    rcases hn with rfl | rfl | rfl
    · rw [show blkA 2 0 (Block.hd 1 t) = mdHd 1 t ++ ['\n'] from rfl,
        show blkA 3 0 (Block.hd 1 t) = mdHd 1 t ++ ['\n'] from rfl,
        tagSub, tagSub, scan_append_mdHd hnone ht r]
    · rw [show blkA 2 0 (Block.hd 2 t) = mdHd 2 t ++ ['\n'] from rfl,
        show blkA 3 0 (Block.hd 2 t) = mdHd 2 t ++ ['\n'] from rfl,
        tagSub, tagSub, scan_append_mdHd hnone ht r]
    · rw [show blkA 2 0 (Block.hd 3 t) = hOpenN 3 ++ t ++ hCloseN 3 from rfl]
      rw [show blkA 3 0 (Block.hd 3 t) = mdHd 3 t ++ ['\n'] from rfl]
      rw [show hOpenN 3 ++ t ++ hCloseN 3 ++ r
          = h3Pat.opn ++ '>' :: (t ++ h3Pat.cls ++ r) by
        rw [show hOpenN 3 = h3Pat.opn ++ ['>'] by decide,
          show hCloseN 3 = h3Pat.cls by decide]
        simp]
      rw [tagSub, tagSub, scan_some (tagCap_shrinks (by decide))
        (tagCap_at_attrs t r rfl
          (show h3Pat.cls = '<' :: ofStr ("/h3>") by decide)
          (fun c hc => pmP_ne_lt (Or.inl (plainStr_mem ht hc)))
          (Or.inr (plainStr_not_mem ht (by decide))))]
      rw [show h3Pat.mkRep t = mdHd 3 t ++ ['\n'] by
        simp [h3Pat, mdHd, List.replicate]]
  | par p =>
    rcases wfPara_parts hb with ⟨hpre, hpost, hm, _⟩
    rw [show blkA 2 0 (Block.par p) = segsStr (paraSegsA 0 p) from rfl,
      show blkA 3 0 (Block.par p) = segsStr (paraSegsA 0 p) from rfl]
    exact scan_append_segs (fun l hl => tagCap_fail hl) hnone
      (paraSegsA_litOk (by decide) (by decide)
        (markSegsA_litOk (by decide) (by decide) (by decide) (by decide)
          (by decide) (by decide) (by decide)))
      (segsTxtP_mono (fun c h => pmP_ne_lt h) (paraSegsA_txt hpre hpost hm)) r

theorem passA4_blk {b : Block} (hb : wfBlock b = true) (r : Str) :
    tagSub strongPat (blkA 3 0 b ++ r) = blkA 3 1 b ++ tagSub strongPat r := by
  have hnone : ∀ c cs, ¬ c = '<' → tagCap strongPat (c :: cs) = none :=
    fun c cs hc => tagCap_none_head
      (show strongPat.opn = '<' :: ofStr ("strong") by decide)
      (fun he => hc he.symm) cs
  have hfail : ∀ l, stripPre strongPat.opn l = none → tagCap strongPat l = none :=
    fun l hl => tagCap_fail hl
  cases b with
  | hd n t =>
    rcases wfHd_parts hb with ⟨hn, ht, _⟩
    rcases hn with rfl | rfl | rfl
    · rw [show blkA 3 0 (Block.hd 1 t) = mdHd 1 t ++ ['\n'] from rfl,
        show blkA 3 1 (Block.hd 1 t) = mdHd 1 t ++ ['\n'] from rfl,
        tagSub, tagSub, scan_append_mdHd hnone ht r]
    · rw [show blkA 3 0 (Block.hd 2 t) = mdHd 2 t ++ ['\n'] from rfl,
        show blkA 3 1 (Block.hd 2 t) = mdHd 2 t ++ ['\n'] from rfl,
        tagSub, tagSub, scan_append_mdHd hnone ht r]
    · rw [show blkA 3 0 (Block.hd 3 t) = mdHd 3 t ++ ['\n'] from rfl,
        show blkA 3 1 (Block.hd 3 t) = mdHd 3 t ++ ['\n'] from rfl,
        tagSub, tagSub, scan_append_mdHd hnone ht r]
  | par p =>
    rcases wfPara_parts hb with ⟨hpre, hpost, hm, _⟩
    rcases p with ⟨pre, m, post⟩
    simp only [wfMark] at hm
    cases m with
    | plain =>
      rw [show blkA 3 0 (Block.par ⟨pre, Mark.plain, post⟩)
          = segsStr (paraSegsA 0 ⟨pre, Mark.plain, post⟩) from rfl,
        show blkA 3 1 (Block.par ⟨pre, Mark.plain, post⟩)
          = segsStr (paraSegsA 0 ⟨pre, Mark.plain, post⟩) from rfl]
      refine scan_append_segs hfail hnone ?_ ?_ r
      · exact paraSegsA_litOk (by decide) (by decide) (by simp [markSegsA, segsLitOk])
      · exact segsTxtP_mono (fun c h => pmP_ne_lt h)
          (paraSegsA_txt hpre hpost (by rfl))
    | ital i =>
      rw [show blkA 3 0 (Block.par ⟨pre, Mark.ital i, post⟩)
          = segsStr (paraSegsA 0 ⟨pre, Mark.ital i, post⟩) from rfl,
        show blkA 3 1 (Block.par ⟨pre, Mark.ital i, post⟩)
          = segsStr (paraSegsA 0 ⟨pre, Mark.ital i, post⟩) by
        simp [blkA, paraSegsA, markSegsA, italSegsA]]
      refine scan_append_segs hfail hnone ?_ ?_ r
      · refine paraSegsA_litOk (by decide) (by decide) ?_
        simp only [markSegsA, italSegsA, segsLitOk]
        simp [segsLitOk]
        decide
      · exact segsTxtP_mono (fun c h => pmP_ne_lt h)
          (paraSegsA_txt hpre hpost (by rw [wfMark]; exact hm))
    | link t u =>
      rw [show blkA 3 0 (Block.par ⟨pre, Mark.link t u, post⟩)
          = segsStr (paraSegsA 0 ⟨pre, Mark.link t u, post⟩) from rfl,
        show blkA 3 1 (Block.par ⟨pre, Mark.link t u, post⟩)
          = segsStr (paraSegsA 0 ⟨pre, Mark.link t u, post⟩) by
        simp [blkA, paraSegsA, markSegsA, linkSegsA]]
      refine scan_append_segs hfail hnone ?_ ?_ r
      · refine paraSegsA_litOk (by decide) (by decide) ?_
        simp only [markSegsA, linkSegsA, segsLitOk]
        simp [segsLitOk]
        decide
      · exact segsTxtP_mono (fun c h => pmP_ne_lt h)
          (paraSegsA_txt hpre hpost (by rw [wfMark]; exact hm))
    | bold bb =>
      have hwf := @wfMark_bold bb (by rw [wfMark]; exact hm)
      rw [show blkA 3 0 (Block.par ⟨pre, Mark.bold bb, post⟩) ++ r
          = ofStr ("<p>") ++ (pre ++ (strongPat.opn ++ '>' ::
            ((bb ++ strongPat.cls) ++ (post ++ (ofStr ("</p>") ++ r))))) by
        simp [blkA, paraSegsA, markSegsA, boldSegsA, segsStr, segStr,
          show strongOpen = strongPat.opn ++ ['>'] by decide,
          show strongClose = strongPat.cls by decide]]
      rw [tagSub, tagSub,
        scan_append_segSafe hfail (show segSafe strongPat.opn (ofStr ("<p>")) = true by decide) _,
        scan_append_of_forall hnone
          (fun c hc => pmP_ne_lt (Or.inl (plainStr_mem hpre hc))) _,
        scan_some (tagCap_shrinks (by decide))
          (tagCap_at_attrs bb (post ++ (ofStr ("</p>") ++ r)) rfl
            (show strongPat.cls = '<' :: ofStr ("/strong>") by decide)
            (fun c hc => pmP_ne_lt (Or.inl (plainStr_mem hwf.1 hc)))
            (Or.inr (plainStr_not_mem hwf.1 (by decide)))),
        scan_append_of_forall hnone
          (fun c hc => pmP_ne_lt (Or.inl (plainStr_mem hpost hc))) _,
        scan_append_segSafe hfail (show segSafe strongPat.opn (ofStr ("</p>")) = true by decide) _]
      rw [show strongPat.mkRep bb = mdBold bb by simp [strongPat, mdBold]]
      rw [show blkA 3 1 (Block.par ⟨pre, Mark.bold bb, post⟩)
          = ofStr ("<p>") ++ (pre ++ (mdBold bb ++ (post ++ ofStr ("</p>")))) by
        simp [blkA, paraSegsA, markSegsA, boldSegsA, segsStr, segStr]]
      simp
    | boldItal bb mid i =>
      have hwf := @wfMark_boldItal bb mid i (by rw [wfMark]; exact hm)
      rw [show blkA 3 0 (Block.par ⟨pre, Mark.boldItal bb mid i, post⟩) ++ r
          = ofStr ("<p>") ++ (pre ++ (strongPat.opn ++ '>' ::
            ((bb ++ strongPat.cls) ++ (mid ++ (emOpen ++ (i ++ (emClose ++
              (post ++ (ofStr ("</p>") ++ r))))))))) by
        simp [blkA, paraSegsA, markSegsA, boldSegsA, italSegsA, segsStr, segStr,
          show strongOpen = strongPat.opn ++ ['>'] by decide,
          show strongClose = strongPat.cls by decide]]
      rw [tagSub, tagSub,
        scan_append_segSafe hfail (show segSafe strongPat.opn (ofStr ("<p>")) = true by decide) _,
        scan_append_of_forall hnone
          (fun c hc => pmP_ne_lt (Or.inl (plainStr_mem hpre hc))) _,
        scan_some (tagCap_shrinks (by decide))
          (tagCap_at_attrs bb (mid ++ (emOpen ++ (i ++ (emClose ++
              (post ++ (ofStr ("</p>") ++ r)))))) rfl
            (show strongPat.cls = '<' :: ofStr ("/strong>") by decide)
            (fun c hc => pmP_ne_lt (Or.inl (plainStr_mem hwf.1 hc)))
            (Or.inr (plainStr_not_mem hwf.1 (by decide)))),
        scan_append_of_forall hnone
          (fun c hc => pmP_ne_lt (Or.inl (plainStr_mem hwf.2.1 hc))) _,
        scan_append_segSafe hfail (show segSafe strongPat.opn emOpen = true by decide) _,
        scan_append_of_forall hnone
          (fun c hc => pmP_ne_lt (Or.inl (plainStr_mem hwf.2.2.1 hc))) _,
        scan_append_segSafe hfail (show segSafe strongPat.opn emClose = true by decide) _,
        scan_append_of_forall hnone
          (fun c hc => pmP_ne_lt (Or.inl (plainStr_mem hpost hc))) _,
        scan_append_segSafe hfail (show segSafe strongPat.opn (ofStr ("</p>")) = true by decide) _]
      rw [show strongPat.mkRep bb = mdBold bb by simp [strongPat, mdBold]]
      rw [show blkA 3 1 (Block.par ⟨pre, Mark.boldItal bb mid i, post⟩)
          = ofStr ("<p>") ++ (pre ++ (mdBold bb ++ (mid ++ (emOpen ++ (i ++
              (emClose ++ (post ++ ofStr ("</p>")))))))) by
        simp [blkA, paraSegsA, markSegsA, boldSegsA, italSegsA, segsStr, segStr]]
      simp
    | italBold i mid bb =>
      have hwf := @wfMark_italBold i mid bb (by rw [wfMark]; exact hm)
      rw [show blkA 3 0 (Block.par ⟨pre, Mark.italBold i mid bb, post⟩) ++ r
          = ofStr ("<p>") ++ (pre ++ (emOpen ++ (i ++ (emClose ++ (mid ++
            (strongPat.opn ++ '>' ::
            ((bb ++ strongPat.cls) ++ (post ++ (ofStr ("</p>") ++ r))))))))) by
        simp [blkA, paraSegsA, markSegsA, boldSegsA, italSegsA, segsStr, segStr,
          show strongOpen = strongPat.opn ++ ['>'] by decide,
          show strongClose = strongPat.cls by decide]]
      rw [tagSub, tagSub,
        scan_append_segSafe hfail (show segSafe strongPat.opn (ofStr ("<p>")) = true by decide) _,
        scan_append_of_forall hnone
          (fun c hc => pmP_ne_lt (Or.inl (plainStr_mem hpre hc))) _,
        scan_append_segSafe hfail (show segSafe strongPat.opn emOpen = true by decide) _,
        scan_append_of_forall hnone
          (fun c hc => pmP_ne_lt (Or.inl (plainStr_mem hwf.1 hc))) _,
        scan_append_segSafe hfail (show segSafe strongPat.opn emClose = true by decide) _,
        scan_append_of_forall hnone
          (fun c hc => pmP_ne_lt (Or.inl (plainStr_mem hwf.2.1 hc))) _,
        scan_some (tagCap_shrinks (by decide))
          (tagCap_at_attrs bb (post ++ (ofStr ("</p>") ++ r)) rfl
            (show strongPat.cls = '<' :: ofStr ("/strong>") by decide)
            (fun c hc => pmP_ne_lt (Or.inl (plainStr_mem hwf.2.2.1 hc)))
            (Or.inr (plainStr_not_mem hwf.2.2.1 (by decide)))),
        scan_append_of_forall hnone
          (fun c hc => pmP_ne_lt (Or.inl (plainStr_mem hpost hc))) _,
        scan_append_segSafe hfail (show segSafe strongPat.opn (ofStr ("</p>")) = true by decide) _]
      rw [show strongPat.mkRep bb = mdBold bb by simp [strongPat, mdBold]]
      rw [show blkA 3 1 (Block.par ⟨pre, Mark.italBold i mid bb, post⟩)
          = ofStr ("<p>") ++ (pre ++ (emOpen ++ (i ++ (emClose ++ (mid ++
              (mdBold bb ++ (post ++ ofStr ("</p>")))))))) by
        simp [blkA, paraSegsA, markSegsA, boldSegsA, italSegsA, segsStr, segStr]]
      simp

theorem passA5_blk {b : Block} (hb : wfBlock b = true) (r : Str) :
    tagSub bPat (blkA 3 1 b ++ r) = blkA 3 1 b ++ tagSub bPat r := by
  have hnone : ∀ c cs, ¬ c = '<' → tagCap bPat (c :: cs) = none :=
    fun c cs hc => tagCap_none_head
      (show bPat.opn = '<' :: ofStr ("b") by decide)
      (fun he => hc he.symm) cs
  have hfail : ∀ l, stripPre bPat.opn l = none → tagCap bPat l = none :=
    fun l hl => tagCap_fail hl
  cases b with
  | hd n t =>
    rcases wfHd_parts hb with ⟨hn, ht, _⟩
    rcases hn with rfl | rfl | rfl
    · rw [show blkA 3 1 (Block.hd 1 t) = mdHd 1 t ++ ['\n'] from rfl,
        tagSub, tagSub, scan_append_mdHd hnone ht r]
    · rw [show blkA 3 1 (Block.hd 2 t) = mdHd 2 t ++ ['\n'] from rfl,
        tagSub, tagSub, scan_append_mdHd hnone ht r]
    · rw [show blkA 3 1 (Block.hd 3 t) = mdHd 3 t ++ ['\n'] from rfl,
        tagSub, tagSub, scan_append_mdHd hnone ht r]
  | par p =>
    rcases wfPara_parts hb with ⟨hpre, hpost, hm, _⟩
    rw [show blkA 3 1 (Block.par p) = segsStr (paraSegsA 1 p) from rfl]
    refine scan_append_segs hfail hnone ?_ ?_ r
    · exact paraSegsA_litOk (by decide) (by decide)
        (markSegsA_litOk (by decide) (by decide) (by decide) (by decide)
          (by decide) (by decide) (by decide))
    · exact segsTxtP_mono (fun c h => pmP_ne_lt h) (paraSegsA_txt hpre hpost hm)

theorem passA7_blk {b : Block} (hb : wfBlock b = true) (r : Str) :
    tagSub iPat (blkA 3 2 b ++ r) = blkA 3 2 b ++ tagSub iPat r := by
  have hnone : ∀ c cs, ¬ c = '<' → tagCap iPat (c :: cs) = none :=
    fun c cs hc => tagCap_none_head
      (show iPat.opn = '<' :: ofStr ("i") by decide)
      (fun he => hc he.symm) cs
  have hfail : ∀ l, stripPre iPat.opn l = none → tagCap iPat l = none :=
    fun l hl => tagCap_fail hl
  cases b with
  | hd n t =>
    rcases wfHd_parts hb with ⟨hn, ht, _⟩
    rcases hn with rfl | rfl | rfl
    · rw [show blkA 3 2 (Block.hd 1 t) = mdHd 1 t ++ ['\n'] from rfl,
        tagSub, tagSub, scan_append_mdHd hnone ht r]
    · rw [show blkA 3 2 (Block.hd 2 t) = mdHd 2 t ++ ['\n'] from rfl,
        tagSub, tagSub, scan_append_mdHd hnone ht r]
    · rw [show blkA 3 2 (Block.hd 3 t) = mdHd 3 t ++ ['\n'] from rfl,
        tagSub, tagSub, scan_append_mdHd hnone ht r]
  | par p =>
    rcases wfPara_parts hb with ⟨hpre, hpost, hm, _⟩
    rw [show blkA 3 2 (Block.par p) = segsStr (paraSegsA 2 p) from rfl]
    refine scan_append_segs hfail hnone ?_ ?_ r
    · exact paraSegsA_litOk (by decide) (by decide)
        (markSegsA_litOk (by decide) (by decide) (by decide) (by decide)
          (by decide) (by decide) (by decide))
    · exact segsTxtP_mono (fun c h => pmP_ne_lt h) (paraSegsA_txt hpre hpost hm)

theorem passA6_blk {b : Block} (hb : wfBlock b = true) (r : Str) :
    tagSub emPat (blkA 3 1 b ++ r) = blkA 3 2 b ++ tagSub emPat r := by
  have hnone : ∀ c cs, ¬ c = '<' → tagCap emPat (c :: cs) = none :=
    fun c cs hc => tagCap_none_head
      (show emPat.opn = '<' :: ofStr ("em") by decide)
      (fun he => hc he.symm) cs
  have hfail : ∀ l, stripPre emPat.opn l = none → tagCap emPat l = none :=
    fun l hl => tagCap_fail hl
  cases b with
  | hd n t =>
    rcases wfHd_parts hb with ⟨hn, ht, _⟩
    rcases hn with rfl | rfl | rfl
    · rw [show blkA 3 1 (Block.hd 1 t) = mdHd 1 t ++ ['\n'] from rfl,
        show blkA 3 2 (Block.hd 1 t) = mdHd 1 t ++ ['\n'] from rfl,
        tagSub, tagSub, scan_append_mdHd hnone ht r]
    · rw [show blkA 3 1 (Block.hd 2 t) = mdHd 2 t ++ ['\n'] from rfl,
        show blkA 3 2 (Block.hd 2 t) = mdHd 2 t ++ ['\n'] from rfl,
        tagSub, tagSub, scan_append_mdHd hnone ht r]
    · rw [show blkA 3 1 (Block.hd 3 t) = mdHd 3 t ++ ['\n'] from rfl,
        show blkA 3 2 (Block.hd 3 t) = mdHd 3 t ++ ['\n'] from rfl,
        tagSub, tagSub, scan_append_mdHd hnone ht r]
  | par p =>
    rcases wfPara_parts hb with ⟨hpre, hpost, hm, _⟩
    rcases p with ⟨pre, m, post⟩
    simp only [wfMark] at hm
    cases m with
    | plain =>
      rw [show blkA 3 1 (Block.par ⟨pre, Mark.plain, post⟩)
          = segsStr (paraSegsA 1 ⟨pre, Mark.plain, post⟩) from rfl,
        show blkA 3 2 (Block.par ⟨pre, Mark.plain, post⟩)
          = segsStr (paraSegsA 1 ⟨pre, Mark.plain, post⟩) by
        simp [blkA, paraSegsA, markSegsA]]
      refine scan_append_segs hfail hnone ?_ ?_ r
      · exact paraSegsA_litOk (by decide) (by decide) (by simp [markSegsA, segsLitOk])
      · exact segsTxtP_mono (fun c h => pmP_ne_lt h)
          (paraSegsA_txt hpre hpost (by rfl))
    | bold bb =>
      rw [show blkA 3 1 (Block.par ⟨pre, Mark.bold bb, post⟩)
          = segsStr (paraSegsA 1 ⟨pre, Mark.bold bb, post⟩) from rfl,
        show blkA 3 2 (Block.par ⟨pre, Mark.bold bb, post⟩)
          = segsStr (paraSegsA 1 ⟨pre, Mark.bold bb, post⟩) by
        simp [blkA, paraSegsA, markSegsA, boldSegsA]]
      refine scan_append_segs hfail hnone ?_ ?_ r
      · refine paraSegsA_litOk (by decide) (by decide) ?_
        simp only [markSegsA, boldSegsA, segsLitOk]
      · exact segsTxtP_mono (fun c h => pmP_ne_lt h)
          (paraSegsA_txt hpre hpost (by rw [wfMark]; exact hm))
    | link t u =>
      rw [show blkA 3 1 (Block.par ⟨pre, Mark.link t u, post⟩)
          = segsStr (paraSegsA 1 ⟨pre, Mark.link t u, post⟩) from rfl,
        show blkA 3 2 (Block.par ⟨pre, Mark.link t u, post⟩)
          = segsStr (paraSegsA 1 ⟨pre, Mark.link t u, post⟩) by
        simp [blkA, paraSegsA, markSegsA, linkSegsA]]
      refine scan_append_segs hfail hnone ?_ ?_ r
      · refine paraSegsA_litOk (by decide) (by decide) ?_
        simp only [markSegsA, linkSegsA, segsLitOk]
        simp [segsLitOk]
        decide
      · exact segsTxtP_mono (fun c h => pmP_ne_lt h)
          (paraSegsA_txt hpre hpost (by rw [wfMark]; exact hm))
    | ital i =>
      have hwf := @wfMark_ital i (by rw [wfMark]; exact hm)
      rw [show blkA 3 1 (Block.par ⟨pre, Mark.ital i, post⟩) ++ r
          = ofStr ("<p>") ++ (pre ++ (emPat.opn ++ '>' ::
            ((i ++ emPat.cls) ++ (post ++ (ofStr ("</p>") ++ r))))) by
        simp [blkA, paraSegsA, markSegsA, italSegsA, segsStr, segStr,
          show emOpen = emPat.opn ++ ['>'] by decide,
          show emClose = emPat.cls by decide]]
      rw [tagSub, tagSub,
        scan_append_segSafe hfail (show segSafe emPat.opn (ofStr ("<p>")) = true by decide) _,
        scan_append_of_forall hnone
          (fun c hc => pmP_ne_lt (Or.inl (plainStr_mem hpre hc))) _,
        scan_some (tagCap_shrinks (by decide))
          (tagCap_at_attrs i (post ++ (ofStr ("</p>") ++ r)) rfl
            (show emPat.cls = '<' :: ofStr ("/em>") by decide)
            (fun c hc => pmP_ne_lt (Or.inl (plainStr_mem hwf.1 hc)))
            (Or.inr (plainStr_not_mem hwf.1 (by decide)))),
        scan_append_of_forall hnone
          (fun c hc => pmP_ne_lt (Or.inl (plainStr_mem hpost hc))) _,
        scan_append_segSafe hfail (show segSafe emPat.opn (ofStr ("</p>")) = true by decide) _]
      rw [show emPat.mkRep i = mdItal i by simp [emPat, mdItal]]
      rw [show blkA 3 2 (Block.par ⟨pre, Mark.ital i, post⟩)
          = ofStr ("<p>") ++ (pre ++ (mdItal i ++ (post ++ ofStr ("</p>")))) by
        simp [blkA, paraSegsA, markSegsA, italSegsA, segsStr, segStr]]
      simp
    | boldItal bb mid i =>
      have hwf := @wfMark_boldItal bb mid i (by rw [wfMark]; exact hm)
      rw [show blkA 3 1 (Block.par ⟨pre, Mark.boldItal bb mid i, post⟩) ++ r
          = ofStr ("<p>") ++ (pre ++ (mdBold bb ++ (mid ++ (emPat.opn ++ '>' ::
            ((i ++ emPat.cls) ++ (post ++ (ofStr ("</p>") ++ r))))))) by
        simp [blkA, paraSegsA, markSegsA, boldSegsA, italSegsA, segsStr, segStr,
          show emOpen = emPat.opn ++ ['>'] by decide,
          show emClose = emPat.cls by decide]]
      rw [tagSub, tagSub,
        scan_append_segSafe hfail (show segSafe emPat.opn (ofStr ("<p>")) = true by decide) _,
        scan_append_of_forall hnone
          (fun c hc => pmP_ne_lt (Or.inl (plainStr_mem hpre hc))) _,
        scan_append_of_forall hnone
          (fun c hc => pmP_ne_lt (mdBold_mem hwf.1 hc)) _,
        scan_append_of_forall hnone
          (fun c hc => pmP_ne_lt (Or.inl (plainStr_mem hwf.2.1 hc))) _,
        scan_some (tagCap_shrinks (by decide))
          (tagCap_at_attrs i (post ++ (ofStr ("</p>") ++ r)) rfl
            (show emPat.cls = '<' :: ofStr ("/em>") by decide)
            (fun c hc => pmP_ne_lt (Or.inl (plainStr_mem hwf.2.2.1 hc)))
            (Or.inr (plainStr_not_mem hwf.2.2.1 (by decide)))),
        scan_append_of_forall hnone
          (fun c hc => pmP_ne_lt (Or.inl (plainStr_mem hpost hc))) _,
        scan_append_segSafe hfail (show segSafe emPat.opn (ofStr ("</p>")) = true by decide) _]
      rw [show emPat.mkRep i = mdItal i by simp [emPat, mdItal]]
      rw [show blkA 3 2 (Block.par ⟨pre, Mark.boldItal bb mid i, post⟩)
          = ofStr ("<p>") ++ (pre ++ (mdBold bb ++ (mid ++ (mdItal i ++
              (post ++ ofStr ("</p>")))))) by
        simp [blkA, paraSegsA, markSegsA, boldSegsA, italSegsA, segsStr, segStr]]
      simp
    | italBold i mid bb =>
      have hwf := @wfMark_italBold i mid bb (by rw [wfMark]; exact hm)
      rw [show blkA 3 1 (Block.par ⟨pre, Mark.italBold i mid bb, post⟩) ++ r
          = ofStr ("<p>") ++ (pre ++ (emPat.opn ++ '>' ::
            ((i ++ emPat.cls) ++ (mid ++ (mdBold bb ++
              (post ++ (ofStr ("</p>") ++ r))))))) by
        simp [blkA, paraSegsA, markSegsA, boldSegsA, italSegsA, segsStr, segStr,
          show emOpen = emPat.opn ++ ['>'] by decide,
          show emClose = emPat.cls by decide]]
      rw [tagSub, tagSub,
        scan_append_segSafe hfail (show segSafe emPat.opn (ofStr ("<p>")) = true by decide) _,
        scan_append_of_forall hnone
          (fun c hc => pmP_ne_lt (Or.inl (plainStr_mem hpre hc))) _,
        scan_some (tagCap_shrinks (by decide))
          (tagCap_at_attrs i (mid ++ (mdBold bb ++ (post ++ (ofStr ("</p>") ++ r)))) rfl
            (show emPat.cls = '<' :: ofStr ("/em>") by decide)
            (fun c hc => pmP_ne_lt (Or.inl (plainStr_mem hwf.1 hc)))
            (Or.inr (plainStr_not_mem hwf.1 (by decide)))),
        scan_append_of_forall hnone
          (fun c hc => pmP_ne_lt (Or.inl (plainStr_mem hwf.2.1 hc))) _,
        scan_append_of_forall hnone
          (fun c hc => pmP_ne_lt (mdBold_mem hwf.2.2.1 hc)) _,
        scan_append_of_forall hnone
          (fun c hc => pmP_ne_lt (Or.inl (plainStr_mem hpost hc))) _,
        scan_append_segSafe hfail (show segSafe emPat.opn (ofStr ("</p>")) = true by decide) _]
      rw [show emPat.mkRep i = mdItal i by simp [emPat, mdItal]]
      rw [show blkA 3 2 (Block.par ⟨pre, Mark.italBold i mid bb, post⟩)
          = ofStr ("<p>") ++ (pre ++ (mdItal i ++ (mid ++ (mdBold bb ++
              (post ++ ofStr ("</p>")))))) by
        simp [blkA, paraSegsA, markSegsA, boldSegsA, italSegsA, segsStr, segStr]]
      simp

theorem takeWhile_append_stop {p : Char → Bool} {u : Str}
    (hu : ∀ c ∈ u, p c = true) {d : Char} (hd : p d = false) (r : Str) :
    (u ++ d :: r).takeWhile p = u ∧ (u ++ d :: r).dropWhile p = d :: r := by
  induction u with
  | nil => simp [List.takeWhile, List.dropWhile, hd]
  | cons c cs ih =>
    have hc : p c = true := hu c (by simp)
    have ih2 := ih (fun x hx => hu x (by simp [hx]))
    simp [List.takeWhile, List.dropWhile, hc, ih2.1, ih2.2]

theorem mdAnchorStep_at {t u : Str} (hu : ∀ c ∈ u, ¬ c = '"')
    (ht : ∀ c ∈ t, ¬ c = '<') (hnl : ¬ '\n' ∈ t) (r : Str) :
    mdAnchorStep (aOpen ++ (u ++ '"' :: '>' :: (t ++ (aClose ++ r))))
      = some (mdLink t u, r) := by
  rw [mdAnchorStep]
  simp only [stripPre_append]
  have htw := @takeWhile_append_stop notQuote u
    (fun c hc => by simp [notQuote, hu c hc]) '"' (by simp [notQuote])
    ('>' :: (t ++ (aClose ++ r)))
  simp only [htw.1, htw.2]
  simp only [if_true]
  rw [show attrRest true ('>' :: (t ++ (aClose ++ r))) = some (t ++ (aClose ++ r)) by
    rw [attrRest]
    simp [List.dropWhile, notGt]]
  have hsp : splitFirst aClose (t ++ aClose ++ r) = some (t, r) := by
    rw [show aClose = '<' :: ofStr ("/a>") by decide]
    exact splitFirst_at t r ht
  rw [show t ++ (aClose ++ r) = t ++ aClose ++ r by simp]
  simp only [hsp]
  rw [if_pos hnl, mdLink]

theorem passA8_blk {b : Block} (hb : wfBlock b = true) (r : Str) :
    scan mdAnchorStep (blkA 3 2 b ++ r) = blkA 3 3 b ++ scan mdAnchorStep r := by
  have hnone : ∀ c cs, ¬ c = '<' → mdAnchorStep (c :: cs) = none :=
    fun c cs hc => mdAnchorStep_fail
      (by rw [show aOpen = '<' :: (ofStr ("a href=") ++ ['"']) by decide]
          exact stripPre_cons_none (fun he => hc he.symm))
  have hfail : ∀ l, stripPre aOpen l = none → mdAnchorStep l = none :=
    fun l hl => mdAnchorStep_fail hl
  cases b with
  | hd n t =>
    rcases wfHd_parts hb with ⟨hn, ht, _⟩
    rcases hn with rfl | rfl | rfl
    · rw [show blkA 3 2 (Block.hd 1 t) = mdHd 1 t ++ ['\n'] from rfl,
        show blkA 3 3 (Block.hd 1 t) = mdHd 1 t ++ ['\n'] from rfl,
        scan_append_mdHd hnone ht r]
    · rw [show blkA 3 2 (Block.hd 2 t) = mdHd 2 t ++ ['\n'] from rfl,
        show blkA 3 3 (Block.hd 2 t) = mdHd 2 t ++ ['\n'] from rfl,
        scan_append_mdHd hnone ht r]
    · rw [show blkA 3 2 (Block.hd 3 t) = mdHd 3 t ++ ['\n'] from rfl,
        show blkA 3 3 (Block.hd 3 t) = mdHd 3 t ++ ['\n'] from rfl,
        scan_append_mdHd hnone ht r]
  | par p =>
    rcases wfPara_parts hb with ⟨hpre, hpost, hm, _⟩
    rcases p with ⟨pre, m, post⟩
    simp only [wfMark] at hm
    cases m with
    | plain =>
      rw [show blkA 3 2 (Block.par ⟨pre, Mark.plain, post⟩)
          = segsStr (paraSegsA 2 ⟨pre, Mark.plain, post⟩) from rfl,
        show blkA 3 3 (Block.par ⟨pre, Mark.plain, post⟩)
          = segsStr (paraSegsA 2 ⟨pre, Mark.plain, post⟩) by
        simp [blkA, paraSegsA, markSegsA]]
      refine scan_append_segs hfail hnone ?_ ?_ r
      · exact paraSegsA_litOk (by decide) (by decide) (by simp [markSegsA, segsLitOk])
      · exact segsTxtP_mono (fun c h => pmP_ne_lt h)
          (paraSegsA_txt hpre hpost (by rfl))
    | bold bb =>
      rw [show blkA 3 2 (Block.par ⟨pre, Mark.bold bb, post⟩)
          = segsStr (paraSegsA 2 ⟨pre, Mark.bold bb, post⟩) from rfl,
        show blkA 3 3 (Block.par ⟨pre, Mark.bold bb, post⟩)
          = segsStr (paraSegsA 2 ⟨pre, Mark.bold bb, post⟩) by
        simp [blkA, paraSegsA, markSegsA, boldSegsA]]
      refine scan_append_segs hfail hnone ?_ ?_ r
      · refine paraSegsA_litOk (by decide) (by decide) ?_
        simp only [markSegsA, boldSegsA, segsLitOk]
      · exact segsTxtP_mono (fun c h => pmP_ne_lt h)
          (paraSegsA_txt hpre hpost (by rw [wfMark]; exact hm))
    | ital i =>
      rw [show blkA 3 2 (Block.par ⟨pre, Mark.ital i, post⟩)
          = segsStr (paraSegsA 2 ⟨pre, Mark.ital i, post⟩) from rfl,
        show blkA 3 3 (Block.par ⟨pre, Mark.ital i, post⟩)
          = segsStr (paraSegsA 2 ⟨pre, Mark.ital i, post⟩) by
        simp [blkA, paraSegsA, markSegsA, italSegsA]]
      refine scan_append_segs hfail hnone ?_ ?_ r
      · refine paraSegsA_litOk (by decide) (by decide) ?_
        simp only [markSegsA, italSegsA, segsLitOk]
      · exact segsTxtP_mono (fun c h => pmP_ne_lt h)
          (paraSegsA_txt hpre hpost (by rw [wfMark]; exact hm))
    | boldItal bb mid i =>
      rw [show blkA 3 2 (Block.par ⟨pre, Mark.boldItal bb mid i, post⟩)
          = segsStr (paraSegsA 2 ⟨pre, Mark.boldItal bb mid i, post⟩) from rfl,
        show blkA 3 3 (Block.par ⟨pre, Mark.boldItal bb mid i, post⟩)
          = segsStr (paraSegsA 2 ⟨pre, Mark.boldItal bb mid i, post⟩) by
        simp [blkA, paraSegsA, markSegsA, boldSegsA, italSegsA]]
      refine scan_append_segs hfail hnone ?_ ?_ r
      · refine paraSegsA_litOk (by decide) (by decide) ?_
        simp only [markSegsA, boldSegsA, italSegsA, segsLitOk]
      · exact segsTxtP_mono (fun c h => pmP_ne_lt h)
          (paraSegsA_txt hpre hpost (by rw [wfMark]; exact hm))
    | italBold i mid bb =>
      rw [show blkA 3 2 (Block.par ⟨pre, Mark.italBold i mid bb, post⟩)
          = segsStr (paraSegsA 2 ⟨pre, Mark.italBold i mid bb, post⟩) from rfl,
        show blkA 3 3 (Block.par ⟨pre, Mark.italBold i mid bb, post⟩)
          = segsStr (paraSegsA 2 ⟨pre, Mark.italBold i mid bb, post⟩) by
        simp [blkA, paraSegsA, markSegsA, boldSegsA, italSegsA]]
      refine scan_append_segs hfail hnone ?_ ?_ r
      · refine paraSegsA_litOk (by decide) (by decide) ?_
        simp only [markSegsA, boldSegsA, italSegsA, segsLitOk]
      · exact segsTxtP_mono (fun c h => pmP_ne_lt h)
          (paraSegsA_txt hpre hpost (by rw [wfMark]; exact hm))
    | link t u =>
      have hwf := @wfMark_link t u (by rw [wfMark]; exact hm)
      rw [show blkA 3 2 (Block.par ⟨pre, Mark.link t u, post⟩) ++ r
          = ofStr ("<p>") ++ (pre ++ (aOpen ++ (u ++ '"' :: '>' ::
            (t ++ (aClose ++ (post ++ (ofStr ("</p>") ++ r))))))) by
        simp [blkA, paraSegsA, markSegsA, linkSegsA, segsStr, segStr]]
      rw [scan_append_segSafe hfail (show segSafe aOpen (ofStr ("<p>")) = true by decide) _,
        scan_append_of_forall hnone
          (fun c hc => pmP_ne_lt (Or.inl (plainStr_mem hpre hc))) _,
        scan_some mdAnchorStep_shrinks
          (mdAnchorStep_at
            (fun c hc => pmSym_ne (Or.inl (plainStr_mem hwf.2 hc)) (by decide) (by decide))
            (fun c hc => pmP_ne_lt (Or.inl (plainStr_mem hwf.1 hc)))
            (plainStr_not_mem hwf.1 (by decide))
            (post ++ (ofStr ("</p>") ++ r))),
        scan_append_of_forall hnone
          (fun c hc => pmP_ne_lt (Or.inl (plainStr_mem hpost hc))) _,
        scan_append_segSafe hfail (show segSafe aOpen (ofStr ("</p>")) = true by decide) _]
      rw [show blkA 3 3 (Block.par ⟨pre, Mark.link t u, post⟩)
          = ofStr ("<p>") ++ (pre ++ (mdLink t u ++ (post ++ ofStr ("</p>")))) by
        simp [blkA, paraSegsA, markSegsA, linkSegsA, segsStr, segStr]]
      simp

theorem segsStr_markSegsA3 (m : Mark) : segsStr (markSegsA 3 m) = mdMark m := by
  cases m <;>
    simp [markSegsA, boldSegsA, italSegsA, linkSegsA, segsStr, segStr,
      segsStr_append, mdMark]

theorem passA9_blk {b : Block} (hb : wfBlock b = true) (r : Str) :
    tagSub ulPat (blkA 3 3 b ++ r) = blkA 3 3 b ++ tagSub ulPat r := by
  have hnone : ∀ c cs, ¬ c = '<' → tagCap ulPat (c :: cs) = none :=
    fun c cs hc => tagCap_none_head
      (show ulPat.opn = '<' :: ofStr ("ul>") by decide)
      (fun he => hc he.symm) cs
  have hfail : ∀ l, stripPre ulPat.opn l = none → tagCap ulPat l = none :=
    fun l hl => tagCap_fail hl
  cases b with
  | hd n t =>
    rcases wfHd_parts hb with ⟨hn, ht, _⟩
    rcases hn with rfl | rfl | rfl
    · rw [show blkA 3 3 (Block.hd 1 t) = mdHd 1 t ++ ['\n'] from rfl,
        tagSub, tagSub, scan_append_mdHd hnone ht r]
    · rw [show blkA 3 3 (Block.hd 2 t) = mdHd 2 t ++ ['\n'] from rfl,
        tagSub, tagSub, scan_append_mdHd hnone ht r]
    · rw [show blkA 3 3 (Block.hd 3 t) = mdHd 3 t ++ ['\n'] from rfl,
        tagSub, tagSub, scan_append_mdHd hnone ht r]
  | par p =>
    rcases wfPara_parts hb with ⟨hpre, hpost, hm, _⟩
    rw [show blkA 3 3 (Block.par p) = segsStr (paraSegsA 3 p) from rfl]
    refine scan_append_segs hfail hnone ?_ ?_ r
    · exact paraSegsA_litOk (by decide) (by decide)
        (markSegsA_litOk (by decide) (by decide) (by decide) (by decide)
          (by decide) (by decide) (by decide))
    · exact segsTxtP_mono (fun c h => pmP_ne_lt h) (paraSegsA_txt hpre hpost hm)

theorem passA10_blk {b : Block} (hb : wfBlock b = true) (r : Str) :
    tagSub olPat (blkA 3 3 b ++ r) = blkA 3 3 b ++ tagSub olPat r := by
  have hnone : ∀ c cs, ¬ c = '<' → tagCap olPat (c :: cs) = none :=
    fun c cs hc => tagCap_none_head
      (show olPat.opn = '<' :: ofStr ("ol>") by decide)
      (fun he => hc he.symm) cs
  have hfail : ∀ l, stripPre olPat.opn l = none → tagCap olPat l = none :=
    fun l hl => tagCap_fail hl
  cases b with
  | hd n t =>
    rcases wfHd_parts hb with ⟨hn, ht, _⟩
    rcases hn with rfl | rfl | rfl
    · rw [show blkA 3 3 (Block.hd 1 t) = mdHd 1 t ++ ['\n'] from rfl,
        tagSub, tagSub, scan_append_mdHd hnone ht r]
    · rw [show blkA 3 3 (Block.hd 2 t) = mdHd 2 t ++ ['\n'] from rfl,
        tagSub, tagSub, scan_append_mdHd hnone ht r]
    · rw [show blkA 3 3 (Block.hd 3 t) = mdHd 3 t ++ ['\n'] from rfl,
        tagSub, tagSub, scan_append_mdHd hnone ht r]
  | par p =>
    rcases wfPara_parts hb with ⟨hpre, hpost, hm, _⟩
    rw [show blkA 3 3 (Block.par p) = segsStr (paraSegsA 3 p) from rfl]
    refine scan_append_segs hfail hnone ?_ ?_ r
    · exact paraSegsA_litOk (by decide) (by decide)
        (markSegsA_litOk (by decide) (by decide) (by decide) (by decide)
          (by decide) (by decide) (by decide))
    · exact segsTxtP_mono (fun c h => pmP_ne_lt h) (paraSegsA_txt hpre hpost hm)

theorem passA11_blk {b : Block} (hb : wfBlock b = true) (r : Str) :
    tagSub liPat (blkA 3 3 b ++ r) = blkA 3 3 b ++ tagSub liPat r := by
  have hnone : ∀ c cs, ¬ c = '<' → tagCap liPat (c :: cs) = none :=
    fun c cs hc => tagCap_none_head
      (show liPat.opn = '<' :: ofStr ("li>") by decide)
      (fun he => hc he.symm) cs
  have hfail : ∀ l, stripPre liPat.opn l = none → tagCap liPat l = none :=
    fun l hl => tagCap_fail hl
  cases b with
  | hd n t =>
    rcases wfHd_parts hb with ⟨hn, ht, _⟩
    rcases hn with rfl | rfl | rfl
    · rw [show blkA 3 3 (Block.hd 1 t) = mdHd 1 t ++ ['\n'] from rfl,
        tagSub, tagSub, scan_append_mdHd hnone ht r]
    · rw [show blkA 3 3 (Block.hd 2 t) = mdHd 2 t ++ ['\n'] from rfl,
        tagSub, tagSub, scan_append_mdHd hnone ht r]
    · rw [show blkA 3 3 (Block.hd 3 t) = mdHd 3 t ++ ['\n'] from rfl,
        tagSub, tagSub, scan_append_mdHd hnone ht r]
  | par p =>
    rcases wfPara_parts hb with ⟨hpre, hpost, hm, _⟩
    rw [show blkA 3 3 (Block.par p) = segsStr (paraSegsA 3 p) from rfl]
    refine scan_append_segs hfail hnone ?_ ?_ r
    · exact paraSegsA_litOk (by decide) (by decide)
        (markSegsA_litOk (by decide) (by decide) (by decide) (by decide)
          (by decide) (by decide) (by decide))
    · exact segsTxtP_mono (fun c h => pmP_ne_lt h) (paraSegsA_txt hpre hpost hm)

theorem passA12_blk {b : Block} (hb : wfBlock b = true) (r : Str) :
    tagSub pPat (blkA 3 3 b ++ r) = blkMd b ++ tagSub pPat r := by
  have hnone : ∀ c cs, ¬ c = '<' → tagCap pPat (c :: cs) = none :=
    fun c cs hc => tagCap_none_head
      (show pPat.opn = '<' :: ofStr ("p>") by decide)
      (fun he => hc he.symm) cs
  cases b with
  | hd n t =>
    rcases wfHd_parts hb with ⟨hn, ht, _⟩
    rcases hn with rfl | rfl | rfl
    · rw [show blkA 3 3 (Block.hd 1 t) = mdHd 1 t ++ ['\n'] from rfl,
        show blkMd (Block.hd 1 t) = mdHd 1 t ++ ['\n'] from rfl,
        tagSub, tagSub, scan_append_mdHd hnone ht r]
    · rw [show blkA 3 3 (Block.hd 2 t) = mdHd 2 t ++ ['\n'] from rfl,
        show blkMd (Block.hd 2 t) = mdHd 2 t ++ ['\n'] from rfl,
        tagSub, tagSub, scan_append_mdHd hnone ht r]
    · rw [show blkA 3 3 (Block.hd 3 t) = mdHd 3 t ++ ['\n'] from rfl,
        show blkMd (Block.hd 3 t) = mdHd 3 t ++ ['\n'] from rfl,
        tagSub, tagSub, scan_append_mdHd hnone ht r]
  | par p =>
    rw [show blkA 3 3 (Block.par p) ++ r = pPat.opn ++ mdPara p ++ pPat.cls ++ r by
      simp [blkA, paraSegsA, segsStr, segStr, segsStr_append, segsStr_markSegsA3,
        mdPara, show pPat.opn = ofStr ("<p>") from rfl,
        show pPat.cls = ofStr ("</p>") from rfl]]
    rw [tagSub, tagSub, scan_some (tagCap_shrinks (by decide))
      (tagCap_at_plain (mdPara p) r rfl
        (show pPat.cls = '<' :: ofStr ("/p>") by decide)
        (fun c hc => pmP_ne_lt (mdPara_mem hb hc))
        (Or.inr (fun hm => pmP_ne_nl (mdPara_mem hb hm) rfl)))]
    rw [show pPat.mkRep (mdPara p) = mdPara p ++ ['\n'] by simp [pPat]]
    rw [show blkMd (Block.par p) = mdPara p ++ ['\n'] from rfl]

theorem segsStr_markSegsA0 (m : Mark) : segsStr (markSegsA 0 m) = htmlMark m := by
  cases m <;>
    simp [markSegsA, boldSegsA, italSegsA, linkSegsA, segsStr, segStr,
      segsStr_append, htmlMark, htmlBold, htmlItal, htmlLink]

theorem renderB_blkA00 {b : Block} (hb : wfBlock b = true) :
    renderB b = blkA 0 0 b := by
  cases b with
  | hd n t =>
    rcases wfHd_parts hb with ⟨hn, _, _⟩
    rw [renderB, blkA, if_neg (by omega)]
  | par p =>
    rw [renderB, blkA]
    simp [paraSegsA, segsStr, segStr, segsStr_append, segsStr_markSegsA0, htmlPara]

theorem docCat_blkMd (bs : List Block) (hne : ¬ bs = []) :
    docCat blkMd bs = joinNl (bs.map mdB) ++ ['\n'] := by
  induction bs with
  | nil => exact absurd rfl hne
  | cons b bs2 ih =>
    cases bs2 with
    | nil =>
      rw [docCat, docCat, blkMd]
      rw [show joinNl (List.map mdB [b]) = mdB b from rfl]
      simp
    | cons b2 bs3 =>
      rw [docCat, ih (by simp), blkMd]
      rw [show (b :: b2 :: bs3).map mdB = mdB b :: (b2 :: bs3).map mdB from rfl]
      rw [show joinNl (mdB b :: (b2 :: bs3).map mdB)
          = mdB b ++ '\n' :: joinNl ((b2 :: bs3).map mdB) from rfl]
      simp

theorem getLast?_append_right {a b : Str} (hb : ¬ b = []) :
    (a ++ b).getLast? = b.getLast? := by
  rw [← List.head?_reverse, List.reverse_append, ← List.head?_reverse]
  rcases hbr : b.reverse with _ | ⟨c, cs⟩
  · have := congrArg List.reverse hbr
    simp at this
    exact absurd this hb
  · rfl

theorem edgeOk_parts {l : Str} (h : edgeOk l = true) :
    ¬ l = [] ∧ (∀ c, l.head? = some c → isWsJS c = false) ∧
      (∀ c, l.getLast? = some c → isWsJS c = false) := by
  rw [edgeOk] at h
  rcases hh : l.head? with _ | a
  · simp only [hh] at h
    exact absurd h (by decide)
  rcases hg : l.getLast? with _ | b
  · simp only [hh, hg] at h
    exact absurd h (by decide)
  simp only [hh, hg, Bool.and_eq_true, decide_eq_true_eq] at h
  refine ⟨?_, ?_, ?_⟩
  · intro he
    subst he
    simp at hh
  · intro c hc
    rcases Option.some.inj hc with rfl
    simpa using h.1
  · intro c hc
    rcases Option.some.inj hc with rfl
    simpa using h.2

theorem trimC_append_nl {a : Str} (hne : ¬ a = [])
    (h1 : ∀ c, a.head? = some c → isWsJS c = false)
    (h2 : ∀ c, a.getLast? = some c → isWsJS c = false) :
    trimC (a ++ ['\n']) = a := by
  rcases a with _ | ⟨c, cs⟩
  · exact absurd rfl hne
  have hc : isWsJS c = false := h1 c rfl
  rw [trimC]
  rw [show (c :: cs ++ ['\n']) = c :: (cs ++ ['\n']) from rfl]
  rw [List.dropWhile_cons, if_neg (by simp [hc])]
  rw [show (c :: (cs ++ ['\n'])).reverse = '\n' :: (c :: cs).reverse by
    rw [show (c :: (cs ++ ['\n'])) = (c :: cs) ++ ['\n'] from rfl,
      List.reverse_append]
    rfl]
  rw [List.dropWhile_cons, if_pos (by decide)]
  have hself : List.dropWhile isWsJS ((c :: cs).reverse) = (c :: cs).reverse := by
    rcases hrev : (c :: cs).reverse with _ | ⟨d, ds⟩
    · rfl
    · have hd : (c :: cs).getLast? = some d := by
        rw [← List.head?_reverse, hrev]
        rfl
      rw [List.dropWhile_cons, if_neg (by simp [h2 d hd])]
  rw [hself]
  simp

theorem joinNl_edges {ls : List Str} (hne : ¬ ls = [])
    (hedge : ∀ l ∈ ls, edgeOk l = true) :
    ¬ joinNl ls = [] ∧ (∀ c, (joinNl ls).head? = some c → isWsJS c = false) ∧
      (∀ c, (joinNl ls).getLast? = some c → isWsJS c = false) := by
  induction ls with
  | nil => exact absurd rfl hne
  | cons x xs ih =>
    rcases edgeOk_parts (hedge x (by simp)) with ⟨hx, hxh, hxl⟩
    cases xs with
    | nil =>
      rw [show joinNl [x] = x from rfl]
      exact ⟨hx, hxh, hxl⟩
    | cons y ys =>
      rcases ih (by simp) (fun l hl => hedge l (List.mem_cons_of_mem _ hl)) with
        ⟨hj, hjh, hjl⟩
      rw [show joinNl (x :: y :: ys) = x ++ '\n' :: joinNl (y :: ys) from rfl]
      refine ⟨by simp [hx], ?_, ?_⟩
      · intro c hc
        rcases x with _ | ⟨a, as⟩
        · exact absurd rfl hx
        rw [List.cons_append] at hc
        rcases Option.some.inj hc with rfl
        exact hxh _ rfl
      · intro c hc
        rw [getLast?_append_right (by simp)] at hc
        rw [show ('\n' :: joinNl (y :: ys)) = ['\n'] ++ joinNl (y :: ys) from rfl,
          getLast?_append_right hj] at hc
        exact hjl c hc

theorem stageA (bs : List Block) (hne : ¬ bs = [])
    (hwf : ∀ b ∈ bs, wfBlock b = true) :
    convertHTMLToMarkdown (renderDoc bs) = joinNl (bs.map mdB) := by
  have h00 : renderDoc bs = docCat (blkA 0 0) bs :=
    docCat_congr (fun b hb => renderB_blkA00 (hwf b hb))
  have hmd : ∀ c ∈ docCat blkMd bs, pmP c ∨ c = '#' ∨ c = ' ' ∨ c = '\n' := by
    intro c hc
    rcases mem_docCat hc with ⟨b, hb, hcb⟩
    exact blkMd_mem (hwf b hb) hcb
  have e0 : replOnceT phPat (docCat (blkA 0 0) bs) = docCat (blkA 0 0) bs :=
    replOnceT_docCat (fun b hb r => passA0_blk (hwf b hb) r)
  have e1 : tagSub h1Pat (docCat (blkA 0 0) bs) = docCat (blkA 1 0) bs :=
    scan_docCat (fun b hb r => passA1_blk (hwf b hb) r)
  have e2 : tagSub h2Pat (docCat (blkA 1 0) bs) = docCat (blkA 2 0) bs :=
    scan_docCat (fun b hb r => passA2_blk (hwf b hb) r)
  have e3 : tagSub h3Pat (docCat (blkA 2 0) bs) = docCat (blkA 3 0) bs :=
    scan_docCat (fun b hb r => passA3_blk (hwf b hb) r)
  have e4 : tagSub strongPat (docCat (blkA 3 0) bs) = docCat (blkA 3 1) bs :=
    scan_docCat (fun b hb r => passA4_blk (hwf b hb) r)
  have e5 : tagSub bPat (docCat (blkA 3 1) bs) = docCat (blkA 3 1) bs :=
    scan_docCat (fun b hb r => passA5_blk (hwf b hb) r)
  have e6 : tagSub emPat (docCat (blkA 3 1) bs) = docCat (blkA 3 2) bs :=
    scan_docCat (fun b hb r => passA6_blk (hwf b hb) r)
  have e7 : tagSub iPat (docCat (blkA 3 2) bs) = docCat (blkA 3 2) bs :=
    scan_docCat (fun b hb r => passA7_blk (hwf b hb) r)
  have e8 : scan mdAnchorStep (docCat (blkA 3 2) bs) = docCat (blkA 3 3) bs :=
    scan_docCat (fun b hb r => passA8_blk (hwf b hb) r)
  have e9 : tagSub ulPat (docCat (blkA 3 3) bs) = docCat (blkA 3 3) bs :=
    scan_docCat (fun b hb r => passA9_blk (hwf b hb) r)
  have e10 : tagSub olPat (docCat (blkA 3 3) bs) = docCat (blkA 3 3) bs :=
    scan_docCat (fun b hb r => passA10_blk (hwf b hb) r)
  have e11 : tagSub liPat (docCat (blkA 3 3) bs) = docCat (blkA 3 3) bs :=
    scan_docCat (fun b hb r => passA11_blk (hwf b hb) r)
  have e12 : tagSub pPat (docCat (blkA 3 3) bs) = docCat blkMd bs :=
    scan_docCat (fun b hb r => passA12_blk (hwf b hb) r)
  have e13 : scan brStep (docCat blkMd bs) = docCat blkMd bs :=
    scan_eq_self_of_forall
      (fun c cs hc => brStep_fail (by
        rw [show (ofStr ("<br")) = '<' :: ofStr ("br") by decide]
        exact stripPre_cons_none (fun he => hc he.symm)))
      (fun c hc => mdAllP_ne (hmd c hc) (by decide) (by decide) (by decide)
        (by decide) (by decide))
  have e14 : stripTags (docCat blkMd bs) = docCat blkMd bs :=
    scan_eq_self_of_forall
      (fun c cs hc => tagStripStep_none_head cs hc)
      (fun c hc => mdAllP_ne (hmd c hc) (by decide) (by decide) (by decide)
        (by decide) (by decide))
  have hamp : ¬ ('&' : Char) ∈ docCat blkMd bs := fun hm =>
    mdAllP_ne (hmd _ hm) (by decide) (by decide) (by decide) (by decide)
      (by decide) rfl
  have e15 : replAll (ofStr ("&nbsp;")) [' '] (docCat blkMd bs) = docCat blkMd bs :=
    replAll_id_of_not_mem (by decide) hamp
  have e16 : replAll (ofStr ("&amp;")) ['&'] (docCat blkMd bs) = docCat blkMd bs :=
    replAll_id_of_not_mem (by decide) hamp
  have e17 : replAll (ofStr ("&lt;")) ['<'] (docCat blkMd bs) = docCat blkMd bs :=
    replAll_id_of_not_mem (by decide) hamp
  have e18 : replAll (ofStr ("&gt;")) ['>'] (docCat blkMd bs) = docCat blkMd bs :=
    replAll_id_of_not_mem (by decide) hamp
  have hedge : ∀ l ∈ bs.map mdB, edgeOk l = true := by
    intro l hl
    rcases List.mem_map.mp hl with ⟨b, hb, rfl⟩
    cases b with
    | hd n t => exact (wfHd_parts (hwf _ hb)).2.2
    | par q => exact (wfPara_parts (hwf _ hb)).2.2.2
  have hmapne : ¬ bs.map mdB = [] := by
    intro h
    apply hne
    cases bs with
    | nil => rfl
    | cons a b2 => simp at h
  rcases joinNl_edges hmapne hedge with ⟨hjne, hjh, hjl⟩
  simp only [convertHTMLToMarkdown]
  rw [h00, e0, e1, e2, e3, e4, e5, e6, e7, e8, e9, e10, e11, e12, e13, e14,
    e15, e16, e17, e18, docCat_blkMd bs hne, trimC_append_nl hjne hjh hjl]

theorem noPairB_nil : noPairB [] = true := rfl

theorem noPairB_cons {c : Char} {l : Str}
    (hc : ∀ d, l.head? = some d → ¬ (c = '*' ∧ d = '*'))
    (hl : noPairB l = true) : noPairB (c :: l) = true := by
  cases l with
  | nil => rfl
  | cons d ds =>
    rw [noPairB, Bool.and_eq_true]
    exact ⟨by simp [hc d rfl], hl⟩

theorem noPairB_tail {c : Char} {l : Str} (h : noPairB (c :: l) = true) :
    noPairB l = true := by
  cases l with
  | nil => rfl
  | cons d ds =>
    rw [noPairB, Bool.and_eq_true] at h
    exact h.2

theorem noPairB_append_left {a r : Str} (ha : ¬ '*' ∈ a)
    (hr : noPairB r = true) : noPairB (a ++ r) = true := by
  induction a with
  | nil => exact hr
  | cons c cs ih =>
    rw [List.cons_append]
    refine noPairB_cons (fun d hd h2 => ?_) (ih (fun hm => ha (by simp [hm])))
    exact ha (by simp [h2.1])

theorem mem_of_head? {l : Str} {c : Char} (h : l.head? = some c) : c ∈ l := by
  cases l with
  | nil => cases h
  | cons d ds =>
    rcases Option.some.inj h with rfl
    simp

theorem lastPairIdx_none_of {l : Str} (h : noPairB l = true) :
    lastPairIdx l = none := by
  induction l with
  | nil => rfl
  | cons c cs ih =>
    cases cs with
    | nil => rfl
    | cons d ds =>
      rw [noPairB, Bool.and_eq_true] at h
      rw [lastPairIdx, ih h.2]
      simp only [decide_eq_true_eq] at h
      simp [h.1]

theorem lastPairIdx_at {x y : Str} (hx : ¬ '*' ∈ x) (hy : noPairB y = true)
    (hyh : ∀ d, y.head? = some d → ¬ d = '*') :
    lastPairIdx (x ++ '*' :: '*' :: y) = some x.length := by
  induction x with
  | nil =>
    rw [List.nil_append]
    have h1 : lastPairIdx ('*' :: y) = none := by
      apply lastPairIdx_none_of
      exact noPairB_cons (fun d hd h2 => hyh d hd h2.2) hy
    cases y with
    | nil => rfl
    | cons d ds =>
      rw [lastPairIdx, h1]
      simp
  | cons c cs ih =>
    have hc : ¬ c = '*' := fun he => hx (by simp [he])
    have ih2 := ih (fun hm => hx (by simp [hm]))
    rw [List.cons_append]
    rcases hsh : cs ++ '*' :: '*' :: y with _ | ⟨e, es⟩
    · exact absurd hsh (by simp)
    rw [lastPairIdx, ← hsh, ih2]
    simp

theorem lastStarIdx_none_of {l : Str} (h : ¬ '*' ∈ l) :
    lastStarIdx l = none := by
  induction l with
  | nil => rfl
  | cons c cs ih =>
    rw [lastStarIdx, ih (fun hm => h (by simp [hm]))]
    have hc : ¬ c = '*' := fun he => h (by simp [he])
    simp [hc]

theorem lastStarIdx_at {x y : Str} (hx : ¬ '*' ∈ x) (hy : ¬ '*' ∈ y) :
    lastStarIdx (x ++ '*' :: y) = some x.length := by
  induction x with
  | nil =>
    rw [List.nil_append, lastStarIdx, lastStarIdx_none_of hy]
    simp
  | cons c cs ih =>
    have ih2 := ih (fun hm => hx (by simp [hm]))
    rw [List.cons_append, lastStarIdx, ih2]
    simp

theorem takeWhile_notNl_all {l : Str} (h : ¬ '\n' ∈ l) :
    l.takeWhile notNl = l ∧ l.dropWhile notNl = [] := by
  induction l with
  | nil => exact ⟨rfl, rfl⟩
  | cons c cs ih =>
    have hc : notNl c = true := by
      simp [notNl]
      intro he
      exact h (by simp [he])
    have ih2 := ih (fun hm => h (by simp [hm]))
    simp [List.takeWhile, List.dropWhile, hc, ih2.1, ih2.2]

theorem takeWhile_notNl_stop {a r : Str} (ha : ¬ '\n' ∈ a) :
    (a ++ '\n' :: r).takeWhile notNl = a ∧
      (a ++ '\n' :: r).dropWhile notNl = '\n' :: r := by
  apply takeWhile_append_stop
  · intro c hc
    simp [notNl]
    intro he
    subst he
    exact ha hc
  · simp [notNl]

theorem boldStep_at {x y r : Str} (hx : ¬ '*' ∈ x) (hxnl : ¬ '\n' ∈ x)
    (hy : noPairB y = true) (hyh : ∀ d, y.head? = some d → ¬ d = '*')
    (hynl : ¬ '\n' ∈ y)
    (hr : r = [] ∨ ∃ r2, r = '\n' :: r2) :
    boldStep ('*' :: '*' :: ((x ++ '*' :: '*' :: y) ++ r))
      = some (strongOpen ++ x ++ strongClose, y ++ r) := by
  have hnlline : ¬ '\n' ∈ x ++ '*' :: '*' :: y := by
    intro hm
    rcases List.mem_append.mp hm with h | h
    · exact hxnl h
    rcases List.mem_cons.mp h with h2 | h2
    · exact absurd h2 (by decide)
    rcases List.mem_cons.mp h2 with h3 | h3
    · exact absurd h3 (by decide)
    · exact hynl h3
  have hline : ((x ++ '*' :: '*' :: y) ++ r).takeWhile notNl = x ++ '*' :: '*' :: y ∧
      ((x ++ '*' :: '*' :: y) ++ r).dropWhile notNl = r := by
    rcases hr with rfl | ⟨r2, rfl⟩
    · rw [List.append_nil]
      exact ⟨(takeWhile_notNl_all hnlline).1, by
        rw [(takeWhile_notNl_all hnlline).2]⟩
    · exact takeWhile_notNl_stop hnlline
  have htake : (x ++ '*' :: '*' :: y).take x.length = x := List.take_left x _
  have hdrop : (x ++ '*' :: '*' :: y).drop (x.length + 2) = y := by
    rw [show x ++ '*' :: '*' :: y = (x ++ ['*', '*']) ++ y by simp]
    exact List.drop_left' (by simp)
  have hdrop2 : (((x ++ '*' :: '*' :: y) ++ r)).drop (x ++ '*' :: '*' :: y).length
      = r := List.drop_left _ _
  rw [boldStep]
  rw [if_pos ⟨rfl, rfl⟩]
  simp only [hline.1, lastPairIdx_at hx hy hyh, htake, hdrop, hdrop2]

theorem boldStep_shrinks : Shrinks boldStep := by
  intro l o r hl
  rcases l with _ | ⟨c1, l1⟩
  · simp [boldStep] at hl
  rcases l1 with _ | ⟨c2, cs⟩
  · simp [boldStep] at hl
  rw [boldStep] at hl
  by_cases hc : c1 = '*' ∧ c2 = '*'
  · rw [if_pos hc] at hl
    rcases hlp : lastPairIdx (cs.takeWhile notNl) with _ | j
    · simp only [hlp] at hl
      cases hl
    simp only [hlp, Option.some.injEq, Prod.mk.injEq] at hl
    rcases hl with ⟨-, hr2⟩
    subst hr2
    have h1 : (cs.takeWhile notNl).length ≤ cs.length :=
      (List.takeWhile_prefix _).length_le
    simp only [List.length_append, List.length_drop, List.length_cons]
    omega
  · rw [if_neg hc] at hl
    cases hl

theorem italStep_at {x y r : Str} (hx : ¬ '*' ∈ x) (hxnl : ¬ '\n' ∈ x)
    (hy : ¬ '*' ∈ y) (hynl : ¬ '\n' ∈ y)
    (hr : r = [] ∨ ∃ r2, r = '\n' :: r2) :
    italStep ('*' :: ((x ++ '*' :: y) ++ r)) = some (emOpen ++ x ++ emClose, y ++ r) := by
  have hnlline : ¬ '\n' ∈ x ++ '*' :: y := by
    intro hm
    rcases List.mem_append.mp hm with h | h
    · exact hxnl h
    rcases List.mem_cons.mp h with h2 | h2
    · exact absurd h2 (by decide)
    · exact hynl h2
  have hline : ((x ++ '*' :: y) ++ r).takeWhile notNl = x ++ '*' :: y ∧
      ((x ++ '*' :: y) ++ r).dropWhile notNl = r := by
    rcases hr with rfl | ⟨r2, rfl⟩
    · rw [List.append_nil]
      exact ⟨(takeWhile_notNl_all hnlline).1, by
        rw [(takeWhile_notNl_all hnlline).2]⟩
    · exact takeWhile_notNl_stop hnlline
  have htake : (x ++ '*' :: y).take x.length = x := List.take_left x _
  have hdrop : (x ++ '*' :: y).drop (x.length + 1) = y := by
    rw [show x ++ '*' :: y = (x ++ ['*']) ++ y by simp]
    exact List.drop_left' (by simp)
  have hdrop2 : (((x ++ '*' :: y) ++ r)).drop (x ++ '*' :: y).length = r :=
    List.drop_left _ _
  rw [italStep]
  rw [if_pos rfl]
  simp only [hline.1, lastStarIdx_at hx hy, htake, hdrop, hdrop2]

theorem italStep_shrinks : Shrinks italStep := by
  intro l o r hl
  rcases l with _ | ⟨c1, cs⟩
  · simp [italStep] at hl
  rw [italStep] at hl
  by_cases hc : c1 = '*'
  · rw [if_pos hc] at hl
    rcases hlp : lastStarIdx (cs.takeWhile notNl) with _ | j
    · simp only [hlp] at hl
      cases hl
    simp only [hlp, Option.some.injEq, Prod.mk.injEq] at hl
    rcases hl with ⟨-, hr2⟩
    subst hr2
    have h1 : (cs.takeWhile notNl).length ≤ cs.length :=
      (List.takeWhile_prefix _).length_le
    simp only [List.length_append, List.length_drop, List.length_cons]
    omega
  · rw [if_neg hc] at hl
    cases hl

theorem findClose_at {u r : Str} (hu : ¬ ')' ∈ u) (hnl : ¬ '\n' ∈ u) :
    findClose (u ++ ')' :: r) = some (u, r) := by
  induction u with
  | nil =>
    rw [List.nil_append, findClose, if_pos rfl]
  | cons c cs ih =>
    have hc1 : ¬ c = ')' := fun he => hu (by simp [he])
    have hc2 : ¬ c = '\n' := fun he => hnl (by simp [he])
    rw [List.cons_append, findClose, if_neg hc1, if_neg hc2,
      ih (fun hm => hu (by simp [hm])) (fun hm => hnl (by simp [hm]))]
    rfl

theorem findClose_len {l q r : Str} (h : findClose l = some (q, r)) :
    r.length < l.length := by
  induction l generalizing q r with
  | nil => simp [findClose] at h
  | cons c cs ih =>
    rw [findClose] at h
    by_cases hc : c = ')'
    · rw [if_pos hc] at h
      simp only [Option.some.injEq, Prod.mk.injEq] at h
      rcases h with ⟨-, hr⟩
      subst hr
      simp
    rw [if_neg hc] at h
    by_cases hn : c = '\n'
    · rw [if_pos hn] at h
      cases h
    rw [if_neg hn] at h
    rcases hfc : findClose cs with _ | ⟨q2, r2⟩
    · rw [hfc] at h
      cases h
    rw [hfc] at h
    simp only [Option.map, Option.some.injEq, Prod.mk.injEq] at h
    rcases h with ⟨-, hr⟩
    subst hr
    have := ih hfc
    simp
    omega

theorem linkTry_at {t u rest : Str} (ht : ¬ ']' ∈ t) (htnl : ¬ '\n' ∈ t)
    (hu : ¬ ')' ∈ u) (hunl : ¬ '\n' ∈ u) :
    linkTry (t ++ ']' :: '(' :: (u ++ ')' :: rest)) = some (t, u, rest) := by
  induction t with
  | nil =>
    rw [List.nil_append, linkTry, if_neg (by decide)]
    rw [show linkTryHead ']' ('(' :: (u ++ ')' :: rest)) = some (u, rest) by
      rw [linkTryHead, if_pos rfl, linkParen, if_pos rfl, findClose_at hu hunl]]
  | cons c ts ih =>
    have hc1 : ¬ c = ']' := fun he => ht (by simp [he])
    have hc2 : ¬ c = '\n' := fun he => htnl (by simp [he])
    rw [List.cons_append, linkTry, if_neg hc2]
    rw [show linkTryHead c (ts ++ ']' :: '(' :: (u ++ ')' :: rest)) = none by
      rw [linkTryHead, if_neg hc1]]
    rw [ih (fun hm => ht (by simp [hm])) (fun hm => htnl (by simp [hm]))]

theorem linkTry_len {l : Str} {t u r : Str} (h : linkTry l = some (t, u, r)) :
    r.length < l.length := by
  induction l generalizing t u r with
  | nil => simp [linkTry] at h
  | cons c cs ih =>
    rw [linkTry] at h
    by_cases hn : c = '\n'
    · rw [if_pos hn] at h
      cases h
    rw [if_neg hn] at h
    rcases hm : linkTryHead c cs with _ | ⟨q2, r2⟩
    · rw [hm] at h
      rcases hlt : linkTry cs with _ | ⟨⟨t2, u2, r3⟩⟩
      · rw [hlt] at h
        cases h
      rw [hlt] at h
      simp only [Option.some.injEq, Prod.mk.injEq] at h
      rcases h with ⟨-, -, hr⟩
      subst hr
      have := ih hlt
      simp
      omega
    · rw [hm] at h
      simp only [Option.some.injEq, Prod.mk.injEq] at h
      rcases h with ⟨-, -, hr⟩
      subst hr
      rw [linkTryHead] at hm
      by_cases hc : c = ']'
      · rw [if_pos hc] at hm
        rcases cs with _ | ⟨c2, cs2⟩
        · cases hm
        rw [linkParen] at hm
        by_cases hc2 : c2 = '('
        · rw [if_pos hc2] at hm
          have := findClose_len hm
          simp
          omega
        · rw [if_neg hc2] at hm
          cases hm
      · rw [if_neg hc] at hm
        cases hm

theorem linkStep_at {t u rest : Str} (ht : ¬ ']' ∈ t) (htnl : ¬ '\n' ∈ t)
    (hu : ¬ ')' ∈ u) (hunl : ¬ '\n' ∈ u) :
    linkStep ('[' :: (t ++ ']' :: '(' :: (u ++ ')' :: rest)))
      = some (htmlLink t u, rest) := by
  rw [linkStep, if_pos rfl, linkTry_at ht htnl hu hunl, htmlLink]

theorem linkStep_shrinks : Shrinks linkStep := by
  intro l o r hl
  rcases l with _ | ⟨c, cs⟩
  · simp [linkStep] at hl
  rw [linkStep] at hl
  by_cases hc : c = '['
  · rw [if_pos hc] at hl
    rcases hlt : linkTry cs with _ | ⟨⟨t2, u2, r3⟩⟩
    · rw [hlt] at hl
      cases hl
    rw [hlt] at hl
    simp only [Option.some.injEq, Prod.mk.injEq] at hl
    rcases hl with ⟨-, hr⟩
    subst hr
    have := linkTry_len hlt
    simp
    omega
  · rw [if_neg hc] at hl
    cases hl

theorem ptChr_ne {c d : Char} (h : plainChar c = true ∨ tagChr c = true)
    (hd : plainChar d = false) (hd2 : tagChr d = false) : ¬ c = d := by
  intro he
  subst he
  rcases h with h | h
  · rw [h] at hd; cases hd
  · rw [h] at hd2; cases hd2

theorem htmlBold_mem {b : Str} (hb : plainStr b = true) {c : Char}
    (hc : c ∈ htmlBold b) : plainChar c = true ∨ tagChr c = true := by
  rw [htmlBold] at hc
  rcases List.mem_append.mp hc with h | h
  · rcases List.mem_append.mp h with h2 | h2
    · exact Or.inr ((by decide : ∀ x ∈ strongOpen, tagChr x = true) c h2)
    · exact Or.inl (plainStr_mem hb h2)
  · exact Or.inr ((by decide : ∀ x ∈ strongClose, tagChr x = true) c h)

theorem htmlItal_mem {i : Str} (hi : plainStr i = true) {c : Char}
    (hc : c ∈ htmlItal i) : plainChar c = true ∨ tagChr c = true := by
  rw [htmlItal] at hc
  rcases List.mem_append.mp hc with h | h
  · rcases List.mem_append.mp h with h2 | h2
    · exact Or.inr ((by decide : ∀ x ∈ emOpen, tagChr x = true) c h2)
    · exact Or.inl (plainStr_mem hi h2)
  · exact Or.inr ((by decide : ∀ x ∈ emClose, tagChr x = true) c h)

theorem htmlLink_mem {t u : Str} (ht : plainStr t = true) (hu : plainStr u = true)
    {c : Char} (hc : c ∈ htmlLink t u) : plainChar c = true ∨ tagChr c = true := by
  rw [htmlLink] at hc
  simp only [List.mem_append, List.mem_cons] at hc
  rcases hc with ((h | h) | rfl | rfl | h) | h
  · exact Or.inr ((by decide : ∀ x ∈ aOpen, tagChr x = true) c h)
  · exact Or.inl (plainStr_mem hu h)
  · right; decide
  · right; decide
  · exact Or.inl (plainStr_mem ht h)
  · exact Or.inr ((by decide : ∀ x ∈ aClose, tagChr x = true) c h)

theorem hdHtml_mem {n : Nat} (hn : n = 1 ∨ n = 2 ∨ n = 3) {t : Str}
    (ht : plainStr t = true) {c : Char}
    (hc : c ∈ hOpenN n ++ t ++ hCloseN n) :
    plainChar c = true ∨ tagChr c = true := by
  rcases List.mem_append.mp hc with h | h
  · rcases List.mem_append.mp h with h2 | h2
    · right
      rcases hn with rfl | rfl | rfl
      · exact (by decide : ∀ x ∈ hOpenN 1, tagChr x = true) c h2
      · exact (by decide : ∀ x ∈ hOpenN 2, tagChr x = true) c h2
      · exact (by decide : ∀ x ∈ hOpenN 3, tagChr x = true) c h2
    · exact Or.inl (plainStr_mem ht h2)
  · right
    rcases hn with rfl | rfl | rfl
    · exact (by decide : ∀ x ∈ hCloseN 1, tagChr x = true) c h
    · exact (by decide : ∀ x ∈ hCloseN 2, tagChr x = true) c h
    · exact (by decide : ∀ x ∈ hCloseN 3, tagChr x = true) c h

theorem htmlMark_mem {m : Mark} (hm : wfMark m = true) {c : Char}
    (hc : c ∈ htmlMark m) : plainChar c = true ∨ tagChr c = true := by
  cases m with
  | plain => rw [htmlMark] at hc; cases hc
  | bold b => exact htmlBold_mem (wfMark_bold hm).1 hc
  | ital i => exact htmlItal_mem (wfMark_ital hm).1 hc
  | boldItal b mid i =>
    rcases wfMark_boldItal hm with ⟨hb, hmid, hi, _, _, _⟩
    rw [htmlMark] at hc
    rcases List.mem_append.mp hc with h | h
    · rcases List.mem_append.mp h with h2 | h2
      · exact htmlBold_mem hb h2
      · exact Or.inl (plainStr_mem hmid h2)
    · exact htmlItal_mem hi h
  | italBold i mid b =>
    rcases wfMark_italBold hm with ⟨hi, hmid, hb, _, _, _⟩
    rw [htmlMark] at hc
    rcases List.mem_append.mp hc with h | h
    · rcases List.mem_append.mp h with h2 | h2
      · exact htmlItal_mem hi h2
      · exact Or.inl (plainStr_mem hmid h2)
    · exact htmlBold_mem hb h
  | link t u =>
    rcases wfMark_link hm with ⟨ht, hu⟩
    exact htmlLink_mem ht hu hc

theorem bHtml_mem {b : Block} (hb : wfBlock b = true) {c : Char}
    (hc : c ∈ bHtml b) : plainChar c = true ∨ tagChr c = true := by
  cases b with
  | hd n t =>
    rcases wfHd_parts hb with ⟨hn, ht, _⟩
    exact hdHtml_mem hn ht hc
  | par p =>
    rcases wfPara_parts hb with ⟨hpre, hpost, hm, _⟩
    rw [bHtml, htmlPara] at hc
    rcases List.mem_append.mp hc with h | h
    · rcases List.mem_append.mp h with h2 | h2
      · exact Or.inl (plainStr_mem hpre h2)
      · exact htmlMark_mem hm h2
    · exact Or.inl (plainStr_mem hpost h)

theorem markB_mem {m : Mark} (hm : wfMark m = true) {c : Char}
    (hc : c ∈ markB m) :
    plainChar c = true ∨ mdSym c = true ∨ tagChr c = true := by
  cases m with
  | plain => rw [markB] at hc; cases hc
  | bold b =>
    rcases htmlBold_mem (wfMark_bold hm).1 hc with h | h
    · exact Or.inl h
    · exact Or.inr (Or.inr h)
  | ital i =>
    rcases mdItal_mem (wfMark_ital hm).1 hc with h | h
    · exact Or.inl h
    · exact Or.inr (Or.inl h)
  | boldItal b mid i =>
    rcases wfMark_boldItal hm with ⟨hb, hmid, hi, _, _, _⟩
    rw [markB] at hc
    rcases List.mem_append.mp hc with h | h
    · rcases List.mem_append.mp h with h2 | h2
      · rcases htmlBold_mem hb h2 with h3 | h3
        · exact Or.inl h3
        · exact Or.inr (Or.inr h3)
      · exact Or.inl (plainStr_mem hmid h2)
    · rcases mdItal_mem hi h with h3 | h3
      · exact Or.inl h3
      · exact Or.inr (Or.inl h3)
  | italBold i mid b =>
    rcases wfMark_italBold hm with ⟨hi, hmid, hb, _, _, _⟩
    rw [markB] at hc
    rcases List.mem_append.mp hc with h | h
    · rcases List.mem_append.mp h with h2 | h2
      · rcases mdItal_mem hi h2 with h3 | h3
        · exact Or.inl h3
        · exact Or.inr (Or.inl h3)
      · exact Or.inl (plainStr_mem hmid h2)
    · rcases htmlBold_mem hb h with h3 | h3
      · exact Or.inl h3
      · exact Or.inr (Or.inr h3)
  | link t u =>
    rcases wfMark_link hm with ⟨ht, hu⟩
    rcases mdLink_mem ht hu hc with h | h
    · exact Or.inl h
    · exact Or.inr (Or.inl h)

theorem markBI_mem {m : Mark} (hm : wfMark m = true) {c : Char}
    (hc : c ∈ markBI m) :
    plainChar c = true ∨ mdSym c = true ∨ tagChr c = true := by
  cases m with
  | plain => rw [markBI] at hc; cases hc
  | bold b =>
    rcases htmlBold_mem (wfMark_bold hm).1 hc with h | h
    · exact Or.inl h
    · exact Or.inr (Or.inr h)
  | ital i =>
    rcases htmlItal_mem (wfMark_ital hm).1 hc with h | h
    · exact Or.inl h
    · exact Or.inr (Or.inr h)
  | boldItal b mid i =>
    rcases wfMark_boldItal hm with ⟨hb, hmid, hi, _, _, _⟩
    rw [markBI] at hc
    rcases List.mem_append.mp hc with h | h
    · rcases List.mem_append.mp h with h2 | h2
      · rcases htmlBold_mem hb h2 with h3 | h3
        · exact Or.inl h3
        · exact Or.inr (Or.inr h3)
      · exact Or.inl (plainStr_mem hmid h2)
    · rcases htmlItal_mem hi h with h3 | h3
      · exact Or.inl h3
      · exact Or.inr (Or.inr h3)
  | italBold i mid b =>
    rcases wfMark_italBold hm with ⟨hi, hmid, hb, _, _, _⟩
    rw [markBI] at hc
    rcases List.mem_append.mp hc with h | h
    · rcases List.mem_append.mp h with h2 | h2
      · rcases htmlItal_mem hi h2 with h3 | h3
        · exact Or.inl h3
        · exact Or.inr (Or.inr h3)
      · exact Or.inl (plainStr_mem hmid h2)
    · rcases htmlBold_mem hb h with h3 | h3
      · exact Or.inl h3
      · exact Or.inr (Or.inr h3)
  | link t u =>
    rcases wfMark_link hm with ⟨ht, hu⟩
    rcases mdLink_mem ht hu hc with h | h
    · exact Or.inl h
    · exact Or.inr (Or.inl h)

theorem pmtChr_ne {c d : Char}
    (h : plainChar c = true ∨ mdSym c = true ∨ tagChr c = true)
    (hd : plainChar d = false) (hd2 : mdSym d = false) (hd3 : tagChr d = false) :
    ¬ c = d := by
  intro he
  subst he
  rcases h with h | h | h
  · rw [h] at hd; cases hd
  · rw [h] at hd2; cases hd2
  · rw [h] at hd3; cases hd3

theorem lineB4_mem {b : Block} (hb : wfBlock b = true) {c : Char}
    (hc : c ∈ lineB4 b) :
    plainChar c = true ∨ mdSym c = true ∨ tagChr c = true := by
  cases b with
  | hd n t =>
    rcases wfHd_parts hb with ⟨hn, ht, _⟩
    rcases hdHtml_mem hn ht hc with h | h
    · exact Or.inl h
    · exact Or.inr (Or.inr h)
  | par p =>
    rcases wfPara_parts hb with ⟨hpre, hpost, hm, _⟩
    rw [lineB4, paraB] at hc
    rcases List.mem_append.mp hc with h | h
    · rcases List.mem_append.mp h with h2 | h2
      · exact Or.inl (plainStr_mem hpre h2)
      · exact markB_mem hm h2
    · exact Or.inl (plainStr_mem hpost h)

theorem lineB5_mem {b : Block} (hb : wfBlock b = true) {c : Char}
    (hc : c ∈ lineB5 b) :
    plainChar c = true ∨ mdSym c = true ∨ tagChr c = true := by
  cases b with
  | hd n t =>
    rcases wfHd_parts hb with ⟨hn, ht, _⟩
    rcases hdHtml_mem hn ht hc with h | h
    · exact Or.inl h
    · exact Or.inr (Or.inr h)
  | par p =>
    rcases wfPara_parts hb with ⟨hpre, hpost, hm, _⟩
    rw [lineB5, paraBI] at hc
    rcases List.mem_append.mp hc with h | h
    · rcases List.mem_append.mp h with h2 | h2
      · exact Or.inl (plainStr_mem hpre h2)
      · exact markBI_mem hm h2
    · exact Or.inl (plainStr_mem hpost h)

theorem hStage_mem {k : Nat} {b : Block} (hb : wfBlock b = true) {c : Char}
    (hc : c ∈ hStage k b) :
    plainChar c = true ∨ mdSym c = true ∨ tagChr c = true ∨ c = '#' := by
  cases b with
  | hd n t =>
    rcases wfHd_parts hb with ⟨hn, ht, _⟩
    rw [hStage] at hc
    by_cases hk : n ≤ k
    · rw [if_pos hk] at hc
      rcases hdHtml_mem hn ht hc with h | h
      · exact Or.inl h
      · exact Or.inr (Or.inr (Or.inl h))
    · rw [if_neg hk] at hc
      rcases mdHd_mem ht hc with h | h | h
      · exact Or.inl h
      · exact Or.inr (Or.inr (Or.inr h))
      · subst h
        exact Or.inr (Or.inr (Or.inl (by decide)))
  | par p =>
    rcases mdPara_mem hb hc with h | h
    · exact Or.inl h
    · exact Or.inr (Or.inl h)

theorem plain_ne {c d : Char} (h : plainChar c = true)
    (hd : plainChar d = false) : ¬ c = d := by
  intro he
  subst he
  rw [h] at hd
  cases hd

theorem noPairB_of_not_mem {l : Str} (h : ¬ '*' ∈ l) : noPairB l = true := by
  have := noPairB_append_left h noPairB_nil
  simpa using this

theorem scan_bold_star {q : Str} (hq : ∀ c, q.head? = some c → ¬ c = '*') :
    scan boldStep ('*' :: q) = '*' :: scan boldStep q := by
  cases q with
  | nil =>
    rw [scan_cons_none rfl]
  | cons c cs =>
    refine scan_cons_none ?_
    rw [boldStep, if_neg (fun h2 => hq c rfl h2.2)]

theorem mdLink_no_star {t u : Str} (ht : plainStr t = true)
    (hu : plainStr u = true) : ∀ c ∈ mdLink t u, ¬ c = '*' := by
  intro c hc
  rcases mdLink_mem ht hu hc with h | h
  · exact plain_ne h (by decide)
  · rw [mdLink] at hc
    simp only [List.mem_cons, List.mem_append, List.mem_singleton] at hc
    have hclass : c = '[' ∨ c = ']' ∨ c = '(' ∨ c = ')' ∨ c ∈ t ∨ c ∈ u := by
      tauto
    rcases hclass with rfl | rfl | rfl | rfl | hm | hm
    · decide
    · decide
    · decide
    · decide
    · exact plain_ne (plainStr_mem ht hm) (by decide)
    · exact plain_ne (plainStr_mem hu hm) (by decide)

theorem hStage_no_nl {k : Nat} {b : Block} (hb : wfBlock b = true) :
    ¬ '\n' ∈ hStage k b := by
  intro hm
  rcases hStage_mem hb hm with h | h | h | h
  · exact absurd h (by decide)
  · exact absurd h (by decide)
  · exact absurd h (by decide)
  · exact absurd h (by decide)

theorem lineB4_no_nl {b : Block} (hb : wfBlock b = true) :
    ¬ '\n' ∈ lineB4 b := by
  intro hm
  rcases lineB4_mem hb hm with h | h | h
  · exact absurd h (by decide)
  · exact absurd h (by decide)
  · exact absurd h (by decide)

theorem lineB5_no_nl {b : Block} (hb : wfBlock b = true) :
    ¬ '\n' ∈ lineB5 b := by
  intro hm
  rcases lineB5_mem hb hm with h | h | h
  · exact absurd h (by decide)
  · exact absurd h (by decide)
  · exact absurd h (by decide)

theorem bHtml_no_nl {b : Block} (hb : wfBlock b = true) :
    ¬ '\n' ∈ bHtml b := by
  intro hm
  rcases bHtml_mem hb hm with h | h
  · exact absurd h (by decide)
  · exact absurd h (by decide)

theorem hStage0_mdB {b : Block} (hb : wfBlock b = true) : hStage 0 b = mdB b := by
  cases b with
  | hd n t =>
    rcases wfHd_parts hb with ⟨hn, _, _⟩
    rw [hStage, if_neg (by omega), mdB]
  | par p => rfl

theorem hLine_at (n : Nat) (t : Str) :
    hLine n (mdHd n t) = hOpenN n ++ t ++ hCloseN n := by
  rw [hLine, mdHd,
    show List.replicate n '#' ++ ' ' :: t = (List.replicate n '#' ++ [' ']) ++ t
      by simp,
    stripPre_append]
  rfl

theorem hLine_done {n : Nat} (hn : n = 1 ∨ n = 2 ∨ n = 3) {l : Str}
    (hh : ∀ c, l.head? = some c → ¬ ('#' : Char) = c) : hLine n l = l := by
  cases l with
  | nil => rcases hn with rfl | rfl | rfl <;> rfl
  | cons c cs => exact hLine_cons_ne cs hn (hh c rfl)

theorem hLine_skip_hh (r : Str) : hLine 1 ('#' :: '#' :: r) = '#' :: '#' :: r := by
  simp [hLine, stripPre, List.replicate]

theorem hLine_skip_hhh (r : Str) :
    hLine 2 ('#' :: '#' :: '#' :: r) = '#' :: '#' :: '#' :: r := by
  simp [hLine, stripPre, List.replicate]

theorem scan_joinNl {step : Str → Option (Str × Str)} {f g : Block → Str}
    {bs : List Block}
    (hnl : ∀ cs, step ('\n' :: cs) = none)
    (hline : ∀ b ∈ bs, ∀ r, (r = [] ∨ ∃ r2, r = '\n' :: r2) →
      scan step (f b ++ r) = g b ++ scan step r) :
    scan step (joinNl (bs.map f)) = joinNl (bs.map g) := by
  induction bs with
  | nil => rfl
  | cons b bs2 ih =>
    cases bs2 with
    | nil =>
      have h := hline b (by simp) [] (Or.inl rfl)
      rw [show joinNl ([b].map f) = f b from rfl,
        show joinNl ([b].map g) = g b from rfl]
      simpa [scan_nil] using h
    | cons b2 bs3 =>
      rw [show joinNl ((b :: b2 :: bs3).map f)
          = f b ++ '\n' :: joinNl ((b2 :: bs3).map f) from rfl]
      rw [hline b (by simp) _ (Or.inr ⟨_, rfl⟩)]
      rw [scan_cons_none (hnl _)]
      rw [ih (fun b3 hb3 => hline b3 (List.mem_cons_of_mem _ hb3))]
      rfl

theorem map_eq_of_eqB {f g : Block → Str} {ls : List Block}
    (h : ∀ l ∈ ls, f l = g l) : ls.map f = ls.map g := by
  induction ls with
  | nil => rfl
  | cons x xs ih =>
    rw [List.map_cons, List.map_cons, h x (by simp),
      ih (fun l hl => h l (List.mem_cons_of_mem x hl))]

theorem mdPara_head_ne_hash {p : Para} (hb : wfBlock (Block.par p) = true) :
    ∀ c, (mdPara p).head? = some c → ¬ ('#' : Char) = c := by
  intro c hc he
  have hm := mem_of_head? hc
  rw [← he] at hm
  rcases mdPara_mem hb hm with h | h
  · exact absurd h (by decide)
  · exact absurd h (by decide)

theorem hdHtml_head {n : Nat} (hn : n = 1 ∨ n = 2 ∨ n = 3) (t : Str) :
    (hOpenN n ++ t ++ hCloseN n).head? = some '<' := by
  rcases hn with rfl | rfl | rfl <;> rfl

theorem passBH1 (bs : List Block) (hwf : ∀ b ∈ bs, wfBlock b = true) :
    perLine (hLine 1) (joinNl (bs.map (hStage 0))) = joinNl (bs.map (hStage 1)) := by
  cases hbs : bs with
  | nil => rfl
  | cons b0 bs0 =>
  rw [← hbs]
  have hwf2 := hwf
  rw [perLine_joinNl (fun l hl => by
    rcases List.mem_map.mp hl with ⟨b, hb, rfl⟩
    exact hStage_no_nl (hwf b hb)) (by rw [hbs]; simp)]
  congr 1
  rw [List.map_map]
  apply map_eq_of_eqB
  intro b hb
  show hLine 1 (hStage 0 b) = hStage 1 b
  cases b with
  | par p => exact hLine_done (Or.inl rfl) (mdPara_head_ne_hash (hwf _ hb))
  | hd n t =>
    rcases wfHd_parts (hwf _ hb) with ⟨hn, ht, _⟩
    rcases hn with rfl | rfl | rfl
    · rw [show hStage 0 (Block.hd 1 t) = mdHd 1 t by
        rw [hStage, if_neg (by omega)],
        show hStage 1 (Block.hd 1 t) = hOpenN 1 ++ t ++ hCloseN 1 by
        rw [hStage, if_pos (by omega)]]
      exact hLine_at 1 t
    · rw [show hStage 0 (Block.hd 2 t) = mdHd 2 t by
        rw [hStage, if_neg (by omega)],
        show hStage 1 (Block.hd 2 t) = mdHd 2 t by
        rw [hStage, if_neg (by omega)]]
      rw [show mdHd 2 t = '#' :: '#' :: (' ' :: t) from rfl]
      exact hLine_skip_hh _
    · rw [show hStage 0 (Block.hd 3 t) = mdHd 3 t by
        rw [hStage, if_neg (by omega)],
        show hStage 1 (Block.hd 3 t) = mdHd 3 t by
        rw [hStage, if_neg (by omega)]]
      rw [show mdHd 3 t = '#' :: '#' :: ('#' :: ' ' :: t) from rfl]
      exact hLine_skip_hh _

theorem passBH2 (bs : List Block) (hwf : ∀ b ∈ bs, wfBlock b = true) :
    perLine (hLine 2) (joinNl (bs.map (hStage 1))) = joinNl (bs.map (hStage 2)) := by
  cases hbs : bs with
  | nil => rfl
  | cons b0 bs0 =>
  rw [← hbs]
  rw [perLine_joinNl (fun l hl => by
    rcases List.mem_map.mp hl with ⟨b, hb, rfl⟩
    exact hStage_no_nl (hwf b hb)) (by rw [hbs]; simp)]
  congr 1
  rw [List.map_map]
  apply map_eq_of_eqB
  intro b hb
  show hLine 2 (hStage 1 b) = hStage 2 b
  cases b with
  | par p => exact hLine_done (Or.inr (Or.inl rfl)) (mdPara_head_ne_hash (hwf _ hb))
  | hd n t =>
    rcases wfHd_parts (hwf _ hb) with ⟨hn, ht, _⟩
    rcases hn with rfl | rfl | rfl
    · rw [show hStage 1 (Block.hd 1 t) = hOpenN 1 ++ t ++ hCloseN 1 by
        rw [hStage, if_pos (by omega)],
        show hStage 2 (Block.hd 1 t) = hOpenN 1 ++ t ++ hCloseN 1 by
        rw [hStage, if_pos (by omega)]]
      refine hLine_done (Or.inr (Or.inl rfl)) ?_
      intro c hc
      rw [hdHtml_head (Or.inl rfl) t] at hc
      rcases Option.some.inj hc with rfl
      decide
    · rw [show hStage 1 (Block.hd 2 t) = mdHd 2 t by
        rw [hStage, if_neg (by omega)],
        show hStage 2 (Block.hd 2 t) = hOpenN 2 ++ t ++ hCloseN 2 by
        rw [hStage, if_pos (by omega)]]
      exact hLine_at 2 t
    · rw [show hStage 1 (Block.hd 3 t) = mdHd 3 t by
        rw [hStage, if_neg (by omega)],
        show hStage 2 (Block.hd 3 t) = mdHd 3 t by
        rw [hStage, if_neg (by omega)]]
      rw [show mdHd 3 t = '#' :: '#' :: ('#' :: ' ' :: t) from rfl]
      exact hLine_skip_hhh _

theorem passBH3 (bs : List Block) (hwf : ∀ b ∈ bs, wfBlock b = true) :
    perLine (hLine 3) (joinNl (bs.map (hStage 2))) = joinNl (bs.map (hStage 3)) := by
  cases hbs : bs with
  | nil => rfl
  | cons b0 bs0 =>
  rw [← hbs]
  rw [perLine_joinNl (fun l hl => by
    rcases List.mem_map.mp hl with ⟨b, hb, rfl⟩
    exact hStage_no_nl (hwf b hb)) (by rw [hbs]; simp)]
  congr 1
  rw [List.map_map]
  apply map_eq_of_eqB
  intro b hb
  show hLine 3 (hStage 2 b) = hStage 3 b
  cases b with
  | par p => exact hLine_done (Or.inr (Or.inr rfl)) (mdPara_head_ne_hash (hwf _ hb))
  | hd n t =>
    rcases wfHd_parts (hwf _ hb) with ⟨hn, ht, _⟩
    rcases hn with rfl | rfl | rfl
    · rw [show hStage 2 (Block.hd 1 t) = hOpenN 1 ++ t ++ hCloseN 1 by
        rw [hStage, if_pos (by omega)],
        show hStage 3 (Block.hd 1 t) = hOpenN 1 ++ t ++ hCloseN 1 by
        rw [hStage, if_pos (by omega)]]
      refine hLine_done (Or.inr (Or.inr rfl)) ?_
      intro c hc
      rw [hdHtml_head (Or.inl rfl) t] at hc
      rcases Option.some.inj hc with rfl
      decide
    · rw [show hStage 2 (Block.hd 2 t) = hOpenN 2 ++ t ++ hCloseN 2 by
        rw [hStage, if_pos (by omega)],
        show hStage 3 (Block.hd 2 t) = hOpenN 2 ++ t ++ hCloseN 2 by
        rw [hStage, if_pos (by omega)]]
      refine hLine_done (Or.inr (Or.inr rfl)) ?_
      intro c hc
      rw [hdHtml_head (Or.inr (Or.inl rfl)) t] at hc
      rcases Option.some.inj hc with rfl
      decide
    · rw [show hStage 2 (Block.hd 3 t) = mdHd 3 t by
        rw [hStage, if_neg (by omega)],
        show hStage 3 (Block.hd 3 t) = hOpenN 3 ++ t ++ hCloseN 3 by
        rw [hStage, if_pos (by omega)]]
      exact hLine_at 3 t

theorem head_append_ne_star {post r : Str} (hpost : plainStr post = true)
    (hr : r = [] ∨ ∃ r2, r = '\n' :: r2) :
    ∀ c, (post ++ r).head? = some c → ¬ c = '*' := by
  intro c hc
  rcases post with _ | ⟨cp, ps⟩
  · rw [List.nil_append] at hc
    rcases hr with rfl | ⟨r2, rfl⟩
    · cases hc
    · rcases Option.some.inj hc with rfl
      decide
  · rcases Option.some.inj hc with rfl
    exact plain_ne (plainStr_mem hpost (by simp)) (by decide)

theorem lineB4_blk {b : Block} (hb : wfBlock b = true) (r : Str)
    (hr : r = [] ∨ ∃ r2, r = '\n' :: r2) :
    scan boldStep (hStage 3 b ++ r) = lineB4 b ++ scan boldStep r := by
  have hstep : ∀ c cs, ¬ c = '*' → boldStep (c :: cs) = none :=
    fun c cs hc => boldStep_none cs hc
  cases b with
  | hd n t =>
    rcases wfHd_parts hb with ⟨hn, ht, _⟩
    rw [show hStage 3 (Block.hd n t) = hOpenN n ++ t ++ hCloseN n by
      rw [hStage, if_pos (by omega)],
      show lineB4 (Block.hd n t) = hOpenN n ++ t ++ hCloseN n from rfl]
    exact scan_append_of_forall hstep
      (fun c hc => ptChr_ne (hdHtml_mem hn ht hc) (by decide) (by decide)) r
  | par p =>
    rcases wfPara_parts hb with ⟨hpre, hpost, hm, _⟩
    rcases p with ⟨pre, m, post⟩
    simp only at hpre hpost hm
    have hpresk : ∀ q : Str, scan boldStep (pre ++ q) = pre ++ scan boldStep q :=
      fun q => scan_append_of_forall hstep
        (fun c hc => plain_ne (plainStr_mem hpre hc) (by decide)) q
    have hpostsk : ∀ q : Str, scan boldStep (post ++ q) = post ++ scan boldStep q :=
      fun q => scan_append_of_forall hstep
        (fun c hc => plain_ne (plainStr_mem hpost hc) (by decide)) q
    cases m with
    | plain =>
      rw [show hStage 3 (Block.par ⟨pre, Mark.plain, post⟩) ++ r
          = pre ++ (post ++ r) by simp [hStage, mdPara, mdMark],
        show lineB4 (Block.par ⟨pre, Mark.plain, post⟩)
          = pre ++ post by simp [lineB4, paraB, markB]]
      rw [hpresk, hpostsk]
      simp
    | link t u =>
      rw [show hStage 3 (Block.par ⟨pre, Mark.link t u, post⟩) ++ r
          = pre ++ (mdLink t u ++ (post ++ r)) by simp [hStage, mdPara, mdMark],
        show lineB4 (Block.par ⟨pre, Mark.link t u, post⟩)
          = pre ++ (mdLink t u ++ post) by simp [lineB4, paraB, markB]]
      rcases wfMark_link hm with ⟨ht, hu⟩
      rw [hpresk, scan_append_of_forall hstep (mdLink_no_star ht hu) _, hpostsk]
      simp
    | bold bb =>
      rcases wfMark_bold hm with ⟨hbb, hbne⟩
      rw [show hStage 3 (Block.par ⟨pre, Mark.bold bb, post⟩) ++ r
          = pre ++ ('*' :: '*' :: ((bb ++ '*' :: '*' :: post) ++ r)) by
        simp [hStage, mdPara, mdMark, mdBold],
        show lineB4 (Block.par ⟨pre, Mark.bold bb, post⟩)
          = pre ++ (htmlBold bb ++ post) by simp [lineB4, paraB, markB]]
      rw [hpresk, scan_some boldStep_shrinks
        (boldStep_at (plainStr_not_mem hbb (by decide))
          (plainStr_not_mem hbb (by decide))
          (noPairB_of_not_mem (plainStr_not_mem hpost (by decide)))
          (fun d hd => plain_ne (plainStr_mem hpost (mem_of_head? hd)) (by decide))
          (plainStr_not_mem hpost (by decide)) hr),
        hpostsk]
      rw [htmlBold]
      simp
    | ital i =>
      rcases wfMark_ital hm with ⟨hi, hine⟩
      rcases hie : i with _ | ⟨ci, i2⟩
      · exact absurd hie hine
      rw [show hStage 3 (Block.par ⟨pre, Mark.ital (ci :: i2), post⟩) ++ r
          = pre ++ ('*' :: (ci :: (i2 ++ ('*' :: (post ++ r))))) by
        simp [hStage, mdPara, mdMark, mdItal],
        show lineB4 (Block.par ⟨pre, Mark.ital (ci :: i2), post⟩)
          = pre ++ ('*' :: (ci :: (i2 ++ ('*' :: post)))) by
        simp [lineB4, paraB, markB, mdItal]]
      rw [hie] at hi
      have hci : plainChar ci = true := plainStr_mem hi (by simp)
      have hi2 : ∀ c ∈ i2, plainChar c = true :=
        fun c hc => plainStr_mem hi (by simp [hc])
      rw [hpresk, scan_bold_star (fun c hc => by
        rcases Option.some.inj hc with rfl
        exact plain_ne hci (by decide))]
      rw [show (ci :: (i2 ++ ('*' :: (post ++ r))))
          = (ci :: i2) ++ ('*' :: (post ++ r)) from rfl]
      rw [scan_append_of_forall hstep (fun c hc => by
        rcases List.mem_cons.mp hc with rfl | hc2
        · exact plain_ne hci (by decide)
        · exact plain_ne (hi2 c hc2) (by decide)) _]
      rw [scan_bold_star (head_append_ne_star hpost hr), hpostsk]
      simp
    | boldItal bb mid i =>
      rcases wfMark_boldItal hm with ⟨hbb, hmid, hi, hbne, hmidne, hine⟩
      rcases hie : i with _ | ⟨ci, i2⟩
      · exact absurd hie hine
      rcases hme : mid with _ | ⟨cm, m2⟩
      · exact absurd hme hmidne
      rw [hie] at hi
      rw [hme] at hmid
      have hci : plainChar ci = true := plainStr_mem hi (by simp)
      have hi2 : ∀ c ∈ i2, plainChar c = true :=
        fun c hc => plainStr_mem hi (by simp [hc])
      have hcm : plainChar cm = true := plainStr_mem hmid (by simp)
      rw [show hStage 3 (Block.par ⟨pre, Mark.boldItal bb (cm :: m2) (ci :: i2), post⟩) ++ r
          = pre ++ ('*' :: '*' :: ((bb ++ '*' :: '*' ::
            ((cm :: m2) ++ ('*' :: (ci :: i2 ++ ('*' :: post))))) ++ r)) by
        simp [hStage, mdPara, mdMark, mdBold, mdItal],
        show lineB4 (Block.par ⟨pre, Mark.boldItal bb (cm :: m2) (ci :: i2), post⟩)
          = pre ++ (htmlBold bb ++ ((cm :: m2) ++ ('*' :: (ci :: i2 ++ ('*' :: post))))) by
        simp [lineB4, paraB, markB, mdItal]]
      have hnp : noPairB ((cm :: m2) ++ ('*' :: (ci :: i2 ++ ('*' :: post)))) = true := by
        refine noPairB_append_left (plainStr_not_mem hmid (by decide)) ?_
        refine noPairB_cons (fun d hd h2 => ?_) ?_
        · rcases Option.some.inj hd with rfl
          exact plain_ne hci (by decide) h2.2
        · refine noPairB_append_left ?_ ?_
          · intro hmem
            rcases List.mem_cons.mp hmem with he | he
            · exact plain_ne hci (by decide) he.symm
            · exact plain_ne (hi2 _ he) (by decide) rfl
          · refine noPairB_cons (fun d hd h2 => ?_)
              (noPairB_of_not_mem (plainStr_not_mem hpost (by decide)))
            rcases post with _ | ⟨cp, ps⟩
            · cases hd
            · rcases Option.some.inj hd with rfl
              exact plain_ne (plainStr_mem hpost (by simp)) (by decide) h2.2
      rw [hpresk, scan_some boldStep_shrinks
        (boldStep_at (plainStr_not_mem hbb (by decide))
          (plainStr_not_mem hbb (by decide)) hnp
          (fun d hd => by
            rcases Option.some.inj hd with rfl
            exact plain_ne hcm (by decide))
          (by
            intro hmem
            rcases List.mem_append.mp hmem with h1 | h1
            · exact plain_ne (plainStr_mem hmid h1) (by decide) rfl
            rcases List.mem_cons.mp h1 with h2 | h2
            · exact absurd h2 (by decide)
            rcases List.mem_cons.mp h2 with h3 | h3
            · exact plain_ne hci (by decide) h3.symm
            rcases List.mem_append.mp h3 with h4 | h4
            · exact plain_ne (hi2 _ h4) (by decide) rfl
            rcases List.mem_cons.mp h4 with h5 | h5
            · exact absurd h5 (by decide)
            · exact plain_ne (plainStr_mem hpost h5) (by decide) rfl) hr)]
      rw [show (cm :: m2) ++ ('*' :: (ci :: i2 ++ ('*' :: post))) ++ r
          = (cm :: m2) ++ ('*' :: ((ci :: i2) ++ ('*' :: (post ++ r)))) by simp]
      rw [scan_append_of_forall hstep (fun c hc => by
        rcases List.mem_cons.mp hc with rfl | hc2
        · exact plain_ne hcm (by decide)
        · exact plain_ne (plainStr_mem hmid (by simp [hc2])) (by decide)) _]
      rw [scan_bold_star (fun c hc => by
        rcases Option.some.inj hc with rfl
        exact plain_ne hci (by decide))]
      rw [scan_append_of_forall hstep (fun c hc => by
        rcases List.mem_cons.mp hc with rfl | hc2
        · exact plain_ne hci (by decide)
        · exact plain_ne (hi2 c hc2) (by decide)) _]
      rw [scan_bold_star (head_append_ne_star hpost hr), hpostsk]
      rw [htmlBold]
      simp
    | italBold i mid bb =>
      rcases wfMark_italBold hm with ⟨hi, hmid, hbb, hine, hmidne, hbne⟩
      rcases hie : i with _ | ⟨ci, i2⟩
      · exact absurd hie hine
      rcases hme : mid with _ | ⟨cm, m2⟩
      · exact absurd hme hmidne
      rw [hie] at hi
      rw [hme] at hmid
      have hci : plainChar ci = true := plainStr_mem hi (by simp)
      have hi2 : ∀ c ∈ i2, plainChar c = true :=
        fun c hc => plainStr_mem hi (by simp [hc])
      have hcm : plainChar cm = true := plainStr_mem hmid (by simp)
      rw [show hStage 3 (Block.par ⟨pre, Mark.italBold (ci :: i2) (cm :: m2) bb, post⟩) ++ r
          = pre ++ ('*' :: ((ci :: i2) ++ ('*' :: ((cm :: m2) ++
            ('*' :: '*' :: ((bb ++ '*' :: '*' :: post) ++ r)))))) by
        simp [hStage, mdPara, mdMark, mdBold, mdItal],
        show lineB4 (Block.par ⟨pre, Mark.italBold (ci :: i2) (cm :: m2) bb, post⟩)
          = pre ++ ('*' :: ((ci :: i2) ++ ('*' :: ((cm :: m2) ++
            (htmlBold bb ++ post))))) by
        simp [lineB4, paraB, markB, mdItal]]
      rw [hpresk, scan_bold_star (fun c hc => by
        rcases Option.some.inj hc with rfl
        exact plain_ne hci (by decide))]
      rw [scan_append_of_forall hstep (fun c hc => by
        rcases List.mem_cons.mp hc with rfl | hc2
        · exact plain_ne hci (by decide)
        · exact plain_ne (hi2 c hc2) (by decide)) _]
      rw [scan_bold_star (fun c hc => by
        rcases Option.some.inj hc with rfl
        exact plain_ne hcm (by decide))]
      rw [scan_append_of_forall hstep (fun c hc => by
        rcases List.mem_cons.mp hc with rfl | hc2
        · exact plain_ne hcm (by decide)
        · exact plain_ne (plainStr_mem hmid (by simp [hc2])) (by decide)) _]
      rw [scan_some boldStep_shrinks
        (boldStep_at (plainStr_not_mem hbb (by decide))
          (plainStr_not_mem hbb (by decide))
          (noPairB_of_not_mem (plainStr_not_mem hpost (by decide)))
          (fun d hd => plain_ne (plainStr_mem hpost (mem_of_head? hd)) (by decide))
          (plainStr_not_mem hpost (by decide)) hr),
        hpostsk]
      rw [htmlBold]
      simp

theorem lineB5_blk {b : Block} (hb : wfBlock b = true) (r : Str)
    (hr : r = [] ∨ ∃ r2, r = '\n' :: r2) :
    scan italStep (lineB4 b ++ r) = lineB5 b ++ scan italStep r := by
  have hstep : ∀ c cs, ¬ c = '*' → italStep (c :: cs) = none :=
    fun c cs hc => italStep_none cs hc
  cases b with
  | hd n t =>
    rcases wfHd_parts hb with ⟨hn, ht, _⟩
    rw [show lineB4 (Block.hd n t) = hOpenN n ++ t ++ hCloseN n from rfl,
      show lineB5 (Block.hd n t) = hOpenN n ++ t ++ hCloseN n from rfl]
    exact scan_append_of_forall hstep
      (fun c hc => ptChr_ne (hdHtml_mem hn ht hc) (by decide) (by decide)) r
  | par p =>
    rcases wfPara_parts hb with ⟨hpre, hpost, hm, _⟩
    rcases p with ⟨pre, m, post⟩
    simp only at hpre hpost hm
    have hpresk : ∀ q : Str, scan italStep (pre ++ q) = pre ++ scan italStep q :=
      fun q => scan_append_of_forall hstep
        (fun c hc => plain_ne (plainStr_mem hpre hc) (by decide)) q
    have hpostsk : ∀ q : Str, scan italStep (post ++ q) = post ++ scan italStep q :=
      fun q => scan_append_of_forall hstep
        (fun c hc => plain_ne (plainStr_mem hpost hc) (by decide)) q
    cases m with
    | plain =>
      rw [show lineB4 (Block.par ⟨pre, Mark.plain, post⟩) ++ r
          = pre ++ (post ++ r) by simp [lineB4, paraB, markB],
        show lineB5 (Block.par ⟨pre, Mark.plain, post⟩)
          = pre ++ post by simp [lineB5, paraBI, markBI]]
      rw [hpresk, hpostsk]
      simp
    | link t u =>
      rcases wfMark_link hm with ⟨ht, hu⟩
      rw [show lineB4 (Block.par ⟨pre, Mark.link t u, post⟩) ++ r
          = pre ++ (mdLink t u ++ (post ++ r)) by simp [lineB4, paraB, markB],
        show lineB5 (Block.par ⟨pre, Mark.link t u, post⟩)
          = pre ++ (mdLink t u ++ post) by simp [lineB5, paraBI, markBI]]
      rw [hpresk, scan_append_of_forall hstep (mdLink_no_star ht hu) _, hpostsk]
      simp
    | bold bb =>
      rcases wfMark_bold hm with ⟨hbb, _⟩
      rw [show lineB4 (Block.par ⟨pre, Mark.bold bb, post⟩) ++ r
          = pre ++ (htmlBold bb ++ (post ++ r)) by simp [lineB4, paraB, markB],
        show lineB5 (Block.par ⟨pre, Mark.bold bb, post⟩)
          = pre ++ (htmlBold bb ++ post) by simp [lineB5, paraBI, markBI]]
      rw [hpresk, scan_append_of_forall hstep
        (fun c hc => ptChr_ne (htmlBold_mem hbb hc) (by decide) (by decide)) _,
        hpostsk]
      simp
    | ital i =>
      rcases wfMark_ital hm with ⟨hi, _⟩
      rw [show lineB4 (Block.par ⟨pre, Mark.ital i, post⟩) ++ r
          = pre ++ ('*' :: ((i ++ '*' :: post) ++ r)) by
        simp [lineB4, paraB, markB, mdItal],
        show lineB5 (Block.par ⟨pre, Mark.ital i, post⟩)
          = pre ++ (htmlItal i ++ post) by simp [lineB5, paraBI, markBI]]
      rw [hpresk, scan_some italStep_shrinks
        (italStep_at (plainStr_not_mem hi (by decide))
          (plainStr_not_mem hi (by decide))
          (plainStr_not_mem hpost (by decide))
          (plainStr_not_mem hpost (by decide)) hr),
        hpostsk]
      rw [htmlItal]
      simp
    | boldItal bb mid i =>
      rcases wfMark_boldItal hm with ⟨hbb, hmid, hi, _, _, _⟩
      rw [show lineB4 (Block.par ⟨pre, Mark.boldItal bb mid i, post⟩) ++ r
          = pre ++ (htmlBold bb ++ (mid ++ ('*' :: ((i ++ '*' :: post) ++ r)))) by
        simp [lineB4, paraB, markB, mdItal],
        show lineB5 (Block.par ⟨pre, Mark.boldItal bb mid i, post⟩)
          = pre ++ (htmlBold bb ++ (mid ++ (htmlItal i ++ post))) by
        simp [lineB5, paraBI, markBI]]
      rw [hpresk, scan_append_of_forall hstep
        (fun c hc => ptChr_ne (htmlBold_mem hbb hc) (by decide) (by decide)) _,
        scan_append_of_forall hstep
          (fun c hc => plain_ne (plainStr_mem hmid hc) (by decide)) _,
        scan_some italStep_shrinks
          (italStep_at (plainStr_not_mem hi (by decide))
            (plainStr_not_mem hi (by decide))
            (plainStr_not_mem hpost (by decide))
            (plainStr_not_mem hpost (by decide)) hr),
        hpostsk]
      rw [htmlItal]
      simp
    | italBold i mid bb =>
      rcases wfMark_italBold hm with ⟨hi, hmid, hbb, _, _, _⟩
      rw [show lineB4 (Block.par ⟨pre, Mark.italBold i mid bb, post⟩) ++ r
          = pre ++ ('*' :: ((i ++ '*' :: (mid ++ htmlBold bb ++ post)) ++ r)) by
        simp [lineB4, paraB, markB, mdItal],
        show lineB5 (Block.par ⟨pre, Mark.italBold i mid bb, post⟩)
          = pre ++ (htmlItal i ++ (mid ++ (htmlBold bb ++ post))) by
        simp [lineB5, paraBI, markBI]]
      have hystar : ¬ '*' ∈ mid ++ htmlBold bb ++ post := by
        intro hmem
        rcases List.mem_append.mp hmem with h1 | h1
        · rcases List.mem_append.mp h1 with h2 | h2
          · exact plain_ne (plainStr_mem hmid h2) (by decide) rfl
          · exact ptChr_ne (htmlBold_mem hbb h2) (by decide) (by decide) rfl
        · exact plain_ne (plainStr_mem hpost h1) (by decide) rfl
      have hynl : ¬ '\n' ∈ mid ++ htmlBold bb ++ post := by
        intro hmem
        rcases List.mem_append.mp hmem with h1 | h1
        · rcases List.mem_append.mp h1 with h2 | h2
          · exact plain_ne (plainStr_mem hmid h2) (by decide) rfl
          · exact ptChr_ne (htmlBold_mem hbb h2) (by decide) (by decide) rfl
        · exact plain_ne (plainStr_mem hpost h1) (by decide) rfl
      rw [hpresk, scan_some italStep_shrinks
        (italStep_at (plainStr_not_mem hi (by decide))
          (plainStr_not_mem hi (by decide)) hystar hynl hr)]
      rw [show (mid ++ htmlBold bb ++ post) ++ r
          = mid ++ (htmlBold bb ++ (post ++ r)) by simp]
      rw [scan_append_of_forall hstep
          (fun c hc => plain_ne (plainStr_mem hmid hc) (by decide)) _,
        scan_append_of_forall hstep
          (fun c hc => ptChr_ne (htmlBold_mem hbb hc) (by decide) (by decide)) _,
        hpostsk]
      rw [htmlItal]
      simp

theorem lineB6_blk {b : Block} (hb : wfBlock b = true) (r : Str)
    (hr : r = [] ∨ ∃ r2, r = '\n' :: r2) :
    scan linkStep (lineB5 b ++ r) = bHtml b ++ scan linkStep r := by
  have hstep : ∀ c cs, ¬ c = '[' → linkStep (c :: cs) = none :=
    fun c cs hc => linkStep_none cs hc
  cases b with
  | hd n t =>
    rcases wfHd_parts hb with ⟨hn, ht, _⟩
    rw [show lineB5 (Block.hd n t) = hOpenN n ++ t ++ hCloseN n from rfl,
      show bHtml (Block.hd n t) = hOpenN n ++ t ++ hCloseN n from rfl]
    exact scan_append_of_forall hstep
      (fun c hc => ptChr_ne (hdHtml_mem hn ht hc) (by decide) (by decide)) r
  | par p =>
    rcases wfPara_parts hb with ⟨hpre, hpost, hm, _⟩
    rcases p with ⟨pre, m, post⟩
    simp only at hpre hpost hm
    have hpresk : ∀ q : Str, scan linkStep (pre ++ q) = pre ++ scan linkStep q :=
      fun q => scan_append_of_forall hstep
        (fun c hc => plain_ne (plainStr_mem hpre hc) (by decide)) q
    have hpostsk : ∀ q : Str, scan linkStep (post ++ q) = post ++ scan linkStep q :=
      fun q => scan_append_of_forall hstep
        (fun c hc => plain_ne (plainStr_mem hpost hc) (by decide)) q
    cases m with
    | link t u =>
      rcases wfMark_link hm with ⟨ht, hu⟩
      rw [show lineB5 (Block.par ⟨pre, Mark.link t u, post⟩) ++ r
          = pre ++ ('[' :: (t ++ ']' :: '(' :: (u ++ ')' :: (post ++ r)))) by
        simp [lineB5, paraBI, markBI, mdLink],
        show bHtml (Block.par ⟨pre, Mark.link t u, post⟩)
          = pre ++ (htmlLink t u ++ post) by simp [bHtml, htmlPara, htmlMark]]
      rw [hpresk, scan_some linkStep_shrinks
        (linkStep_at (plainStr_not_mem ht (by decide))
          (plainStr_not_mem ht (by decide))
          (plainStr_not_mem hu (by decide))
          (plainStr_not_mem hu (by decide))),
        hpostsk]
      simp
    | plain =>
      rw [show lineB5 (Block.par ⟨pre, Mark.plain, post⟩) ++ r
          = pre ++ (post ++ r) by simp [lineB5, paraBI, markBI],
        show bHtml (Block.par ⟨pre, Mark.plain, post⟩)
          = pre ++ post by simp [bHtml, htmlPara, htmlMark]]
      rw [hpresk, hpostsk]
      simp
    | bold bb =>
      rcases wfMark_bold hm with ⟨hbb, _⟩
      rw [show lineB5 (Block.par ⟨pre, Mark.bold bb, post⟩) ++ r
          = pre ++ (htmlBold bb ++ (post ++ r)) by simp [lineB5, paraBI, markBI],
        show bHtml (Block.par ⟨pre, Mark.bold bb, post⟩)
          = pre ++ (htmlBold bb ++ post) by simp [bHtml, htmlPara, htmlMark]]
      rw [hpresk, scan_append_of_forall hstep
        (fun c hc => ptChr_ne (htmlBold_mem hbb hc) (by decide) (by decide)) _,
        hpostsk]
      simp
    | ital i =>
      rcases wfMark_ital hm with ⟨hi, _⟩
      rw [show lineB5 (Block.par ⟨pre, Mark.ital i, post⟩) ++ r
          = pre ++ (htmlItal i ++ (post ++ r)) by simp [lineB5, paraBI, markBI],
        show bHtml (Block.par ⟨pre, Mark.ital i, post⟩)
          = pre ++ (htmlItal i ++ post) by simp [bHtml, htmlPara, htmlMark]]
      rw [hpresk, scan_append_of_forall hstep
        (fun c hc => ptChr_ne (htmlItal_mem hi hc) (by decide) (by decide)) _,
        hpostsk]
      simp
    | boldItal bb mid i =>
      rcases wfMark_boldItal hm with ⟨hbb, hmid, hi, _, _, _⟩
      rw [show lineB5 (Block.par ⟨pre, Mark.boldItal bb mid i, post⟩) ++ r
          = pre ++ (htmlBold bb ++ (mid ++ (htmlItal i ++ (post ++ r)))) by
        simp [lineB5, paraBI, markBI],
        show bHtml (Block.par ⟨pre, Mark.boldItal bb mid i, post⟩)
          = pre ++ (htmlBold bb ++ (mid ++ (htmlItal i ++ post))) by
        simp [bHtml, htmlPara, htmlMark]]
      rw [hpresk, scan_append_of_forall hstep
        (fun c hc => ptChr_ne (htmlBold_mem hbb hc) (by decide) (by decide)) _,
        scan_append_of_forall hstep
          (fun c hc => plain_ne (plainStr_mem hmid hc) (by decide)) _,
        scan_append_of_forall hstep
          (fun c hc => ptChr_ne (htmlItal_mem hi hc) (by decide) (by decide)) _,
        hpostsk]
      simp
    | italBold i mid bb =>
      rcases wfMark_italBold hm with ⟨hi, hmid, hbb, _, _, _⟩
      rw [show lineB5 (Block.par ⟨pre, Mark.italBold i mid bb, post⟩) ++ r
          = pre ++ (htmlItal i ++ (mid ++ (htmlBold bb ++ (post ++ r)))) by
        simp [lineB5, paraBI, markBI],
        show bHtml (Block.par ⟨pre, Mark.italBold i mid bb, post⟩)
          = pre ++ (htmlItal i ++ (mid ++ (htmlBold bb ++ post))) by
        simp [bHtml, htmlPara, htmlMark]]
      rw [hpresk, scan_append_of_forall hstep
        (fun c hc => ptChr_ne (htmlItal_mem hi hc) (by decide) (by decide)) _,
        scan_append_of_forall hstep
          (fun c hc => plain_ne (plainStr_mem hmid hc) (by decide)) _,
        scan_append_of_forall hstep
          (fun c hc => ptChr_ne (htmlBold_mem hbb hc) (by decide) (by decide)) _,
        hpostsk]
      simp

theorem passB7 (bs : List Block) (hwf : ∀ b ∈ bs, wfBlock b = true) :
    perLine liLine (joinNl (bs.map bHtml)) = joinNl (bs.map bHtml) := by
  cases hbs : bs with
  | nil => rfl
  | cons b0 bs0 =>
  rw [← hbs]
  rw [perLine_joinNl (fun l hl => by
    rcases List.mem_map.mp hl with ⟨b, hb, rfl⟩
    exact bHtml_no_nl (hwf b hb)) (by rw [hbs]; simp)]
  congr 1
  rw [List.map_map]
  apply map_eq_of_eqB
  intro b hb
  show liLine (bHtml b) = bHtml b
  rcases hbh : bHtml b with _ | ⟨c, cs⟩
  · rfl
  refine liLine_cons_ne cs ?_
  have hm : c ∈ bHtml b := by rw [hbh]; simp
  intro he
  rw [← he] at hm
  rcases bHtml_mem (hwf b hb) hm with h | h
  · exact absurd h (by decide)
  · exact absurd h (by decide)

theorem stripPre_ul_bHtml {b : Block} (hb : wfBlock b = true) (r : Str) :
    stripPre (ofStr ("<ul>")) (bHtml b ++ r) = none := by
  cases b with
  | hd n t =>
    rcases wfHd_parts hb with ⟨hn, ht, _⟩
    rcases hn with rfl | rfl | rfl
    · rw [show bHtml (Block.hd 1 t) ++ r = hOpenN 1 ++ (t ++ hCloseN 1 ++ r) by
        simp [bHtml]]
      exact mismatchWithin_stripPre (by decide) _
    · rw [show bHtml (Block.hd 2 t) ++ r = hOpenN 2 ++ (t ++ hCloseN 2 ++ r) by
        simp [bHtml]]
      exact mismatchWithin_stripPre (by decide) _
    · rw [show bHtml (Block.hd 3 t) ++ r = hOpenN 3 ++ (t ++ hCloseN 3 ++ r) by
        simp [bHtml]]
      exact mismatchWithin_stripPre (by decide) _
  | par p =>
    rcases wfPara_parts hb with ⟨hpre, hpost, hm, hedge⟩
    rcases p with ⟨pre, m, post⟩
    simp only at hpre hpost hm hedge
    rcases hpe : pre with _ | ⟨cp, ps⟩
    · cases m with
      | plain =>
        rcases hpo : post with _ | ⟨cq, qs⟩
        · rw [hpe, hpo] at hedge
          exact absurd hedge (by decide)
        · rw [show bHtml (Block.par ⟨[], Mark.plain, cq :: qs⟩) ++ r
            = cq :: (qs ++ r) by simp [bHtml, htmlPara, htmlMark]]
          rw [hpo] at hpost
          exact stripPre_cons_none
            (fun he => plain_ne (plainStr_mem hpost (by simp)) (by decide) he.symm)
      | bold bb =>
        rw [show bHtml (Block.par ⟨[], Mark.bold bb, post⟩) ++ r
            = strongOpen ++ (bb ++ strongClose ++ post ++ r) by
          simp [bHtml, htmlPara, htmlMark, htmlBold]]
        exact mismatchWithin_stripPre (by decide) _
      | ital i =>
        rw [show bHtml (Block.par ⟨[], Mark.ital i, post⟩) ++ r
            = emOpen ++ (i ++ emClose ++ post ++ r) by
          simp [bHtml, htmlPara, htmlMark, htmlItal]]
        exact mismatchWithin_stripPre (by decide) _
      | boldItal bb mid i =>
        rw [show bHtml (Block.par ⟨[], Mark.boldItal bb mid i, post⟩) ++ r
            = strongOpen ++ (bb ++ strongClose ++ mid ++ htmlItal i ++ post ++ r) by
          simp [bHtml, htmlPara, htmlMark, htmlBold]]
        exact mismatchWithin_stripPre (by decide) _
      | italBold i mid bb =>
        rw [show bHtml (Block.par ⟨[], Mark.italBold i mid bb, post⟩) ++ r
            = emOpen ++ (i ++ emClose ++ mid ++ htmlBold bb ++ post ++ r) by
          simp [bHtml, htmlPara, htmlMark, htmlItal]]
        exact mismatchWithin_stripPre (by decide) _
      | link t u =>
        rw [show bHtml (Block.par ⟨[], Mark.link t u, post⟩) ++ r
            = aOpen ++ (u ++ '"' :: '>' :: t ++ aClose ++ post ++ r) by
          simp [bHtml, htmlPara, htmlMark, htmlLink]]
        exact mismatchWithin_stripPre (by decide) _
    · rw [show bHtml (Block.par ⟨cp :: ps, m, post⟩) ++ r
          = cp :: (ps ++ htmlMark m ++ post ++ r) by simp [bHtml, htmlPara]]
      rw [hpe] at hpre
      exact stripPre_cons_none
        (fun he => plain_ne (plainStr_mem hpre (by simp)) (by decide) he.symm)

theorem replAll_nlUl_id_lines {ls : List Str}
    (h1 : ∀ l ∈ ls, ¬ '\n' ∈ l)
    (h2 : ∀ l ∈ ls, ∀ r, stripPre (ofStr ("<ul>")) (l ++ r) = none) :
    replAll nlUl liSep (joinNl ls) = joinNl ls := by
  induction ls with
  | nil => rfl
  | cons x xs ih =>
    cases xs with
    | nil =>
      show replAll nlUl liSep x = x
      exact scan_eq_self_of_forall
        (fun c cs hc => litStep_none_head cs hc)
        (fun c hc he => h1 x (by simp) (by rw [← he]; exact hc))
    | cons y ys =>
      show replAll nlUl liSep (x ++ '\n' :: joinNl (y :: ys))
        = x ++ '\n' :: joinNl (y :: ys)
      rw [replAll_nlUl_plain (fun c hc he => h1 x (by simp) (by rw [← he]; exact hc)) _]
      have hnone : litStep nlUl liSep ('\n' :: joinNl (y :: ys)) = none := by
        apply litStep_fail
        rw [show nlUl = '\n' :: ofStr ("<ul>") from rfl]
        rw [show stripPre ('\n' :: ofStr ("<ul>")) ('\n' :: joinNl (y :: ys))
            = stripPre (ofStr ("<ul>")) (joinNl (y :: ys)) by simp [stripPre]]
        cases ys with
        | nil =>
          rw [show joinNl [y] = y ++ [] by
            rw [show joinNl [y] = y from rfl]
            simp]
          exact h2 y (by simp) []
        | cons z zs =>
          rw [show joinNl (y :: z :: zs) = y ++ '\n' :: joinNl (z :: zs) from rfl]
          exact h2 y (by simp) _
      rw [show replAll nlUl liSep ('\n' :: joinNl (y :: ys))
          = '\n' :: replAll nlUl liSep (joinNl (y :: ys)) from scan_cons_none hnone]
      rw [ih (fun l hl => h1 l (List.mem_cons_of_mem _ hl))
        (fun l hl => h2 l (List.mem_cons_of_mem _ hl))]

theorem passB8 (bs : List Block) (hwf : ∀ b ∈ bs, wfBlock b = true) :
    replAll nlUl liSep (joinNl (bs.map bHtml)) = joinNl (bs.map bHtml) := by
  apply replAll_nlUl_id_lines
  · intro l hl
    rcases List.mem_map.mp hl with ⟨b, hb, rfl⟩
    exact bHtml_no_nl (hwf b hb)
  · intro l hl r
    rcases List.mem_map.mp hl with ⟨b, hb, rfl⟩
    exact stripPre_ul_bHtml (hwf b hb) r

theorem bHtml_segs (b : Block) : segsStr (bSegsH b) = bHtml b := by
  cases b with
  | hd n t => simp [bSegsH, segsStr, segStr, bHtml]
  | par p =>
    simp [bSegsH, segsStr, segStr, segsStr_append, segsStr_markSegsA0, bHtml,
      htmlPara]

theorem bSegsH_litOk {pat : Str} {b : Block} (hb : wfBlock b = true)
    (h1 : segSafe pat (hOpenN 1) = true) (h2 : segSafe pat (hCloseN 1) = true)
    (h3 : segSafe pat (hOpenN 2) = true) (h4 : segSafe pat (hCloseN 2) = true)
    (h5 : segSafe pat (hOpenN 3) = true) (h6 : segSafe pat (hCloseN 3) = true)
    (hso : segSafe pat strongOpen = true) (hsc : segSafe pat strongClose = true)
    (heo : segSafe pat emOpen = true) (hec : segSafe pat emClose = true)
    (hao : segSafe pat aOpen = true) (hq : segSafe pat ('"' :: ['>']) = true)
    (hac : segSafe pat aClose = true) :
    segsLitOk pat (bSegsH b) = true := by
  cases b with
  | hd n t =>
    rcases wfHd_parts hb with ⟨hn, _, _⟩
    rcases hn with rfl | rfl | rfl <;>
      simp [bSegsH, segsLitOk, h1, h2, h3, h4, h5, h6]
  | par p =>
    rw [bSegsH, segsLitOk]
    exact segsLitOk_append (markSegsA_litOk hso hsc heo hec hao hq hac)
      (by simp [segsLitOk])

theorem bSegsH_txt {b : Block} (hb : wfBlock b = true) :
    segsTxtP (fun c => ¬ c = '<') (bSegsH b) := by
  cases b with
  | hd n t =>
    exact segsTxtP_cons_lit (segsTxtP_cons_txt
      (fun c hc => plain_ne (plainStr_mem (wfHd_parts hb).2.1 hc) (by decide))
      (segsTxtP_cons_lit segsTxtP_nil))
  | par p =>
    rcases wfPara_parts hb with ⟨hpre, hpost, hm, _⟩
    exact segsTxtP_cons_txt
      (fun c hc => plain_ne (plainStr_mem hpre hc) (by decide))
      (segsTxtP_append (segsTxtP_mono (fun c h => pmP_ne_lt h) (markSegsA_txt hm))
        (segsTxtP_cons_txt
          (fun c hc => plain_ne (plainStr_mem hpost hc) (by decide))
          segsTxtP_nil))

theorem passB9 (bs : List Block) (hwf : ∀ b ∈ bs, wfBlock b = true) :
    replAll ulNlUl [] (joinNl (bs.map bHtml)) = joinNl (bs.map bHtml) := by
  refine scan_joinNl (fun cs => ?_) (fun b hb r hr => ?_)
  · exact litStep_fail (by
      rw [show ulNlUl = '<' :: (ofStr ("/ul>") ++ '\n' :: ofStr ("<ul>")) by decide]
      exact stripPre_cons_none (by decide))
  · rw [← bHtml_segs b]
    exact scan_append_segs (fun l hl => litStep_fail hl)
      (fun c cs hc => litStep_fail (by
        rw [show ulNlUl = '<' :: (ofStr ("/ul>") ++ '\n' :: ofStr ("<ul>")) by decide]
        exact stripPre_cons_none (fun he => hc he.symm)))
      (bSegsH_litOk (hwf b hb) (by decide) (by decide) (by decide) (by decide)
        (by decide) (by decide) (by decide) (by decide) (by decide) (by decide)
        (by decide) (by decide) (by decide))
      (bSegsH_txt (hwf b hb)) r

theorem passB10 (bs : List Block) (hwf : ∀ b ∈ bs, wfBlock b = true) :
    replAll ulClose [] (joinNl (bs.map bHtml)) = joinNl (bs.map bHtml) := by
  refine scan_joinNl (fun cs => ?_) (fun b hb r hr => ?_)
  · exact litStep_fail (by
      rw [show ulClose = '<' :: ofStr ("/ul>") by decide]
      exact stripPre_cons_none (by decide))
  · rw [← bHtml_segs b]
    exact scan_append_segs (fun l hl => litStep_fail hl)
      (fun c cs hc => litStep_fail (by
        rw [show ulClose = '<' :: ofStr ("/ul>") by decide]
        exact stripPre_cons_none (fun he => hc he.symm)))
      (bSegsH_litOk (hwf b hb) (by decide) (by decide) (by decide) (by decide)
        (by decide) (by decide) (by decide) (by decide) (by decide) (by decide)
        (by decide) (by decide) (by decide))
      (bSegsH_txt (hwf b hb)) r

theorem replAll_nl_joinNl {rep : Str} {ls : List Str}
    (hnl : ∀ l ∈ ls, ¬ '\n' ∈ l) (hne : ¬ ls = []) :
    replAll ['\n'] rep (joinNl ls) = interSep rep ls := by
  induction ls with
  | nil => exact absurd rfl hne
  | cons x xs ih =>
    cases xs with
    | nil =>
      show replAll ['\n'] rep x = interSep rep [x]
      rw [show interSep rep [x] = x from rfl]
      exact scan_eq_self_of_forall
        (fun c cs hc => litStep_none_head cs hc)
        (fun c hc he => hnl x (by simp) (by rw [← he]; exact hc))
    | cons y ys =>
      show replAll ['\n'] rep (x ++ '\n' :: joinNl (y :: ys))
        = interSep rep (x :: y :: ys)
      rw [replAll_append_plain
        (fun c hc he => hnl x (by simp) (by rw [← he]; exact hc)) _]
      rw [show ('\n' :: joinNl (y :: ys)) = ['\n'] ++ joinNl (y :: ys) from rfl,
        replAll_match (by simp) _]
      rw [ih (fun l hl => hnl l (List.mem_cons_of_mem _ hl)) (by simp)]
      rw [show interSep rep (x :: y :: ys) = x ++ rep ++ interSep rep (y :: ys)
        from rfl]
      simp

theorem stageB (bs : List Block) (hne : ¬ bs = [])
    (hwf : ∀ b ∈ bs, wfBlock b = true) :
    convertMarkdownToHTML (joinNl (bs.map mdB)) = interSep brTag (bs.map bHtml) := by
  have hedge : ∀ l ∈ bs.map mdB, edgeOk l = true := by
    intro l hl
    rcases List.mem_map.mp hl with ⟨b, hb, rfl⟩
    cases b with
    | hd n t => exact (wfHd_parts (hwf _ hb)).2.2
    | par q => exact (wfPara_parts (hwf _ hb)).2.2.2
  have hmapne : ¬ bs.map mdB = [] := by
    intro h
    apply hne
    cases bs with
    | nil => rfl
    | cons a b2 => simp at h
  rcases joinNl_edges hmapne hedge with ⟨hjne, hjh, hjl⟩
  have hguard : ¬ trimC (joinNl (bs.map mdB)) = [] := by
    intro hg
    rw [trimC_eq_nil_iff] at hg
    rcases hje : joinNl (bs.map mdB) with _ | ⟨c0, cs0⟩
    · exact hjne hje
    have hw1 := hjh c0 (by rw [hje]; rfl)
    have hw2 := hg c0 (by rw [hje]; simp)
    rw [hw1] at hw2
    cases hw2
  have hm0 : bs.map mdB = bs.map (hStage 0) :=
    map_eq_of_eqB (fun b hb => (hStage0_mdB (hwf b hb)).symm)
  have hbne : ¬ bs.map bHtml = [] := by
    intro h
    apply hne
    cases bs with
    | nil => rfl
    | cons a b2 => simp at h
  simp only [convertMarkdownToHTML]
  rw [if_neg hguard]
  rw [hm0, passBH1 bs hwf, passBH2 bs hwf, passBH3 bs hwf]
  rw [scan_joinNl (fun cs => boldStep_none cs (by decide))
    (fun b hb r hr => lineB4_blk (hwf b hb) r hr)]
  rw [scan_joinNl (fun cs => italStep_none cs (by decide))
    (fun b hb r hr => lineB5_blk (hwf b hb) r hr)]
  rw [scan_joinNl (fun cs => linkStep_none cs (by decide))
    (fun b hb r hr => lineB6_blk (hwf b hb) r hr)]
  rw [passB7 bs hwf, passB8 bs hwf, passB9 bs hwf, passB10 bs hwf]
  rw [replAll_nl_joinNl (fun l hl => by
    rcases List.mem_map.mp hl with ⟨b, hb, rfl⟩
    exact bHtml_no_nl (hwf b hb)) hbne]

theorem C1_counterexample :
    strongCaps (ofStr ("<p><strong>a</strong> x <strong>b</strong></p>"))
      = [ofStr ("a"), ofStr ("b")] ∧
    roundTrip (ofStr ("<p><strong>a</strong> x <strong>b</strong></p>"))
      = ofStr ("<strong>a<em>* x *</em>b</strong>") ∧
    strongCaps (roundTrip (ofStr ("<p><strong>a</strong> x <strong>b</strong></p>")))
      = [ofStr ("a<em>* x *</em>b")] := by
  refine ⟨by decide, ?_, ?_⟩ <;> decide

/-- C1: the round trip on the supported well-formed subset.  For a
non-empty document of h1/h2/h3 headings and paragraphs whose line holds at
most one bold span and at most one italic span (in either nesting order)
or one link over plain text, with non-whitespace line edges,
`convertMarkdownToHTML (convertHTMLToMarkdown h)` preserves the heading
levels, the bold and italic spans and the link targets: it renders the
same blocks back, with the `<p>`/`</p>` wrappers replaced by `<br>`
separators between blocks.  Several bold (or italic) spans on one line are
NOT preserved — the greedy bold regex merges them (see the
counterexample) — so the claim holds only on this restricted subset. -/
theorem C1_roundtrip_restricted (bs : List Block) (h : wfDoc bs = true) :
    roundTrip (renderDoc bs) = interSep brTag (bs.map bHtml) := by
  rw [wfDoc] at h
  simp only [Bool.and_eq_true, decide_eq_true_eq, List.all_eq_true] at h
  obtain ⟨hne0, hwf⟩ := h
  have hne : ¬ bs = [] := by
    intro he
    subst he
    exact hne0 rfl
  rw [roundTrip, stageA bs hne hwf, stageB bs hne hwf]

theorem C1_roundtrip_restricted_witness :
    wfDoc [Block.hd 2 (ofStr ("T")),
      Block.par ⟨ofStr ("x "), Mark.ital (ofStr ("i")), ofStr (" y")⟩] = true ∧
    roundTrip (renderDoc [Block.hd 2 (ofStr ("T")),
      Block.par ⟨ofStr ("x "), Mark.ital (ofStr ("i")), ofStr (" y")⟩])
      = ofStr ("<h2>T</h2><br>x <em>i</em> y") :=
  ⟨by decide, by rw [C1_roundtrip_restricted _ (by decide)]; decide⟩

end CuriousEditor
